import Mathlib

/-! # godis: a shallow embedding of the dictionary, the protocol pipeline and the reply writer

Conventions of the embedding.

* A Go pointer `*Gobj` is an address `Ptr`; the heap maps every address to the object stored
  there.  Go is garbage collected, so a non-nil pointer is always valid: the heap is total.
* A function returns `none` when the Go code does not return normally: a run-time panic
  (index out of range, nil dereference, failed type assertion, negative `make`) or a loop
  that never ends.
* Go `int`/`int64` values are `Int`.  Where the code relies on the bit pattern (the hash and
  `h & mask`) the 64-bit two's complement representation is explicit.
* A Go `string`/`[]byte` is the list of its bytes.
-/

namespace Godis

/-! ## obj.go -/

abbrev Bytes := List Nat

/-- The bytes of an ASCII string literal. -/
def bytes (s : String) : Bytes := s.toList.map Char.toNat

abbrev GType := Nat

def GSTR : GType := 0
def GList : GType := 1
def GSet : GType := 2
def GZSet : GType := 3
def GDict : GType := 4

/-- The dynamic value `Gval any`: nil, a string, or a value of some other type. -/
inductive Gval where
  | nil
  | str (s : Bytes)
  | other
deriving DecidableEq, Repr

structure Gobj where
  Type_ : GType
  Val_ : Gval
  refCount : Int
deriving DecidableEq, Repr

abbrev Ptr := Nat

abbrev Heap := Ptr → Gobj

def MaxInt64 : Int := 9223372036854775807
def MinInt64 : Int := -9223372036854775808

/-- The unsigned 64-bit pattern of an `int64`. -/
def toU64 (x : Int) : Nat := (x % 18446744073709551616).toNat

/-- The `int64` with a given 64-bit pattern (Go's `int64(u)` conversion). -/
def toInt64 (u : Nat) : Int :=
  if u % 18446744073709551616 < 9223372036854775808 then ((u % 18446744073709551616 : Nat) : Int)
  else ((u % 18446744073709551616 : Nat) : Int) - 18446744073709551616

/-- The operator `a & b` on two `int64` values. -/
def and64 (a b : Int) : Int := toInt64 (Nat.land (toU64 a) (toU64 b))

/-- Result of `strconv.ParseUint(s, 10, 64)`. -/
inductive UintRes where
  | ok (n : Nat)
  | malformed
  | outOfRange
deriving DecidableEq, Repr

/-- The digit loop of `strconv.ParseUint` for base 10 and 64 bits: a byte that is not a
decimal digit is a syntax error; a value above `1<<64 - 1` is a range error, returned at
once. -/
def parseUintLoop : Bytes → Nat → UintRes
  | [], n => .ok n
  | c :: cs, n =>
    if 48 ≤ c ∧ c ≤ 57 then
      if n ≥ 1844674407370955162 then .outOfRange
      else if n * 10 + (c - 48) > 18446744073709551615 then .outOfRange
      else parseUintLoop cs (n * 10 + (c - 48))
    else .malformed

def ParseUint (s : Bytes) : UintRes :=
  if s = [] then .malformed else parseUintLoop s 0

/-- The function `strconv.ParseInt(s, 10, 64)`: the value and whether `err != nil`.  On a
syntax error the value is 0, on a range error it is the nearest `int64`. -/
def ParseInt (s : Bytes) : Int × Bool :=
  match s with
  | [] => (0, true)
  | c :: cs =>
    let neg := c = 45
    let body := if c = 43 ∨ c = 45 then cs else s
    match ParseUint body with
    | .malformed => (0, true)
    | .outOfRange => if neg then (MinInt64, true) else (MaxInt64, true)
    | .ok un =>
      if ¬ neg ∧ un ≥ 9223372036854775808 then (MaxInt64, true)
      else if neg ∧ un > 9223372036854775808 then (MinInt64, true)
      else (if neg then - (un : Int) else (un : Int), false)

/-- The function `strconv.Atoi` on a 64-bit platform: same value and error as
`ParseInt(s, 10, 64)` (its fast path for short inputs computes the same result). -/
def Atoi (s : Bytes) : Int × Bool := ParseInt s

/-- Decimal digits of a natural number, most significant first (`fuel` bounds the number of
digits). -/
def decDigits : Nat → Nat → Bytes → Bytes
  | 0, _, acc => acc
  | fuel + 1, n, acc =>
    if n < 10 then (48 + n) :: acc else decDigits fuel (n / 10) ((48 + n % 10) :: acc)

/-- The function `strconv.FormatInt(val, 10)`. -/
def FormatInt (val : Int) : Bytes :=
  if val < 0 then 45 :: decDigits 20 val.natAbs [] else decDigits 20 val.natAbs []

/-- Method `IntVal`: `none` when the type assertion `o.Val_.(string)` panics. -/
def Gobj.IntVal (o : Gobj) : Option Int :=
  if o.Type_ ≠ GSTR then some 0
  else match o.Val_ with
    | .str s => some (ParseInt s).1
    | _ => none

/-- Method `StrVal`: `none` when the type assertion `o.Val_.(string)` panics. -/
def Gobj.StrVal (o : Gobj) : Option Bytes :=
  if o.Type_ ≠ GSTR then some []
  else match o.Val_ with
    | .str s => some s
    | _ => none

def CreateFromInt (val : Int) : Gobj :=
  { Type_ := GSTR, Val_ := .str (FormatInt val), refCount := 1 }

def CreateObject (typ : GType) (val : Gval) : Gobj :=
  { Type_ := typ, Val_ := val, refCount := 1 }

def Gobj.incr (o : Gobj) : Gobj := { o with refCount := o.refCount + 1 }

def Gobj.decr (o : Gobj) : Gobj :=
  { o with refCount := o.refCount - 1,
           Val_ := if o.refCount - 1 = 0 then .nil else o.Val_ }

def IncrRefCount (h : Heap) (o : Ptr) : Heap := Function.update h o (h o).incr

def DecrRefCount (h : Heap) (o : Ptr) : Heap := Function.update h o (h o).decr

/-! ## dict.go -/

def InitSize : Int := 8
def ForceRatio : Int := 2
def GrowRatio : Int := 2
def DefaultStep : Nat := 1

inductive DictErr where
  | EpErr
  | ExErr
  | NkErr
deriving DecidableEq, Repr

/-- A chain entry; the field `next` is the rest of the list the entry is stored in. -/
structure Entry where
  Key : Ptr
  Val : Option Ptr
deriving DecidableEq, Repr

/-- A slot of `table` is the chain hanging from it, `[]` for a nil slot. -/
structure htable where
  table : List (List Entry)
  size : Int
  mask : Int
  used : Int
deriving DecidableEq, Repr

structure DictType where
  HashFunc : Gobj → Option Int
  EqualFunc : Gobj → Gobj → Option Bool

structure Dict where
  hts0 : Option htable
  hts1 : Option htable
  rehashIdx : Int
deriving DecidableEq, Repr

/-- The address of an `Entry`: table number, slot and position in the slot's chain. -/
structure EntryRef where
  t : Nat
  idx : Nat
  pos : Nat
deriving DecidableEq, Repr

def Dict.hts (d : Dict) (i : Nat) : Option htable :=
  if i = 0 then d.hts0 else d.hts1

def Dict.setHt (d : Dict) (i : Nat) (t : htable) : Dict :=
  if i = 0 then { d with hts0 := some t } else { d with hts1 := some t }

def DictCreate : Dict := { hts0 := none, hts1 := none, rehashIdx := -1 }

def Dict.isRehashing (d : Dict) : Bool := d.rehashIdx != -1

/-- The read `table[i]`: `none` is the index-out-of-range panic. -/
def getSlot (tbl : List (List Entry)) (i : Int) : Option (List Entry) :=
  if i < 0 then none else tbl[i.toNat]?

def setSlot (tbl : List (List Entry)) (i : Int) (c : List Entry) : List (List Entry) :=
  tbl.set i.toNat c

/-- The loop `for table[rehashIdx] == nil { rehashIdx++ }` over the slots from `i` on:
the first non-nil slot, or `none` when the scan leaves the table. -/
def skipEmpty : List (List Entry) → Nat → Option Nat
  | [], _ => none
  | c :: rest, i => if c = [] then skipEmpty rest (i + 1) else some i

/-- The loop of `rehash` moving the chain `entry` to `hts[1]`, head first. -/
def moveChain (ty : DictType) (h : Heap) : List Entry → htable → htable → Option (htable × htable)
  | [], t0, t1 => some (t0, t1)
  | e :: es, t0, t1 => do
    let hv ← ty.HashFunc (h e.Key)
    let idx := and64 hv t1.mask
    let slot ← getSlot t1.table idx
    moveChain ty h es { t0 with used := t0.used - 1 }
      { t1 with table := setSlot t1.table idx (e :: slot), used := t1.used + 1 }

def rehash (ty : DictType) (h : Heap) : Nat → Dict → Option Dict
  | 0, d => some d
  | step + 1, d => do
    let t0 ← d.hts0
    if t0.used = 0 then
      some { hts0 := d.hts1, hts1 := none, rehashIdx := -1 }
    else
      if d.rehashIdx < 0 then none else
      let i ← skipEmpty (t0.table.drop d.rehashIdx.toNat) d.rehashIdx.toNat
      let entry ← getSlot t0.table i
      let t1 ← d.hts1
      let (t0', t1') ← moveChain ty h entry t0 t1
      rehash ty h step
        { hts0 := some { t0' with table := setSlot t0'.table i [] },
          hts1 := some t1',
          rehashIdx := (i : Int) + 1 }

def rehashStep (ty : DictType) (h : Heap) (d : Dict) : Option Dict :=
  rehash ty h DefaultStep d

/-- Wrap-around of an `int64` product. -/
def wrap64 (x : Int) : Int := toInt64 (toU64 x)

/-- The loop of `nextPower`; running out of fuel means the Go loop is still running (after
`i` has wrapped to 0 it never ends). -/
def nextPowerLoop : Nat → Int → Int → Option Int
  | 0, _, _ => none
  | fuel + 1, i, size =>
    if i < MaxInt64 then
      if i ≥ size then some i else nextPowerLoop fuel (wrap64 (i * 2)) size
    else some (-1)

def nextPower (size : Int) : Option Int := nextPowerLoop 70 InitSize size

def expand (d : Dict) (size : Int) : Option (Option DictErr × Dict) := do
  let sz ← nextPower size
  let blocked := match d.hts0 with
    | some t0 => decide (t0.size ≥ sz)
    | none => false
  if d.isRehashing || blocked then some (some .EpErr, d)
  else if sz < 0 then none
  else
    let ht : htable := { table := List.replicate sz.toNat [], size := sz, mask := sz - 1, used := 0 }
    match d.hts0 with
    | none => some (none, { d with hts0 := some ht })
    | some _ => some (none, { d with hts1 := some ht, rehashIdx := 0 })

def expandIfNeed (d : Dict) : Option (Option DictErr × Dict) :=
  if d.isRehashing then some (none, d)
  else match d.hts0 with
    | none => expand d InitSize
    | some t0 =>
      if t0.used > t0.size then
        if t0.size = 0 then none
        else if Int.tdiv t0.used t0.size > ForceRatio then expand d (t0.size * GrowRatio)
        else some (none, d)
      else some (none, d)

/-- The chain walk `for e != nil { if EqualFunc(e.Key, key) ... }`: position of the first
entry whose key equals `key`. -/
def findInChain (ty : DictType) (h : Heap) (key : Ptr) : List Entry → Option (Option Nat)
  | [] => some none
  | e :: es => do
    let eq ← ty.EqualFunc (h e.Key) (h key)
    if eq then some (some 0)
    else do
      let r ← findInChain ty h key es
      some (r.map (· + 1))

/-- The loop `for i := 0; i <= 1; i++` of `keyIndex` from table `i` on. -/
def keyIndexLoop (ty : DictType) (h : Heap) (d : Dict) (key : Ptr) (hv : Int) :
    Nat → Nat → Option Int
  | 0, _ => none
  | fuel + 1, i => do
    let t ← d.hts i
    let idx := and64 hv t.mask
    let e ← getSlot t.table idx
    let r ← findInChain ty h key e
    match r with
    | some _ => some (-1)
    | none =>
      if !d.isRehashing then some idx
      else if i + 1 ≤ 1 then keyIndexLoop ty h d key hv fuel (i + 1)
      else some idx

def keyIndex (ty : DictType) (h : Heap) (d : Dict) (key : Ptr) : Option (Int × Dict) := do
  let (err, d1) ← expandIfNeed d
  if err ≠ none then some (-1, d1)
  else do
    let hv ← ty.HashFunc (h key)
    let idx ← keyIndexLoop ty h d1 key hv 2 0
    some (idx, d1)

def AddRaw (ty : DictType) (h : Heap) (d : Dict) (key : Ptr) :
    Option (Option EntryRef × Heap × Dict) := do
  let d1 ← if d.isRehashing then rehashStep ty h d else some d
  let (idx, d2) ← keyIndex ty h d1 key
  if idx = -1 then some (none, h, d2)
  else do
    let tn : Nat := if d2.isRehashing then 1 else 0
    let ht ← d2.hts tn
    let slot ← getSlot ht.table idx
    let h' := IncrRefCount h key
    let ht' : htable :=
      { ht with table := setSlot ht.table idx ({ Key := key, Val := none } :: slot),
                used := ht.used + 1 }
    some (some { t := tn, idx := idx.toNat, pos := 0 }, h', d2.setHt tn ht')

/-- The entry a reference points to. -/
def Dict.entryAt (d : Dict) (r : EntryRef) : Option Entry := do
  let t ← d.hts r.t
  let chain ← t.table[r.idx]?
  chain[r.pos]?

/-- The assignment `entry.Val = val` through an entry pointer. -/
def Dict.setVal (d : Dict) (r : EntryRef) (val : Ptr) : Option Dict := do
  let t ← d.hts r.t
  let chain ← t.table[r.idx]?
  let e ← chain[r.pos]?
  some (d.setHt r.t
    { t with table := t.table.set r.idx (chain.set r.pos { e with Val := some val }) })

def Add (ty : DictType) (h : Heap) (d : Dict) (key val : Ptr) :
    Option (Option DictErr × Heap × Dict) := do
  let (entry, h1, d1) ← AddRaw ty h d key
  match entry with
  | none => some (some .ExErr, h1, d1)
  | some r => do
    let d2 ← d1.setVal r val
    some (none, IncrRefCount h1 val, d2)

/-- The loop `for i := 0; i <= 1; i++` of `Find` from table `i` on. -/
def findLoop (ty : DictType) (h : Heap) (d : Dict) (key : Ptr) (hv : Int) :
    Nat → Nat → Option (Option EntryRef)
  | 0, _ => none
  | fuel + 1, i => do
    let t ← d.hts i
    let idx := and64 hv t.mask
    let e ← getSlot t.table idx
    let r ← findInChain ty h key e
    match r with
    | some pos => some (some { t := i, idx := idx.toNat, pos := pos })
    | none =>
      if !d.isRehashing then some none
      else if i + 1 ≤ 1 then findLoop ty h d key hv fuel (i + 1)
      else some none

def Find (ty : DictType) (h : Heap) (d : Dict) (key : Ptr) : Option (Option EntryRef × Dict) :=
  match d.hts0 with
  | none => some (none, d)
  | some _ => do
    let d1 ← if d.isRehashing then rehashStep ty h d else some d
    let hv ← ty.HashFunc (h key)
    let r ← findLoop ty h d1 key hv 2 0
    some (r, d1)

def Set (ty : DictType) (h : Heap) (d : Dict) (key val : Ptr) : Option (Heap × Dict) := do
  let (err, h1, d1) ← Add ty h d key val
  if err = none then some (h1, d1)
  else do
    let (entry, d2) ← Find ty h1 d1 key
    let r ← entry
    let e ← d2.entryAt r
    let old ← e.Val
    let h2 := DecrRefCount h1 old
    let d3 ← d2.setVal r val
    some (IncrRefCount h2 val, d3)

def freeEntry (h : Heap) (e : Entry) : Option Heap := do
  let v ← e.Val
  some (DecrRefCount (DecrRefCount h e.Key) v)

/-- The loop `for i := 0; i <= 1; i++` of `Delete` from table `i` on. -/
def deleteLoop (ty : DictType) (h : Heap) (d : Dict) (key : Ptr) (hv : Int) :
    Nat → Nat → Option (Option DictErr × Heap × Dict)
  | 0, _ => none
  | fuel + 1, i => do
    let t ← d.hts i
    let idx := and64 hv t.mask
    let chain ← getSlot t.table idx
    let r ← findInChain ty h key chain
    match r with
    | some pos => do
      let e ← chain[pos]?
      let h' ← freeEntry h e
      some (none, h', d.setHt i { t with table := setSlot t.table idx (chain.eraseIdx pos) })
    | none =>
      if !d.isRehashing then some (some .NkErr, h, d)
      else if i + 1 ≤ 1 then deleteLoop ty h d key hv fuel (i + 1)
      else some (some .NkErr, h, d)

def Delete (ty : DictType) (h : Heap) (d : Dict) (key : Ptr) :
    Option (Option DictErr × Heap × Dict) :=
  match d.hts0 with
  | none => some (some .NkErr, h, d)
  | some _ => do
    let d1 ← if d.isRehashing then rehashStep ty h d else some d
    let hv ← ty.HashFunc (h key)
    deleteLoop ty h d1 key hv 2 0

def Get (ty : DictType) (h : Heap) (d : Dict) (key : Ptr) : Option (Option Ptr × Dict) := do
  let (entry, d1) ← Find ty h d key
  match entry with
  | none => some (none, d1)
  | some r => do
    let e ← d1.entryAt r
    some (e.Val, d1)

/-- The call `rand.Int63n(n)` when the generator draws the raw number `r`: a value in
`[0, n)`; the call panics when `n <= 0`. -/
def Int63n (r : Nat) (n : Int) : Option Int :=
  if n ≤ 0 then none else some ((r : Int) % n)

/-- The loop `for table[idx] == nil && cnt < 1000 { idx = rand.Int63n(size); cnt++ }` of
`RandomGet`: the slot it ends on and the number of draws it made.  `rnd i` is the `i`-th raw
number the generator draws during the call. -/
def randomSlot (rnd : Nat → Nat) (t : htable) : Nat → Nat → Int → Option (Int × Nat)
  | 0, _, _ => none
  | fuel + 1, cnt, idx => do
    let chain ← getSlot t.table idx
    if chain = [] ∧ cnt < 1000 then do
      let idx' ← Int63n (rnd (cnt + 1)) t.size
      randomSlot rnd t fuel (cnt + 1) idx'
    else some (idx, cnt)

/-- The choice of the table in `RandomGet` after its rehash step: `t = 1` when `ht[1]` is
there and holds more entries than `ht[0]`. -/
def randomTable (d : Dict) : Option Nat :=
  match d.hts1 with
  | none => some 0
  | some t1 => do
    let t0 ← d.hts0
    some (if t1.used > t0.used then 1 else 0)

/-- The draw of `RandomGet` in the table `ht`, which is `hts[t]`: a random slot, then a
random entry of its chain. -/
def randomEntry (rnd : Nat → Nat) (ht : htable) (t : Nat) : Option (Option EntryRef) := do
  let idx0 ← Int63n (rnd 0) ht.size
  let (idx, cnt) ← randomSlot rnd ht 1001 0 idx0
  let chain ← getSlot ht.table idx
  if chain = [] then some none
  else do
    let listIdx ← Int63n (rnd (cnt + 1)) (chain.length : Int)
    let _ ← chain[listIdx.toNat]?
    some (some { t := t, idx := idx.toNat, pos := listIdx.toNat })

def RandomGet (ty : DictType) (h : Heap) (rnd : Nat → Nat) (d : Dict) :
    Option (Option EntryRef × Dict) :=
  match d.hts0 with
  | none => some (none, d)
  | some _ =>
    (if d.isRehashing then rehashStep ty h d else some d).bind fun d1 =>
    (if d.isRehashing then randomTable d1 else some 0).bind fun t =>
    (d1.hts t).bind fun ht =>
    (randomEntry rnd ht t).bind fun r => some (r, d1)

/-! ## godis.go: the dictionary policy -/

/-- The 64-bit FNV-1 hash of `hash/fnv.New64`. -/
def fnv1 (bs : Bytes) : Nat :=
  bs.foldl (fun hv b => Nat.xor ((hv * 1099511628211) % 18446744073709551616) b)
    14695981039346656037

def GStrEqual (a b : Gobj) : Option Bool :=
  if a.Type_ ≠ GSTR ∨ b.Type_ ≠ GSTR then some false
  else do
    let x ← a.StrVal
    let y ← b.StrVal
    some (decide (x = y))

def GStrHash (key : Gobj) : Option Int :=
  if key.Type_ ≠ GSTR then some 0
  else do
    let s ← key.StrVal
    some (toInt64 (fnv1 s))

def gstrType : DictType := { HashFunc := GStrHash, EqualFunc := GStrEqual }

/-! ## ae.go: file events -/

def AEReadable : Nat := 1
def AEWriteable : Nat := 2

def EPOLLIN : Nat := 1
def EPOLLOUT : Nat := 4

def EPOLL_CTL_ADD : Nat := 1
def EPOLL_CTL_DEL : Nat := 2
def EPOLL_CTL_MOD : Nat := 3

/-- The table `fe2ep`. -/
def fe2ep (mask : Nat) : Nat :=
  if mask = AEReadable then EPOLLIN else if mask = AEWriteable then EPOLLOUT else 0

def AENormal : Nat := 1
def AEOnce : Nat := 2

/-- A time event; `proc` names the callback and the field `next` is the rest of the list
the event is stored in. -/
structure AeTimeEvent where
  id : Int
  mask : Nat
  when : Int
  interval : Int
  proc : Nat
deriving DecidableEq, Repr

/-- The event loop: `FileEvents key` tells whether the map holds a non-nil event under
`key`; `TimeEvents` is the linked list of time events from its head.  The defaults are the
values `AeLoopCreate` gives. -/
structure AeLoop where
  FileEvents : Int → Bool
  TimeEvents : List AeTimeEvent := []
  timeEventNextID : Int := 1

/-- What the operating system answers: `EpollCtl op fd ev` is `true` when the system call
`unix.EpollCtl` returns no error. -/
structure Env where
  EpollCtl : Nat → Int → Nat → Bool

def getFeKey (fd : Int) (mask : Nat) : Int :=
  if mask = AEReadable then fd else fd * -1

def AeLoop.getEpollMask (loop : AeLoop) (fd : Int) : Nat :=
  let ev := if loop.FileEvents (getFeKey fd AEReadable) then Nat.lor 0 (fe2ep AEReadable) else 0
  if loop.FileEvents (getFeKey fd AEWriteable) then Nat.lor ev (fe2ep AEWriteable) else ev

def AeLoop.AddFileEvent (env : Env) (loop : AeLoop) (fd : Int) (mask : Nat) : AeLoop :=
  let ev := loop.getEpollMask fd
  if Nat.land ev (fe2ep mask) ≠ 0 then loop
  else
    let op := if ev ≠ 0 then EPOLL_CTL_MOD else EPOLL_CTL_ADD
    if env.EpollCtl op fd (Nat.lor ev (fe2ep mask)) then
      { loop with FileEvents := Function.update loop.FileEvents (getFeKey fd mask) true }
    else loop

def AeLoop.RemoveFileEvent (env : Env) (loop : AeLoop) (fd : Int) (mask : Nat) : AeLoop :=
  let ev := Nat.land (loop.getEpollMask fd) (Nat.xor (fe2ep mask) 4294967295)
  let op := if ev ≠ 0 then EPOLL_CTL_MOD else EPOLL_CTL_DEL
  if env.EpollCtl op fd ev then
    { loop with FileEvents := Function.update loop.FileEvents (getFeKey fd mask) false }
  else loop

/-! ## ae.go: time events -/

def AeLoopCreate : AeLoop :=
  { FileEvents := fun _ => false, TimeEvents := [], timeEventNextID := 1 }

/-- Method `AddTimeEvent`, `now` being the reading of `GetMsTime()`.  The new event is
`var te AeTimeEvent` with the fields `id`, `mask`, `when`, `proc`, `extra` and `next`
assigned; the field `interval` is not assigned and keeps its zero value. -/
def AeLoop.AddTimeEvent (now : Int) (loop : AeLoop) (mask : Nat) (interval : Int) (proc : Nat) :
    Int × AeLoop :=
  let id := loop.timeEventNextID
  let te : AeTimeEvent :=
    { id := id, mask := mask, when := wrap64 (now + interval), interval := 0, proc := proc }
  (id, { loop with TimeEvents := te :: loop.TimeEvents, timeEventNextID := wrap64 (id + 1) })

/-- The walk of `RemoveTimeEvent`: unlink the first event whose id is `id`. -/
def unlinkTimeEvent (id : Int) : List AeTimeEvent → List AeTimeEvent
  | [] => []
  | p :: rest => if p.id = id then rest else p :: unlinkTimeEvent id rest

def AeLoop.RemoveTimeEvent (loop : AeLoop) (id : Int) : AeLoop :=
  { loop with TimeEvents := unlinkTimeEvent id loop.TimeEvents }

/-- The loop `collect time events` of `AeWait`: the events due at `now`, in list order. -/
def AeLoop.dueTimeEvents (loop : AeLoop) (now : Int) : List AeTimeEvent :=
  loop.TimeEvents.filter (fun p => decide (p.when ≤ now))

/-- The assignment `te.when = w` through a pointer to a linked event.  A pointer to a time
event is represented by the id of the event: `AddTimeEvent` gives every event its own. -/
def assignWhen (id : Int) (w : Int) : List AeTimeEvent → List AeTimeEvent
  | [] => []
  | p :: rest => if p.id = id then { p with when := w } :: rest else p :: assignWhen id w rest

/-- The time-event loop of `AeProcess` over the due events `tes`.  `procs p loop id` is what
the callback named `p` leaves of the loop, and `clock i` is the reading of `GetMsTime()`
after the callback of the `i`-th event. -/
def AeProcess (procs : Nat → AeLoop → Int → AeLoop) (clock : Nat → Int) :
    Nat → AeLoop → List AeTimeEvent → AeLoop
  | _, loop, [] => loop
  | i, loop, te :: tes =>
    let loop1 := procs te.proc loop te.id
    let loop2 :=
      if te.mask = AEOnce then loop1.RemoveTimeEvent te.id
      else { loop1 with
        TimeEvents := assignWhen te.id (wrap64 (clock i + te.interval)) loop1.TimeEvents }
    AeProcess procs clock (i + 1) loop2 tes

/-! ## godis.go: server, clients, commands -/

def CommonUnkonw : Int := 0
def CommonInlie : Int := 1
def CommonBulk : Int := 2

def GodisIOBuf : Int := 1024 * 16
def GodisMaxBulk : Int := 1024 * 4
def GodisMaxInline : Int := 1024 * 4

structure GodisDB where
  data : Dict
  expire : Dict

/-- The global `server` together with the heap of objects: `brk` is the address the next
allocated object gets, `clients` lists the keys of the map `server.clients`. -/
structure GodisServer where
  heap : Heap
  brk : Ptr
  db : GodisDB
  clients : List Int
  aeLoop : AeLoop

/-- A client.  `args` may hold nil pointers (`make([]*Gobj, n)`); `reply` lists the values
of the nodes of the reply list from head to tail. -/
structure GodisClient where
  fd : Int
  args : List (Option Ptr)
  reply : List Ptr
  sentLen : Int
  queryBuf : Bytes
  queryLen : Int
  cmdTy : Int
  bulkNum : Int
  bulkLen : Int

/-- Allocation of a new object (`&Gobj{...}`). -/
def GodisServer.alloc (s : GodisServer) (o : Gobj) : Ptr × GodisServer :=
  (s.brk, { s with heap := Function.update s.heap s.brk o, brk := s.brk + 1 })

def expireIfNeed (now : Int) (s : GodisServer) (key : Ptr) : Option GodisServer := do
  let (entry, ex1) ← Find gstrType s.heap s.db.expire key
  match entry with
  | none => some { s with db := { s.db with expire := ex1 } }
  | some r => do
    let e ← ex1.entryAt r
    let v ← e.Val
    let when ← (s.heap v).IntVal
    if when > now then some { s with db := { s.db with expire := ex1 } }
    else do
      let (_, h2, ex2) ← Delete gstrType s.heap ex1 key
      let (_, h3, da2) ← Delete gstrType h2 s.db.data key
      some { s with heap := h3, db := { data := da2, expire := ex2 } }

def findKeyRead (now : Int) (s : GodisServer) (key : Ptr) : Option (Option Ptr × GodisServer) := do
  let s1 ← expireIfNeed now s key
  let (val, da) ← Get gstrType s1.heap s1.db.data key
  some (val, { s1 with db := { s1.db with data := da } })

/-- Method `List.Append` on the reply list followed by the rest of `AddReply`. -/
def AddReply (env : Env) (s : GodisServer) (c : GodisClient) (o : Ptr) :
    GodisServer × GodisClient :=
  ({ s with heap := IncrRefCount s.heap o,
            aeLoop := s.aeLoop.AddFileEvent env c.fd AEWriteable },
   { c with reply := c.reply ++ [o] })

def AddReplyStr (env : Env) (s : GodisServer) (c : GodisClient) (str : Bytes) :
    GodisServer × GodisClient :=
  let (o, s1) := s.alloc (CreateObject GSTR (.str str))
  let (s2, c2) := AddReply env s1 c o
  ({ s2 with heap := DecrRefCount s2.heap o }, c2)

/-- The read `c.args[i]` followed by a use of the pointer: `none` when the index is out of
range or the pointer is nil. -/
def GodisClient.arg (c : GodisClient) (i : Nat) : Option Ptr := (c.args[i]?).join

def getCommand (env : Env) (now : Int) (s : GodisServer) (c : GodisClient) :
    Option (GodisServer × GodisClient) := do
  let key ← c.arg 1
  let (val, s1) ← findKeyRead now s key
  match val with
  | none => some (AddReplyStr env s1 c (bytes "$-1\r\n"))
  | some v =>
    if (s1.heap v).Type_ ≠ GSTR then some (AddReplyStr env s1 c (bytes "-ERR: wrong type\r\n"))
    else do
      let str ← (s1.heap v).StrVal
      some (AddReplyStr env s1 c
        (bytes "$" ++ FormatInt (str.length : Int) ++ str ++ bytes "\r\n"))

def setCommand (env : Env) (s : GodisServer) (c : GodisClient) :
    Option (GodisServer × GodisClient) := do
  let key ← c.arg 1
  let val ← c.arg 2
  let (s0, c0) := if (s.heap val).Type_ ≠ GSTR then AddReplyStr env s c (bytes "-ERR: wrong type\r\n")
    else (s, c)
  let (h1, da) ← Set gstrType s0.heap s0.db.data key val
  let (_, h2, ex) ← Delete gstrType h1 s0.db.expire key
  some (AddReplyStr env { s0 with heap := h2, db := { data := da, expire := ex } } c0
    (bytes "+OK\r\n"))

def expireCommand (env : Env) (now : Int) (s : GodisServer) (c : GodisClient) :
    Option (GodisServer × GodisClient) := do
  let key ← c.arg 1
  let val ← c.arg 2
  let (s0, c0) := if (s.heap val).Type_ ≠ GSTR then AddReplyStr env s c (bytes "-ERR: wrong type\r\n")
    else (s, c)
  let secs ← (s0.heap val).IntVal
  let expire := wrap64 (now + wrap64 (secs * 1000))
  let (expireObj, s1) := s0.alloc (CreateFromInt expire)
  let (h1, ex) ← Set gstrType s1.heap s1.db.expire key expireObj
  some (AddReplyStr env
    { s1 with heap := DecrRefCount h1 expireObj, db := { s1.db with expire := ex } } c0
    (bytes "+OK\r\n"))

inductive CommandProc where
  | get
  | set
  | expire
deriving DecidableEq, Repr

structure GodisCommand where
  name : Bytes
  proc : CommandProc
  arity : Int
deriving DecidableEq, Repr

def cmdTable : List GodisCommand :=
  [ { name := bytes "get", proc := .get, arity := 2 },
    { name := bytes "set", proc := .set, arity := 3 },
    { name := bytes "expire", proc := .expire, arity := 3 } ]

def CommandProc.run (p : CommandProc) (env : Env) (now : Int) (s : GodisServer)
    (c : GodisClient) : Option (GodisServer × GodisClient) :=
  match p with
  | .get => getCommand env now s c
  | .set => setCommand env s c
  | .expire => expireCommand env now s c

def lookupCommand (cmdStr : Bytes) : Option GodisCommand :=
  cmdTable.find? (fun c => decide (c.name = cmdStr))

/-- The loop of `freeArgs`; a nil element is a nil dereference. -/
def freeArgsLoop : List (Option Ptr) → Heap → Option Heap
  | [], h => some h
  | none :: _, _ => none
  | some v :: rest, h => freeArgsLoop rest (DecrRefCount h v)

def freeArgs (s : GodisServer) (c : GodisClient) : Option GodisServer := do
  let h ← freeArgsLoop c.args s.heap
  some { s with heap := h }

def resetClient (s : GodisServer) (c : GodisClient) : Option (GodisServer × GodisClient) := do
  let s1 ← freeArgs s c
  some (s1, { c with cmdTy := CommonUnkonw, bulkNum := 0, bulkLen := 0 })

/-- The loop of `freeReplyList`: unlink the head node and release its value. -/
def freeReplyList (h : Heap) : List Ptr → Heap
  | [] => h
  | n :: rest => freeReplyList (DecrRefCount h n) rest

def freeClient (env : Env) (s : GodisServer) (c : GodisClient) :
    Option (GodisServer × GodisClient) := do
  let s1 ← freeArgs s c
  let loop1 := s1.aeLoop.RemoveFileEvent env c.fd AEReadable
  let loop2 := loop1.RemoveFileEvent env c.fd AEWriteable
  some ({ s1 with clients := s1.clients.filter (fun fd => fd ≠ c.fd),
                  aeLoop := loop2,
                  heap := freeReplyList s1.heap c.reply },
        { c with reply := [] })

def ProcessCommand (env : Env) (now : Int) (s : GodisServer) (c : GodisClient) :
    Option (GodisServer × GodisClient) := do
  let a0 ← c.arg 0
  let cmdStr ← (s.heap a0).StrVal
  if cmdStr = bytes "quit" then freeClient env s c
  else match lookupCommand cmdStr with
    | none =>
      let (s1, c1) := AddReplyStr env s c (bytes "-ERR: unknow command\r\n")
      resetClient s1 c1
    | some cmd =>
      if cmd.arity ≠ (c.args.length : Int) then
        let (s1, c1) := AddReplyStr env s c (bytes "-ERR: wrong number of args\r\n")
        resetClient s1 c1
      else do
        let (s1, c1) ← cmd.proc.run env now s c
        resetClient s1 c1

/-! ## godis.go: the query parser -/

/-- The call `strings.Index(s, "\n")`. -/
def indexNL : Bytes → Int
  | [] => -1
  | b :: bs => if b = 10 then 0 else if indexNL bs < 0 then -1 else indexNL bs + 1

/-- The call `strings.Split(s, " ")`. -/
def splitSpace : Bytes → List Bytes
  | [] => [[]]
  | b :: bs =>
    if b = 32 then [] :: splitSpace bs
    else match splitSpace bs with
      | [] => [[b]]
      | w :: ws => (b :: w) :: ws

/-- The slice expression `s[a:b]`; `none` is the slice-bounds panic. -/
def slice (s : Bytes) (a b : Int) : Option Bytes :=
  if 0 ≤ a ∧ a ≤ b ∧ b ≤ (s.length : Int) then some ((s.take b.toNat).drop a.toNat) else none

/-- The slice expression `s[a:]`. -/
def sliceFrom (s : Bytes) (a : Int) : Option Bytes := slice s a (s.length : Int)

/-- The index expression `s[i]`; `none` is the index-out-of-range panic. -/
def byteAt (s : Bytes) (i : Int) : Option Nat :=
  if i < 0 then none else s[i.toNat]?

/-- Method `findLineQuery`: the index and whether the error is non-nil. -/
def findLineQuery (c : GodisClient) : Option (Int × Bool) := do
  let q ← slice c.queryBuf 0 c.queryLen
  let index := indexNL q
  if index < 0 ∧ c.queryLen > GodisMaxInline then some (index, true) else some (index, false)

/-- Allocation of one string object per element, in order. -/
def createObjects : List Bytes → GodisServer → List Ptr × GodisServer
  | [], s => ([], s)
  | v :: vs, s =>
    let (o, s1) := s.alloc (CreateObject GSTR (.str v))
    let (os, s2) := createObjects vs s1
    (o :: os, s2)

/-- Function `handleInlineBuf`: the result `(ok, err != nil)` and the new state. -/
def handleInlineBuf (s : GodisServer) (c : GodisClient) :
    Option (Bool × Bool × GodisServer × GodisClient) := do
  let (index, err) ← findLineQuery c
  if index < 0 then some (false, err, s, c)
  else do
    let line ← slice c.queryBuf 0 index
    let subs := splitSpace line
    let rest ← sliceFrom c.queryBuf (index + 1)
    let (os, s1) := createObjects subs s
    some (true, false, s1,
      { c with queryBuf := rest, queryLen := c.queryLen - (index + 1), args := os.map some })

/-- Method `getNumInQuery`: the number, whether the error is non-nil, and the client. -/
def getNumInQuery (c : GodisClient) (st e : Int) : Option (Int × Bool × GodisClient) := do
  let digits ← slice c.queryBuf st e
  let (num, err) := Atoi digits
  let rest ← sliceFrom c.queryBuf (e + 1)
  some (num, err, { c with queryBuf := rest, queryLen := c.queryLen - (e + 1) })

/-- The loop `for client.bulkNum > 0` of `handleBulkBuf`; every completed iteration lowers
`bulkNum` by one, so `fuel = bulkNum` iterations are all the loop can make. -/
def bulkLoop : Nat → GodisServer → GodisClient → Option (Bool × Bool × GodisServer × GodisClient)
  | 0, s, c => if c.bulkNum > 0 then none else some (true, false, s, c)
  | fuel + 1, s, c =>
    if ¬ c.bulkNum > 0 then some (true, false, s, c)
    else do
      let hdr : Option (Option (Bool × Bool) × GodisClient) :=
        if c.bulkLen = 0 then do
          let (index, err) ← findLineQuery c
          if index < 0 then some (some (false, err), c)
          else do
            let b0 ← byteAt c.queryBuf 0
            if b0 ≠ 36 then some (some (false, true), c)
            else do
              let (blen, err, c1) ← getNumInQuery c 1 index
              if err ∨ blen = 0 then some (some (false, err), c1)
              else if blen > GodisMaxBulk then some (some (false, true), c1)
              else some (none, { c1 with bulkLen := blen })
        else some (none, c)
      let (ret, c1) ← hdr
      match ret with
      | some (ok, err) => some (ok, err, s, c1)
      | none =>
        if c1.queryLen < c1.bulkLen + 1 then some (false, false, s, c1)
        else do
          let index := c1.bulkLen
          let b1 ← byteAt c1.queryBuf index
          let bad ← if b1 ≠ 13 then some true
            else do
              let b2 ← byteAt c1.queryBuf (index + 1)
              some (decide (b2 ≠ 10))
          if bad then some (false, true, s, c1)
          else do
            let str ← slice c1.queryBuf 0 index
            let (o, s1) := s.alloc (CreateObject GSTR (.str str))
            let pos := (c1.args.length : Int) - c1.bulkNum
            if pos < 0 ∨ pos ≥ (c1.args.length : Int) then none
            else do
              let rest ← sliceFrom c1.queryBuf (index + 1)
              bulkLoop fuel s1
                { c1 with args := c1.args.set pos.toNat (some o),
                          queryBuf := rest,
                          queryLen := c1.queryLen - (index + 1),
                          bulkLen := 0,
                          bulkNum := c1.bulkNum - 1 }

/-- Function `handleBulkBuf`: the result `(ok, err != nil)` and the new state. -/
def handleBulkBuf (s : GodisServer) (c : GodisClient) :
    Option (Bool × Bool × GodisServer × GodisClient) :=
  if c.bulkNum = 0 then do
    let (index, err) ← findLineQuery c
    if index < 0 then some (false, err, s, c)
    else do
      let (bnum, err, c1) ← getNumInQuery c 1 index
      if err then some (false, true, s, c1)
      else if bnum = 0 then some (true, false, s, c1)
      else if bnum < 0 then none
      else
        let c2 := { c1 with bulkNum := bnum, args := List.replicate bnum.toNat none }
        bulkLoop c2.bulkNum.toNat s c2
  else bulkLoop c.bulkNum.toNat s c

/-- The loop of `ProcessQueryBuf`; every iteration that continues has consumed at least one
byte, so `fuel` above `queryLen` is never exhausted.  The result is `err != nil` and the
state. -/
def processLoop (env : Env) (now : Int) :
    Nat → GodisServer → GodisClient → Option (Bool × GodisServer × GodisClient)
  | 0, _, _ => none
  | fuel + 1, s, c =>
    if ¬ c.queryLen > 0 then some (false, s, c)
    else do
      let c1 ← if c.cmdTy = CommonUnkonw then do
          let b0 ← byteAt c.queryBuf 0
          some (if b0 = 42 then { c with cmdTy := CommonBulk } else { c with cmdTy := CommonInlie })
        else some c
      if c1.cmdTy ≠ CommonInlie ∧ c1.cmdTy ≠ CommonBulk then some (true, s, c1)
      else do
        let (ok, err, s2, c2) ←
          if c1.cmdTy = CommonInlie then handleInlineBuf s c1 else handleBulkBuf s c1
        if err then some (true, s2, c2)
        else if ok then do
          let (s3, c3) ← if c2.args.length = 0 then resetClient s2 c2
            else ProcessCommand env now s2 c2
          processLoop env now fuel s3 c3
        else some (false, s2, c2)

def ProcessQueryBuf (env : Env) (now : Int) (s : GodisServer) (c : GodisClient) :
    Option (Bool × GodisServer × GodisClient) :=
  processLoop env now (c.queryLen.toNat + 1) s c

/-! ## godis.go: the reply writer -/

def EXPIRE_CHECK_COUNT : Nat := 100

/-- The loop of `ServerCron` with `n` iterations left, `i` being the index of the
iteration.  `rnd i` is the sequence of raw numbers the generator draws during the `i`-th
`RandomGet`, and `unixNow` is the reading of `time.Now().Unix()`, in seconds. -/
def serverCronLoop (rnd : Nat → Nat → Nat) (unixNow : Int) :
    Nat → Nat → GodisServer → Option GodisServer
  | 0, _, s => some s
  | n + 1, i, s => do
    let (entry, ex1) ← RandomGet gstrType s.heap (rnd i) s.db.expire
    match entry with
    | none => some { s with db := { s.db with expire := ex1 } }
    | some r => do
      let e ← ex1.entryAt r
      let v ← e.Val
      let when ← (s.heap v).IntVal
      if when < unixNow then do
        let (_, h2, da2) ← Delete gstrType s.heap s.db.data e.Key
        let (_, h3, ex2) ← Delete gstrType h2 ex1 e.Key
        serverCronLoop rnd unixNow n (i + 1)
          { s with heap := h3, db := { data := da2, expire := ex2 } }
      else serverCronLoop rnd unixNow n (i + 1) { s with db := { s.db with expire := ex1 } }

def ServerCron (rnd : Nat → Nat → Nat) (unixNow : Int) (s : GodisServer) : Option GodisServer :=
  serverCronLoop rnd unixNow EXPIRE_CHECK_COUNT 0 s

/-! # Specification vocabulary -/

/-! ## Specification vocabulary for the dictionary -/

/-- The string a key pointer denotes: defined when the object is a string object whose
payload has not been released. -/
def keyStr (h : Heap) (p : Ptr) : Option Bytes :=
  if (h p).Type_ = GSTR then
    match (h p).Val_ with
    | .str s => some s
    | _ => none
  else none

/-- The slot a string hashes to in a table with the given mask. -/
def slotOf (s : Bytes) (mask : Int) : Int := and64 (toInt64 (fnv1 s)) mask

/-- The entries chained in a table, slot by slot. -/
def entriesOf (t : Option htable) : List Entry :=
  match t with
  | none => []
  | some t => t.table.flatten

/-- Every entry stored in the dictionary: those of `ht[0]`, then those of `ht[1]`. -/
def allEntries (d : Dict) : List Entry := entriesOf d.hts0 ++ entriesOf d.hts1

/-- The number of entries whose value is the object `o`. -/
def valRefs (d : Dict) (o : Ptr) : Nat := (allEntries d).countP (fun e => decide (e.Val = some o))

/-- The table `expand` allocates: `sz` nil slots. -/
def freshTable (sz : Int) : htable :=
  { table := List.replicate sz.toNat [], size := sz, mask := sz - 1, used := 0 }

/-- The table after the assignment `entry.Val = v` to the entry `e` at position `pos` of
the chain of slot `i`. -/
def putVal (t : htable) (i pos : Nat) (chain : List Entry) (e : Entry) (v : Ptr) : htable :=
  { t with table := t.table.set i (chain.set pos { e with Val := some v }) }

/-- A table is consistent: `size` slots, `mask = size - 1`, `used` counts the chained
entries, and every entry hangs from the slot its key hashes to and carries a value. -/
structure TableOK (h : Heap) (t : htable) : Prop where
  len : (t.table.length : Int) = t.size
  mask : t.mask = t.size - 1
  pow : ∃ k : Nat, 3 ≤ k ∧ k ≤ 62 ∧ t.size = 2 ^ k
  used : t.used = (t.table.flatten.length : Int)
  place : ∀ (i : Nat) (chain : List Entry), t.table[i]? = some chain → ∀ e ∈ chain,
    ∃ s, keyStr h e.Key = some s ∧ slotOf s t.mask = (i : Int) ∧ e.Val ≠ none

/-- The representation invariant of the dictionary. -/
structure DictInv (h : Heap) (d : Dict) : Prop where
  fresh : d.hts0 = none → d.hts1 = none ∧ d.rehashIdx = -1
  ok0 : ∀ t, d.hts0 = some t → TableOK h t
  ok1 : ∀ t, d.hts1 = some t → TableOK h t
  steady : d.rehashIdx = -1 → d.hts1 = none
  moving : d.rehashIdx ≠ -1 → ∃ t0 t1, d.hts0 = some t0 ∧ d.hts1 = some t1 ∧ 0 ≤ d.rehashIdx ∧
    t1.size = 2 * t0.size ∧
    ∀ (i : Nat) (chain : List Entry), (i : Int) < d.rehashIdx → t0.table[i]? = some chain → chain = []
  nodup : ((allEntries d).map (fun e => keyStr h e.Key)).Nodup
  small : ∀ t, d.hts0 = some t ∨ d.hts1 = some t → t.size ≤ 8 ∨ t.size ≤ ((allEntries d).length : Int)

/-- Reference counts are honest: every object is counted once more than the number of
entries holding it as their value, so no stored value is released while it is stored. -/
def RefsOK (h : Heap) (d : Dict) : Prop := ∀ o, ((valRefs d o : Nat) : Int) < (h o).refCount

/-- Where a reference returned by a lookup points. -/
def RefAt (d : Dict) (r : EntryRef) (e : Entry) : Prop :=
  ∃ t chain, d.hts r.t = some t ∧ t.table[r.idx]? = some chain ∧ chain[r.pos]? = some e ∧
    (r.t = 0 ∨ r.t = 1)

/-- The table an insertion goes to: `ht[1]` while rehashing, `ht[0]` otherwise. -/
def targetTable (d : Dict) : Nat := if d.isRehashing then 1 else 0

/-- A call made on a dictionary during a run of insertions and lookups. -/
inductive DictOp where
  | add (key val : Ptr)
  | find (key : Ptr)
deriving DecidableEq, Repr

def DictOp.key : DictOp → Ptr
  | .add k _ => k
  | .find k => k

/-- The calls of a run, one after the other, each on the state the previous one left. -/
def runOps (ty : DictType) : List DictOp → Heap → Dict → Option (Heap × Dict)
  | [], h, d => some (h, d)
  | .add k v :: ops, h, d => (Add ty h d k v).bind (fun r => runOps ty ops r.2.1 r.2.2)
  | .find k :: ops, h, d => (Find ty h d k).bind (fun r => runOps ty ops h r.2)

/-- The key/value pairs a run inserts, in order. -/
def inserted : List DictOp → List (Ptr × Ptr)
  | [] => []
  | .add k v :: ops => (k, v) :: inserted ops
  | .find _ :: ops => inserted ops

def toEntry (kv : Ptr × Ptr) : Entry := { Key := kv.1, Val := some kv.2 }

/-- The well-formed dictionary states: those reached from `DictCreate`, on a heap whose
objects are all alive, through `Add`, `Set`, `Find` and `Get` calls on string keys.  A call
that may store an entry is made on a dictionary of fewer than `2^60` entries, more than a
64-bit process can hold. -/
inductive Reachable : Heap → Dict → Prop where
  | create (h : Heap) (hl : ∀ o, 1 ≤ (h o).refCount) : Reachable h DictCreate
  | add {h : Heap} {d : Dict} (k v : Ptr) {err : Option DictErr} {h' : Heap} {d' : Dict}
      (hr : Reachable h d) (hk : (keyStr h k).isSome = true)
      (hn : (allEntries d).length < 1152921504606846976)
      (hop : Add gstrType h d k v = some (err, h', d')) : Reachable h' d'
  | set {h : Heap} {d : Dict} (k v : Ptr) {h' : Heap} {d' : Dict}
      (hr : Reachable h d) (hk : (keyStr h k).isSome = true)
      (hn : (allEntries d).length < 1152921504606846976)
      (hop : Set gstrType h d k v = some (h', d')) : Reachable h' d'
  | find {h : Heap} {d : Dict} (k : Ptr) {r : Option EntryRef} {d' : Dict}
      (hr : Reachable h d) (hk : (keyStr h k).isSome = true)
      (hop : Find gstrType h d k = some (r, d')) : Reachable h d'
  | get {h : Heap} {d : Dict} (k : Ptr) {r : Option Ptr} {d' : Dict}
      (hr : Reachable h d) (hk : (keyStr h k).isSome = true)
      (hop : Get gstrType h d k = some (r, d')) : Reachable h d'

/-- A heap for worked examples: the string `k<p>` at every address `p < 100`, the string
`v<p-100>` at every address from 100 on, each object with the reference count 1 its creator
holds. -/
def exampleHeap : Heap := fun p =>
  if p < 100 then CreateObject GSTR (.str (bytes "k" ++ decDigits 20 p []))
  else CreateObject GSTR (.str (bytes "v" ++ decDigits 20 (p - 100) []))

/-- The heap after `Add(k1, v1)` on the example heap. -/
def exampleHeap1 : Heap := IncrRefCount (IncrRefCount exampleHeap 1) 101

/-- The dictionary after `Add(k1, v1)` on a fresh dictionary. -/
def exampleDict1 : Dict :=
  ⟨some ⟨[[], [], [], [], [], [⟨1, some 101⟩], [], []], 8, 7, 1⟩, none, -1⟩

/-- Every argument of the client is a non-nil pointer to an object allocated so far. -/
def argsAllocated (s : GodisServer) (c : GodisClient) : Bool :=
  c.args.all (fun a => match a with
    | some p => decide (p < s.brk)
    | none => false)

/-- What the dispatcher leaves after an error reply: exactly one more reply, `msg`, at the
tail of the queue; the client still registered, its parse state reset; the keyspace as it
was. -/
def ErrorReplied (s : GodisServer) (c : GodisClient) (msg : Bytes)
    (r : Option (GodisServer × GodisClient)) : Prop :=
  ∃ s' c', r = some (s', c') ∧
    (∃ o, c'.reply = c.reply ++ [o] ∧ (s'.heap o).StrVal = some msg) ∧
    s'.clients = s.clients ∧
    (∀ key, s.aeLoop.FileEvents key = true → s'.aeLoop.FileEvents key = true) ∧
    c'.cmdTy = CommonUnkonw ∧ c'.bulkNum = 0 ∧ c'.bulkLen = 0 ∧
    s'.db.data = s.db.data ∧ s'.db.expire = s.db.expire

/-- The string a reply object carries (empty when it carries none). -/
def replyStr (h : Heap) (p : Ptr) : Bytes := ((h p).StrVal).getD []

/-- Twenty-four keys `k<i>` of which exactly one, `k3`, hashes to slot 7 of a table of
size 8, every other slot receiving at least one. -/
def scenarioKeys : List Nat :=
  [0, 1, 2, 3, 4, 5, 6, 7, 8, 9, 11, 12, 13, 14, 15, 16, 17, 19, 20, 21, 22, 23, 26, 27]

/-- Insert the twenty-four keys and `k24` (the 25th insertion starts a rehash), then look
`k0` up six times: slots 0 to 5 of `ht[0]` have migrated, slots 6 and 7 have not. -/
def scenarioOps : List DictOp :=
  (scenarioKeys ++ [24]).map (fun k => DictOp.add k (k + 100)) ++
    List.replicate 6 (DictOp.find 0)

/-- An operating system whose `epoll_ctl` always succeeds. -/
def okEnv : Env := { EpollCtl := fun _ _ _ => true }

/-- The server after `initServer`, with one client connected on descriptor 7. -/
def emptyServer : GodisServer :=
  { heap := fun _ => { Type_ := GSTR, Val_ := .nil, refCount := 0 },
    brk := 0,
    db := { data := DictCreate, expire := DictCreate },
    clients := [7],
    aeLoop := { FileEvents := fun key => decide (key = 7) } }

/-- A client whose read buffer holds exactly `buf`, otherwise as `CreateClient` leaves it. -/
def clientWith (fd : Int) (buf : Bytes) : GodisClient :=
  { fd := fd, args := [], reply := [], sentLen := 0, queryBuf := buf,
    queryLen := (buf.length : Int), cmdTy := CommonUnkonw, bulkNum := 0, bulkLen := 0 }

/-- The client has read `line` into its emptied buffer and `ProcessQueryBuf` runs. -/
def feedLine (env : Env) (now : Int) (line : Bytes) (sc : GodisServer × GodisClient) :
    Option (Bool × GodisServer × GodisClient) :=
  ProcessQueryBuf env now sc.1 { sc.2 with queryBuf := line, queryLen := (line.length : Int) }

/-- A script of lines, each processed without a protocol error. -/
def feedLines (env : Env) (now : Int) :
    List Bytes → GodisServer × GodisClient → Option (GodisServer × GodisClient)
  | [], sc => some sc
  | l :: ls, sc =>
    (feedLine env now l sc).bind (fun r => if r.1 then none else feedLines env now ls r.2)

def setLine (i : Nat) : Bytes := bytes "set k" ++ decDigits 20 i [] ++ bytes " v\n"

def getLine (i : Nat) : Bytes := bytes "get k" ++ decDigits 20 i [] ++ bytes "\n"

def expireLine (i : Nat) (secs : Nat) : Bytes :=
  bytes "expire k" ++ decDigits 20 i [] ++ bytes " " ++ decDigits 20 secs [] ++ bytes "\n"

/-- The payloads of the queued replies. -/
def replyTexts (sc : GodisServer × GodisClient) : List Bytes :=
  sc.2.reply.map (replyStr sc.1.heap)

/-- SET of twenty-five keys (the 25th starts a rehash of `data`), six GETs, then
`expire k3 0`. -/
def expiredScript : List Bytes :=
  (scenarioKeys ++ [24]).map setLine ++ List.replicate 6 (getLine 0) ++ [expireLine 3 0]

/-- SET of twenty-five keys, EXPIRE of the same keys a hundred seconds ahead (the 25th
starts a rehash of `expire`), six GETs. -/
def roundTripScript : List Bytes :=
  (scenarioKeys ++ [24]).map setLine ++ (scenarioKeys ++ [24]).map (fun i => expireLine i 100) ++
    List.replicate 6 (getLine 0)

/-- The strings of the parsed arguments (nil for a nil pointer or a released object). -/
def argTexts (sc : GodisServer × GodisClient) : List (Option Bytes) :=
  sc.2.args.map (fun a => a.bind (fun p => (sc.1.heap p).StrVal))

/-- The `used` field of every live table equals the number of entries chained in it. -/
def usedExact (d : Dict) : Bool :=
  (match d.hts0 with
    | none => true
    | some t => decide (t.used = (t.table.flatten.length : Int))) &&
  (match d.hts1 with
    | none => true
    | some t => decide (t.used = (t.table.flatten.length : Int)))

/-- The server of the worked examples: the example heap, its first thousand addresses
allocated. -/
def exampleServer : GodisServer := { emptyServer with heap := exampleHeap, brk := 1000 }

/-- A client holding the one-argument command `k0`. -/
def exampleCommand : GodisClient := { clientWith 7 [] with args := [some 0] }

/-- The RESP frame of `set k v`. -/
def respSetFrame : Bytes := bytes "*3\r\n$3\r\nset\r\n$1\r\nk\r\n$1\r\nv\r\n"

/-! ## Vocabulary of the growth, rehash, parser and timer properties -/

/-- A byte is a decimal digit. -/
def isDigit (c : Nat) : Bool := decide (48 ≤ c ∧ c ≤ 57)

/-- The number a string of decimal digits denotes when read after the number `n`. -/
def digitsValue (ds : Bytes) (n : Nat) : Nat := ds.foldl (fun a c => a * 10 + (c - 48)) n

/-- A payload without its optional sign. -/
def unsigned (s : Bytes) : Bytes :=
  match s with
  | [] => []
  | c :: cs => if c = 43 ∨ c = 45 then cs else s

/-- The payload starts with a minus sign. -/
def isNegative (s : Bytes) : Bool :=
  match s with
  | [] => false
  | c :: _ => decide (c = 45)

/-- A decimal numeral: an optional sign followed by one or more decimal digits. -/
def isDecimal (s : Bytes) : Bool := decide (unsigned s ≠ []) && (unsigned s).all isDigit

/-- The integer a decimal numeral denotes. -/
def decimalValue (s : Bytes) : Int :=
  if isNegative s then - (digitsValue (unsigned s) 0 : Int) else (digitsValue (unsigned s) 0 : Int)

/-- The digits a payload starts with, after its optional sign. -/
def leadDigits (s : Bytes) : Bytes := (unsigned s).takeWhile isDigit

/-- Callbacks that leave the event loop as it is. -/
def idleProcs : Nat → AeLoop → Int → AeLoop := fun _ loop _ => loop

/-- One key with an expiration: `set k3 v`, then `expire k3 0`. -/
def cronScript : List Bytes := [setLine 3, expireLine 3 0]

/-- A call that reads the dictionary and, while a rehash is going on, performs one step of
it: `Find(key)`, or `RandomGet()` with the raw numbers its generator draws. -/
inductive Probe where
  | find (key : Ptr)
  | randomGet (rnd : Nat → Nat)

/-- The key of a `Find` is a string object. -/
def Probe.Keyed (h : Heap) : Probe → Prop
  | .find k => (keyStr h k).isSome = true
  | .randomGet _ => True

/-- The dictionary one call leaves. -/
def runProbe (ty : DictType) (h : Heap) (p : Probe) (d : Dict) : Option Dict :=
  match p with
  | .find k => (Find ty h d k).map (fun r => r.2)
  | .randomGet rnd => (RandomGet ty h rnd d).map (fun r => r.2)

/-- The calls of a list, one after the other. -/
def runProbes (ty : DictType) (h : Heap) : List Probe → Dict → Option Dict
  | [], d => some d
  | p :: ps, d => (runProbe ty h p d).bind (runProbes ty h ps)

/-- The insertions of a list of key/value pairs, in order. -/
def addOps (pairs : List (Ptr × Ptr)) : List DictOp := pairs.map (fun kv => DictOp.add kv.1 kv.2)

/-- The growth condition of `expandIfNeed` on a table. -/
def Grows (t : htable) : Prop := t.used > t.size ∧ t.used / t.size > 2

/-- The pairs `(k0, v0), ..., (k(n-1), v(n-1))` of the example heap. -/
def firstKeys (n : Nat) : List (Ptr × Ptr) := (List.range n).map (fun k => (k, k + 100))

/-- The state of the test `TestRehash` when the rehash has just started: `k0` to `k24`
inserted into a fresh dictionary. -/
def rehashStart : Heap × Dict :=
  (runOps gstrType (addOps (firstKeys 25)) exampleHeap DictCreate).getD (exampleHeap, DictCreate)

/-- Nine calls of `RandomGet` whose generator always draws 0. -/
def nineDraws : List Probe := List.replicate 9 (Probe.randomGet (fun _ => 0))

/-- The dictionary states reached from `DictCreate`, on a heap whose objects are all alive,
through `Add`, `Set`, `Find`, `Get` calls on string keys and `RandomGet` calls.  A call that
may store an entry is made on a dictionary of fewer than `2^60` entries. -/
inductive WellFormed : Heap → Dict → Prop where
  | create (h : Heap) (hl : ∀ o, 1 ≤ (h o).refCount) : WellFormed h DictCreate
  | add {h : Heap} {d : Dict} (k v : Ptr) {err : Option DictErr} {h' : Heap} {d' : Dict}
      (hr : WellFormed h d) (hk : (keyStr h k).isSome = true)
      (hn : (allEntries d).length < 1152921504606846976)
      (hop : Add gstrType h d k v = some (err, h', d')) : WellFormed h' d'
  | set {h : Heap} {d : Dict} (k v : Ptr) {h' : Heap} {d' : Dict}
      (hr : WellFormed h d) (hk : (keyStr h k).isSome = true)
      (hn : (allEntries d).length < 1152921504606846976)
      (hop : Set gstrType h d k v = some (h', d')) : WellFormed h' d'
  | find {h : Heap} {d : Dict} (k : Ptr) {r : Option EntryRef} {d' : Dict}
      (hr : WellFormed h d) (hk : (keyStr h k).isSome = true)
      (hop : Find gstrType h d k = some (r, d')) : WellFormed h d'
  | get {h : Heap} {d : Dict} (k : Ptr) {r : Option Ptr} {d' : Dict}
      (hr : WellFormed h d) (hk : (keyStr h k).isSome = true)
      (hop : Get gstrType h d k = some (r, d')) : WellFormed h d'
  | randomGet {h : Heap} {d : Dict} (rnd : Nat → Nat) {r : Option EntryRef} {d' : Dict}
      (hr : WellFormed h d)
      (hop : RandomGet gstrType h rnd d = some (r, d')) : WellFormed h d'

/-! ## Vocabulary of the cursor, keyspace and hostile-input properties -/

/-- The rehash cursor is within the old table: the dictionary is not rehashing, or `ht[0]`
is there and `0 ≤ rehashIdx ≤ len(ht[0].table)`. -/
def CursorOK (d : Dict) : Prop :=
  d.rehashIdx = -1 ∨
    ∃ t0, d.hts0 = some t0 ∧ 0 ≤ d.rehashIdx ∧ d.rehashIdx ≤ (t0.table.length : Int)

/-- Eight lookups of `k0`. -/
def eightFinds : List Probe := List.replicate 8 (Probe.find 0)

/-- The state of the test `TestRehash` eight lookups after the rehash has started: each
lookup has moved one of the eight slots of `ht[0]`. -/
def rehashEnd : Dict :=
  (runProbes gstrType rehashStart.1 eightFinds rehashStart.2).getD DictCreate

/-- A client in the middle of a multi-bulk command of one argument whose bulk of announced
length 3 is pending: the state `ProcessQueryBuf` leaves after the read `*1\n$3\n`. -/
def pendingBulk : GodisClient :=
  { clientWith 7 [] with cmdTy := CommonBulk, bulkNum := 1, bulkLen := 3, args := [none] }

/-- The call pair `Add(key, val)`, `Delete(key)` made `n` times in a row. -/
def addDelete (ty : DictType) (key val : Ptr) : Nat → Heap → Dict → Option (Heap × Dict)
  | 0, h, d => some (h, d)
  | n + 1, h, d =>
    (Add ty h d key val).bind fun a =>
    (Delete ty a.2.1 a.2.2 key).bind fun b => addDelete ty key val n b.2.1 b.2.2

/-! ## Vocabulary of the reply writer -/

theorem toU64_of_nonneg {m : Int} (h0 : 0 ≤ m) (h1 : m < 18446744073709551616) :
    toU64 m = m.toNat := by
  unfold toU64
  rw [Int.emod_eq_of_lt h0 h1]

theorem toInt64_of_lt {u : Nat} (h : u < 9223372036854775808) : toInt64 u = (u : Int) := by
  unfold toInt64
  have h2 : u % 18446744073709551616 = u := Nat.mod_eq_of_lt (by omega)
  rw [h2, if_pos h]

theorem and64_bounds (x m : Int) (h0 : 0 ≤ m) (h1 : m < 9223372036854775808) :
    0 ≤ and64 x m ∧ and64 x m ≤ m := by
  unfold and64
  rw [toU64_of_nonneg h0 (by omega)]
  have hle : Nat.land (toU64 x) m.toNat ≤ m.toNat := Nat.and_le_right
  have hlt : Nat.land (toU64 x) m.toNat < 9223372036854775808 := by omega
  rw [toInt64_of_lt hlt]
  constructor
  · exact Int.ofNat_nonneg _
  · omega

theorem keyStr_hash {h : Heap} {p : Ptr} {s : Bytes} (hs : keyStr h p = some s) :
    GStrHash (h p) = some (toInt64 (fnv1 s)) := by
  unfold keyStr at hs
  unfold GStrHash Gobj.StrVal
  split at hs
  · rename_i ht
    split at hs
    · rename_i s' hv
      simp only [Option.some.injEq] at hs
      subst hs
      simp [ht, hv]
    · simp at hs
  · simp at hs

theorem keyStr_equal {h : Heap} {a b : Ptr} {s s' : Bytes} (ha : keyStr h a = some s)
    (hb : keyStr h b = some s') : GStrEqual (h a) (h b) = some (decide (s = s')) := by
  unfold keyStr at ha hb
  unfold GStrEqual Gobj.StrVal
  split at ha
  · rename_i hta
    split at hb
    · rename_i htb
      split at ha
      · rename_i sa hva
        split at hb
        · rename_i sb hvb
          simp only [Option.some.injEq] at ha hb
          subst ha hb
          simp [hta, htb, hva, hvb]
        · simp at hb
      · simp at ha
    · simp at hb
  · simp at ha

theorem keyStr_incr (h : Heap) (o p : Ptr) : keyStr (IncrRefCount h o) p = keyStr h p := by
  unfold keyStr IncrRefCount
  by_cases hp : p = o
  · subst hp
    simp [Function.update_same, Gobj.incr]
  · simp [Function.update_noteq hp]

theorem keyStr_decr (h : Heap) (o p : Ptr) (hne : p ≠ o ∨ (h o).refCount - 1 ≠ 0) :
    keyStr (DecrRefCount h o) p = keyStr h p := by
  unfold keyStr DecrRefCount
  by_cases hp : p = o
  · subst hp
    have h1 : (h p).refCount - 1 ≠ 0 := by
      rcases hne with h | h
      · exact absurd rfl h
      · exact h
    simp [Function.update_same, Gobj.decr, h1]
  · simp [Function.update_noteq hp]

theorem refCount_incr (h : Heap) (o p : Ptr) :
    ((IncrRefCount h o) p).refCount = (h p).refCount + (if p = o then 1 else 0) := by
  unfold IncrRefCount
  by_cases hp : p = o
  · subst hp
    simp [Function.update_same, Gobj.incr]
  · simp [Function.update_noteq hp, hp]

theorem refCount_decr (h : Heap) (o p : Ptr) :
    ((DecrRefCount h o) p).refCount = (h p).refCount - (if p = o then 1 else 0) := by
  unfold DecrRefCount
  by_cases hp : p = o
  · subst hp
    simp [Function.update_same, Gobj.decr]
  · simp [Function.update_noteq hp, hp]

theorem perm_flatten_set {α : Type} (l : List (List α)) (i : Nat) (c' : List α)
    (hi : i < l.length) : List.Perm (l.set i c').flatten (c' ++ (l.set i []).flatten) := by
  induction l generalizing i with
  | nil => simp at hi
  | cons x xs ih =>
    cases i with
    | zero => simp
    | succ j =>
      have hj : j < xs.length := by simpa using hi
      simp only [List.set_cons_succ, List.flatten_cons]
      have h1 := ih j hj
      have h2 : List.Perm (x ++ (xs.set j c').flatten) (x ++ (c' ++ (xs.set j []).flatten)) :=
        List.Perm.append_left x h1
      refine h2.trans ?_
      rw [← List.append_assoc, ← List.append_assoc]
      exact List.Perm.append_right _ List.perm_append_comm

theorem set_self_of_getElem? {α : Type} (l : List α) (i : Nat) (c : α) (h : l[i]? = some c) :
    l.set i c = l := by
  induction l generalizing i with
  | nil => simp at h
  | cons x xs ih =>
    cases i with
    | zero => simp at h; simp [h]
    | succ j => simp at h; simp [ih j h]

theorem perm_flatten_get {α : Type} (l : List (List α)) (i : Nat) (c : List α)
    (h : l[i]? = some c) : List.Perm l.flatten (c ++ (l.set i []).flatten) := by
  have hi : i < l.length := by
    rcases List.getElem?_eq_some_iff.1 h with ⟨hi, _⟩
    exact hi
  have := perm_flatten_set l i c hi
  rwa [set_self_of_getElem? l i c h] at this

theorem perm_flatten_set_get {α : Type} (l : List (List α)) (i : Nat) (c c' : List α)
    (h : l[i]? = some c) : List.Perm ((l.set i c').flatten ++ c) (c' ++ l.flatten) := by
  have hi : i < l.length := by
    rcases List.getElem?_eq_some_iff.1 h with ⟨hi, _⟩
    exact hi
  have h1 := perm_flatten_set l i c' hi
  have h2 := perm_flatten_get l i c h
  have h3 : List.Perm ((l.set i c').flatten ++ c) ((c' ++ (l.set i []).flatten) ++ c) :=
    List.Perm.append_right c h1
  refine h3.trans ?_
  rw [List.append_assoc]
  refine List.Perm.append_left c' ?_
  exact List.perm_append_comm.trans h2.symm

theorem skipEmpty_spec (l : List (List Entry)) (i : Nat)
    (hne : ∃ chain ∈ l, chain ≠ []) :
    ∃ n, skipEmpty l i = some (i + n) ∧ n < l.length ∧ (∃ chain, l[n]? = some chain ∧ chain ≠ []) ∧
      ∀ m, m < n → l[m]? = some [] := by
  induction l generalizing i with
  | nil => simp at hne
  | cons x xs ih =>
    by_cases hx : x = []
    · have hne' : ∃ chain ∈ xs, chain ≠ [] := by
        rcases hne with ⟨chain, hmem, hc⟩
        rcases List.mem_cons.1 hmem with h | h
        · exact absurd (h ▸ hx) hc
        · exact ⟨chain, h, hc⟩
      rcases ih (i + 1) hne' with ⟨n, h1, h2, h3, h4⟩
      refine ⟨n + 1, ?_, ?_, ?_, ?_⟩
      · simp only [skipEmpty, hx, if_true]
        rw [h1]
        congr 1
        omega
      · simpa using h2
      · simpa using h3
      · intro m hm
        cases m with
        | zero => simp [hx]
        | succ k => simpa using h4 k (by omega)
    · refine ⟨0, ?_, ?_, ?_, ?_⟩
      · simp [skipEmpty, hx]
      · simp
      · exact ⟨x, by simp, hx⟩
      · intro m hm
        omega

theorem TableOK.size_bounds {h : Heap} {t : htable} (ok : TableOK h t) :
    8 ≤ t.size ∧ t.size ≤ 4611686018427387904 := by
  rcases ok.pow with ⟨k, h3, h62, hk⟩
  have h1 : (2 : Nat) ^ 3 ≤ 2 ^ k := Nat.pow_le_pow_right (by decide) h3
  have h2 : (2 : Nat) ^ k ≤ 2 ^ 62 := Nat.pow_le_pow_right (by decide) h62
  have hc : t.size = ((2 ^ k : Nat) : Int) := by rw [hk]; norm_cast
  rw [hc]
  constructor
  · have : ((2 ^ 3 : Nat) : Int) ≤ ((2 ^ k : Nat) : Int) := Int.ofNat_le.2 h1
    simpa using this
  · have : ((2 ^ k : Nat) : Int) ≤ ((2 ^ 62 : Nat) : Int) := Int.ofNat_le.2 h2
    simpa using this

theorem TableOK.slot_range {h : Heap} {t : htable} (ok : TableOK h t) (x : Int) :
    0 ≤ and64 x t.mask ∧ (and64 x t.mask).toNat < t.table.length := by
  have hb := ok.size_bounds
  have hm := ok.mask
  have hl := ok.len
  have := and64_bounds x t.mask (by omega) (by omega)
  constructor
  · exact this.1
  · omega

theorem TableOK.read_slot {h : Heap} {t : htable} (ok : TableOK h t) (x : Int) :
    ∃ chain, getSlot t.table (and64 x t.mask) = some chain ∧
      t.table[(and64 x t.mask).toNat]? = some chain := by
  have hr := ok.slot_range x
  unfold Godis.getSlot
  rw [if_neg (by omega)]
  have : t.table[(and64 x t.mask).toNat]? = some (t.table[(and64 x t.mask).toNat]) :=
    List.getElem?_eq_getElem hr.2
  exact ⟨_, this, this⟩

/-- Pushing an entry on the head of the chain its key hashes to keeps a table consistent. -/
theorem TableOK.push {h : Heap} {t : htable} (ok : TableOK h t) (e : Entry) (s : Bytes)
    (hs : keyStr h e.Key = some s) (hv : e.Val ≠ none) (chain : List Entry)
    (hc : t.table[(slotOf s t.mask).toNat]? = some chain) :
    TableOK h { t with table := setSlot t.table (slotOf s t.mask) (e :: chain),
                       used := t.used + 1 } ∧
    List.Perm (setSlot t.table (slotOf s t.mask) (e :: chain)).flatten (e :: t.table.flatten) := by
  have hr : 0 ≤ slotOf s t.mask ∧ (slotOf s t.mask).toNat < t.table.length :=
    ok.slot_range (toInt64 (fnv1 s))
  have hperm := perm_flatten_set_get t.table (slotOf s t.mask).toNat chain (e :: chain) hc
  have hperm2 : List.Perm (setSlot t.table (slotOf s t.mask) (e :: chain)).flatten
      (e :: t.table.flatten) := by
    unfold setSlot
    have h1 : List.Perm ((t.table.set (slotOf s t.mask).toNat (e :: chain)).flatten ++ chain)
        ((e :: t.table.flatten) ++ chain) := by
      refine hperm.trans ?_
      simp only [List.cons_append]
      exact List.Perm.cons e List.perm_append_comm
    exact (List.perm_append_right_iff chain).1 h1
  refine ⟨?_, hperm2⟩
  constructor
  · simp only [setSlot, List.length_set]; exact ok.len
  · exact ok.mask
  · exact ok.pow
  · simp only
    rw [hperm2.length_eq, ok.used]
    simp
  · intro i ch hi x hx
    simp only [setSlot] at hi
    by_cases hidx : (slotOf s t.mask).toNat = i
    · subst hidx
      rw [List.getElem?_set_self hr.2] at hi
      simp only [Option.some.injEq] at hi
      subst hi
      rcases List.mem_cons.1 hx with h1 | h1
      · subst h1
        refine ⟨s, hs, ?_, hv⟩
        simp only
        omega
      · exact ok.place _ chain hc x h1
    · rw [List.getElem?_set_ne hidx] at hi
      exact ok.place i ch hi x hx

theorem findInChain_spec (h : Heap) (key : Ptr) (s : Bytes) (hk : keyStr h key = some s)
    (chain : List Entry) (hc : ∀ e ∈ chain, ∃ s', keyStr h e.Key = some s') :
    (∃ pos e, findInChain gstrType h key chain = some (some pos) ∧ chain[pos]? = some e ∧
        keyStr h e.Key = some s) ∨
    (findInChain gstrType h key chain = some none ∧ ∀ e ∈ chain, keyStr h e.Key ≠ some s) := by
  induction chain with
  | nil => right; simp [findInChain]
  | cons x xs ih =>
    rcases hc x (by simp) with ⟨s', hs'⟩
    have heq : gstrType.EqualFunc (h x.Key) (h key) = some (decide (s' = s)) :=
      keyStr_equal hs' hk
    by_cases hss : s' = s
    · left
      refine ⟨0, x, ?_, by simp, by rw [hs', hss]⟩
      simp [findInChain, heq, hss]
    · rcases ih (fun e he => hc e (by simp [he])) with ⟨pos, e, h1, h2, h3⟩ | ⟨h1, h2⟩
      · left
        refine ⟨pos + 1, e, ?_, by simpa using h2, h3⟩
        simp [findInChain, heq, hss, h1]
      · right
        refine ⟨by simp [findInChain, heq, hss, h1], ?_⟩
        intro e he
        rcases List.mem_cons.1 he with h3 | h3
        · subst h3
          rw [hs']
          simpa using hss
        · exact h2 e h3

theorem moveChain_spec (h : Heap) (chain : List Entry)
    (hc : ∀ e ∈ chain, ∃ s, keyStr h e.Key = some s ∧ e.Val ≠ none) (t0 t1 : htable)
    (ok1 : TableOK h t1) :
    ∃ t1', moveChain gstrType h chain t0 t1 =
        some ({ t0 with used := t0.used - (chain.length : Int) }, t1') ∧
      TableOK h t1' ∧ t1'.size = t1.size ∧
      List.Perm t1'.table.flatten (chain ++ t1.table.flatten) := by
  induction chain generalizing t0 t1 with
  | nil =>
    refine ⟨t1, ?_, ok1, rfl, by simp⟩
    simp [moveChain]
  | cons e es ih =>
    rcases hc e (by simp) with ⟨s, hs, hv⟩
    rcases ok1.read_slot (toInt64 (fnv1 s)) with ⟨slot, hg1, hg2⟩
    have hpush := ok1.push e s hs hv slot hg2
    rcases ih (fun x hx => hc x (by simp [hx])) { t0 with used := t0.used - 1 } _ hpush.1
      with ⟨t1', h1, h2, h3, h4⟩
    refine ⟨t1', ?_, h2, ?_, ?_⟩
    · have hh : gstrType.HashFunc (h e.Key) = some (toInt64 (fnv1 s)) := keyStr_hash hs
      simp only [moveChain, hh, Option.bind_eq_bind, Option.some_bind, hg1]
      unfold slotOf at h1
      rw [h1]
      simp only [List.length_cons, Nat.cast_add, Nat.cast_one, Option.some.injEq, Prod.mk.injEq,
        and_true]
      congr 1
      omega
    · rw [h3]
    · refine h4.trans ?_
      have := hpush.2
      refine (List.Perm.append_left es this).trans ?_
      simp only [List.cons_append]
      exact List.perm_middle

theorem nodup_keys_of_perm {h : Heap} {l l' : List Entry} (hp : List.Perm l' l)
    (hn : (l.map (fun e => keyStr h e.Key)).Nodup) :
    (l'.map (fun e => keyStr h e.Key)).Nodup :=
  ((hp.map _).nodup_iff).2 hn

theorem exists_slot_of_mem_flatten {α : Type} {l : List (List α)} {e : α} (he : e ∈ l.flatten) :
    ∃ (j : Nat) (chain : List α), l[j]? = some chain ∧ e ∈ chain := by
  rcases List.mem_flatten.1 he with ⟨chain, hc, hec⟩
  rcases List.getElem?_of_mem hc with ⟨j, hj⟩
  exact ⟨j, chain, hj, hec⟩

theorem mem_flatten_of_slot {α : Type} {l : List (List α)} {e : α} {j : Nat} {chain : List α}
    (hj : l[j]? = some chain) (he : e ∈ chain) : e ∈ l.flatten :=
  List.mem_flatten.2 ⟨chain, List.getElem?_mem hj, he⟩

theorem allEntries_mk (a b : Option htable) (r : Int) :
    allEntries { hts0 := a, hts1 := b, rehashIdx := r } = entriesOf a ++ entriesOf b := rfl

theorem entriesOf_some (t : htable) : entriesOf (some t) = t.table.flatten := rfl

theorem entriesOf_none : entriesOf none = [] := rfl

theorem allEntries_eq {d : Dict} {t0 t1 : htable} (h0 : d.hts0 = some t0) (h1 : d.hts1 = some t1) :
    allEntries d = t0.table.flatten ++ t1.table.flatten := by
  simp [allEntries, h0, h1, entriesOf_some]

theorem allEntries_eq0 {d : Dict} {t0 : htable} (h0 : d.hts0 = some t0) (h1 : d.hts1 = none) :
    allEntries d = t0.table.flatten := by
  simp [allEntries, h0, h1, entriesOf_some, entriesOf_none]

/-- One step of incremental rehash on a consistent dictionary that is rehashing: it
returns, keeps the invariant and keeps the stored entries. -/
theorem rehashStep_spec (h : Heap) (d : Dict) (inv : DictInv h d) (hr : d.rehashIdx ≠ -1) :
    ∃ d', rehashStep gstrType h d = some d' ∧ DictInv h d' ∧
      List.Perm (allEntries d') (allEntries d) ∧ d'.hts0 ≠ none := by
  rcases inv.moving hr with ⟨t0, t1, h0, h1, hri, hsz, hempty⟩
  have ok0 := inv.ok0 t0 h0
  have ok1 := inv.ok1 t1 h1
  have hall := allEntries_eq h0 h1
  by_cases hu : t0.used = 0
  · -- promotion of `ht[1]`
    have hfl : t0.table.flatten = [] := by
      have := ok0.used
      rw [hu] at this
      exact List.length_eq_zero.1 (by omega)
    rw [hfl, List.nil_append] at hall
    have heq : rehashStep gstrType h d = some ⟨some t1, none, -1⟩ := by
      simp [rehashStep, DefaultStep, rehash, h0, h1, hu]
    have hall' : allEntries ⟨some t1, none, -1⟩ = allEntries d := by
      rw [hall, allEntries_mk, entriesOf_some, entriesOf_none, List.append_nil]
    refine ⟨_, heq, ?_, by rw [hall'], by simp⟩
    constructor
    · intro hn; simp at hn
    · intro t ht; simp only [Option.some.injEq] at ht; subst ht; exact ok1
    · intro t ht; simp at ht
    · intro _; rfl
    · intro hn; simp at hn
    · rw [hall']; exact inv.nodup
    · intro t ht
      rw [hall']
      simp only [Option.some.injEq, or_false] at ht
      rcases ht with ht | ht
      · subst ht; exact inv.small t1 (Or.inr h1)
      · simp at ht
  · -- migration of the first non-empty slot
    have hne : ∃ chain ∈ t0.table.drop d.rehashIdx.toNat, chain ≠ [] := by
      have hlen : t0.table.flatten ≠ [] := by
        intro hnil
        have := ok0.used
        rw [hnil] at this
        exact hu (by simpa using this)
      rcases List.exists_mem_of_ne_nil _ hlen with ⟨e, he⟩
      rcases exists_slot_of_mem_flatten he with ⟨j, chain, hj, hec⟩
      have hge : d.rehashIdx.toNat ≤ j := by
        by_contra hlt
        have := hempty j chain (by omega) hj
        rw [this] at hec
        simp at hec
      refine ⟨chain, ?_, List.ne_nil_of_mem hec⟩
      have hj' : (t0.table.drop d.rehashIdx.toNat)[j - d.rehashIdx.toNat]? = some chain := by
        rw [List.getElem?_drop]
        rw [show d.rehashIdx.toNat + (j - d.rehashIdx.toNat) = j by omega]
        exact hj
      exact List.getElem?_mem hj'
    rcases skipEmpty_spec _ d.rehashIdx.toNat hne with ⟨n, hs1, _, ⟨chain, hs3, hs4⟩, hs5⟩
    rw [List.getElem?_drop] at hs3
    generalize hi : d.rehashIdx.toNat + n = i at hs1 hs3
    have hilt : i < t0.table.length := (List.getElem?_eq_some_iff.1 hs3).1
    have hchain : ∀ e ∈ chain, ∃ s, keyStr h e.Key = some s ∧ e.Val ≠ none := by
      intro e he
      rcases ok0.place _ chain hs3 e he with ⟨s, a, _, b⟩
      exact ⟨s, a, b⟩
    rcases moveChain_spec h chain hchain t0 t1 ok1 with ⟨t1', hm1, hm2, hm3, hm4⟩
    have hget : getSlot t0.table (i : Int) = some chain := by
      unfold getSlot
      rw [if_neg (by omega)]
      simpa using hs3
    have hpg := perm_flatten_get t0.table _ chain hs3
    have hperm : List.Perm ((t0.table.set i []).flatten ++ t1'.table.flatten)
        (t0.table.flatten ++ t1.table.flatten) := by
      refine (List.Perm.append_left _ hm4).trans ?_
      rw [← List.append_assoc]
      refine List.Perm.append_right _ ?_
      exact List.perm_append_comm.trans hpg.symm
    have heq : rehashStep gstrType h d = some ⟨some ⟨t0.table.set i [], t0.size, t0.mask,
        t0.used - (chain.length : Int)⟩, some t1', (i : Int) + 1⟩ := by
      simp only [rehashStep, DefaultStep, rehash, h0, h1, hu, Option.bind_eq_bind,
        Option.some_bind, if_false, hs1, hget, hm1]
      rw [if_neg (by omega)]
      simp [setSlot]
    have hall' : List.Perm (allEntries ⟨some ⟨t0.table.set i [], t0.size, t0.mask,
        t0.used - (chain.length : Int)⟩, some t1', (i : Int) + 1⟩) (allEntries d) := by
      rw [hall, allEntries_mk, entriesOf_some, entriesOf_some]
      exact hperm
    refine ⟨_, heq, ?_, hall', by simp⟩
    constructor
    · intro hn; simp at hn
    · intro t ht
      simp only [Option.some.injEq] at ht
      subst ht
      constructor
      · simp only [List.length_set]; exact ok0.len
      · exact ok0.mask
      · exact ok0.pow
      · simp only
        have := hpg.length_eq
        rw [List.length_append] at this
        rw [ok0.used]
        omega
      · intro j ch hj e he
        simp only at hj
        by_cases hidx : i = j
        · subst hidx
          rw [List.getElem?_set_self hilt] at hj
          simp only [Option.some.injEq] at hj
          subst hj
          simp at he
        · rw [List.getElem?_set_ne hidx] at hj
          exact ok0.place j ch hj e he
    · intro t ht
      simp only [Option.some.injEq] at ht
      subst ht
      exact hm2
    · intro hn
      simp only at hn
      omega
    · intro _
      refine ⟨_, _, rfl, rfl, by simp only; omega, by simp only; omega, ?_⟩
      intro j ch hlt hj
      simp only at hj hlt
      by_cases hidx : i = j
      · subst hidx
        rw [List.getElem?_set_self hilt] at hj
        simpa using hj.symm
      · rw [List.getElem?_set_ne hidx] at hj
        by_cases hlow : (j : Int) < d.rehashIdx
        · exact hempty j ch hlow hj
        · have hm : j - d.rehashIdx.toNat < n := by omega
          have := hs5 _ hm
          rw [List.getElem?_drop] at this
          rw [show d.rehashIdx.toNat + (j - d.rehashIdx.toNat) = j by omega] at this
          rw [this] at hj
          simpa using hj.symm
    · exact nodup_keys_of_perm hall' inv.nodup
    · intro t ht
      rw [hall'.length_eq]
      simp only [Option.some.injEq] at ht
      rcases ht with ht | ht
      · subst ht
        exact inv.small t0 (Or.inl h0)
      · subst ht
        have := inv.small t1 (Or.inr h1)
        rw [hm3]
        exact this

theorem nextPower_init : nextPower InitSize = some 8 := by decide

set_option maxRecDepth 100000 in
theorem nextPower_double_aux :
    ∀ k : Nat, k < 62 → nextPower ((2 : Int) ^ k * GrowRatio) =
      (if 3 ≤ k then some ((2 : Int) ^ (k + 1)) else some 8) := by
  decide

theorem nextPower_double (k : Nat) (h3 : 3 ≤ k) (h61 : k ≤ 61) :
    nextPower ((2 : Int) ^ k * GrowRatio) = some ((2 : Int) ^ (k + 1)) := by
  have := nextPower_double_aux k (by omega)
  rwa [if_pos h3] at this

theorem flatten_replicate_nil {α : Type} (n : Nat) :
    (List.replicate n ([] : List α)).flatten = [] := by
  induction n with
  | zero => rfl
  | succ n ih => simp [List.replicate_succ, ih]

theorem TableOK.fresh (h : Heap) (k : Nat) (h3 : 3 ≤ k) (h62 : k ≤ 62) :
    TableOK h (freshTable ((2 : Int) ^ k)) := by
  unfold freshTable
  have hpos : (0 : Int) ≤ 2 ^ k := by positivity
  constructor
  · simp only [List.length_replicate]
    exact Int.toNat_of_nonneg hpos
  · rfl
  · exact ⟨k, h3, h62, rfl⟩
  · simp [flatten_replicate_nil]
  · intro i chain hi e he
    rw [List.getElem?_replicate] at hi
    split at hi
    · simp only [Option.some.injEq] at hi
      subst hi
      simp at he
    · simp at hi

theorem DictInv.hts0_ne_none_of_moving {h : Heap} {d : Dict} (inv : DictInv h d)
    (hr : d.rehashIdx ≠ -1) : d.hts0 ≠ none := by
  rcases inv.moving hr with ⟨t0, _, h0, _⟩
  simp [h0]

theorem isRehashing_iff (d : Dict) : d.isRehashing = true ↔ d.rehashIdx ≠ -1 := by
  simp [Dict.isRehashing]

theorem isRehashing_false_iff (d : Dict) : d.isRehashing = false ↔ d.rehashIdx = -1 := by
  simp [Dict.isRehashing]

/-- The size exponent of a consistent table is small when the dictionary holds fewer than
`2^60` entries. -/
theorem size_exponent_small {h : Heap} {t : htable} (ok : TableOK h t) (n : Nat)
    (hn : n < 1152921504606846976) (hs : t.size ≤ 8 ∨ t.size ≤ (n : Int)) :
    ∃ k : Nat, 3 ≤ k ∧ k ≤ 61 ∧ t.size = 2 ^ k := by
  rcases ok.pow with ⟨k, h3, h62, hk⟩
  refine ⟨k, h3, ?_, hk⟩
  by_contra hgt
  have hk62 : k = 62 := by omega
  subst hk62
  rw [hk] at hs
  norm_num at hs
  omega

theorem expandIfNeed_spec (h : Heap) (d : Dict) (inv : DictInv h d)
    (hn : (allEntries d).length < 1152921504606846976) :
    ∃ d', expandIfNeed d = some (none, d') ∧ DictInv h d' ∧ allEntries d' = allEntries d ∧
      d'.hts0 ≠ none ∧ (d.rehashIdx ≠ -1 → d' = d) := by
  by_cases hr : d.rehashIdx = -1
  · have hnr : d.isRehashing = false := (isRehashing_false_iff d).2 hr
    have h1 : d.hts1 = none := inv.steady hr
    cases h0 : d.hts0 with
    | none =>
      have heq : expandIfNeed d = some (none, ⟨some (freshTable ((2 : Int) ^ 3)), d.hts1, d.rehashIdx⟩) := by
        simp [expandIfNeed, hnr, h0, expand, nextPower_init, freshTable]
      have hall0 : allEntries d = [] := by
        simp [allEntries, h0, h1, entriesOf_none]
      have hall : allEntries ⟨some (freshTable ((2 : Int) ^ 3)), d.hts1, d.rehashIdx⟩ = allEntries d := by
        rw [hall0]
        simp [allEntries, h1, entriesOf_some, entriesOf_none, flatten_replicate_nil, freshTable]
      refine ⟨_, heq, ?_, hall, by simp, fun hc => absurd hr hc⟩
      constructor
      · intro hc; simp at hc
      · intro t ht
        simp only [Option.some.injEq] at ht
        subst ht
        exact TableOK.fresh h 3 (by omega) (by omega)
      · intro t ht
        simp only [h1] at ht
        simp at ht
      · intro _; exact h1
      · intro hc; exact absurd hr hc
      · rw [hall, hall0]; simp
      · intro t ht
        simp only [h1, Option.some.injEq, or_false] at ht
        rcases ht with ht | ht
        · subst ht; left; simp [freshTable]
        · simp at ht
    | some t0 =>
      have ok0 := inv.ok0 t0 h0
      have hb := ok0.size_bounds
      have hall0 : allEntries d = t0.table.flatten := allEntries_eq0 h0 h1
      by_cases hc : t0.used > t0.size ∧ Int.tdiv t0.used t0.size > ForceRatio
      · -- growth: a rehash starts
        rcases size_exponent_small ok0 _ hn (inv.small t0 (Or.inl h0)) with ⟨k, h3, h61, hk⟩
        have hnp := nextPower_double k h3 h61
        have hused : 3 * t0.size ≤ t0.used := by
          have hu0 : 0 ≤ t0.used := by rw [ok0.used]; exact Int.ofNat_nonneg _
          have h2 := hc.2
          rw [Int.tdiv_eq_ediv hu0 (by omega)] at h2
          have h3' : (3 : Int) ≤ t0.used / t0.size := by
            unfold ForceRatio at h2; omega
          exact (Int.le_ediv_iff_mul_le (by omega)).1 h3'
        have heq : expandIfNeed d = some (none, ⟨d.hts0, some (freshTable ((2 : Int) ^ (k + 1))), 0⟩) := by
          have hpos : ¬ ((2 : Int) ^ (k + 1) < 0) := by
            have : (0 : Int) ≤ 2 ^ (k + 1) := by positivity
            omega
          have hblk : ¬ ((2 : Int) ^ (k + 1) ≤ t0.size) := by
            rw [hk, pow_succ]
            have : (0 : Int) < 2 ^ k := by positivity
            omega
          have hz : t0.size ≠ 0 := by omega
          have hexp : expand d ((2 : Int) ^ k * GrowRatio) =
              some (none, ⟨d.hts0, some (freshTable ((2 : Int) ^ (k + 1))), 0⟩) := by
            rw [hk] at hblk
            simp [expand, hnp, hnr, h0, hk, hpos, hblk, freshTable]
          unfold expandIfNeed
          simp only [hnr, h0, Bool.false_eq_true, if_false]
          rw [if_pos hc.1, if_neg hz, if_pos hc.2, hk, hexp, h0]
        have hall : allEntries ⟨d.hts0, some (freshTable ((2 : Int) ^ (k + 1))), 0⟩ = allEntries d := by
          rw [hall0]
          simp [allEntries, h0, entriesOf_some, flatten_replicate_nil, freshTable]
        refine ⟨_, heq, ?_, hall, by simp [h0], fun hc => absurd hr hc⟩
        constructor
        · intro hc'; simp [h0] at hc'
        · intro t ht
          simp only [h0, Option.some.injEq] at ht
          subst ht
          exact ok0
        · intro t ht
          simp only [Option.some.injEq] at ht
          subst ht
          exact TableOK.fresh h (k + 1) (by omega) (by omega)
        · intro hc'; simp at hc'
        · intro _
          refine ⟨t0, _, h0, rfl, le_refl _, ?_, ?_⟩
          · show (freshTable ((2 : Int) ^ (k + 1))).size = 2 * t0.size
            rw [hk, pow_succ]
            simp only [freshTable]
            ring
          · intro i chain hi
            have hi' : (i : Int) < 0 := hi
            omega
        · rw [hall]; exact inv.nodup
        · intro t ht
          rw [hall]
          simp only [h0, Option.some.injEq] at ht
          rcases ht with ht | ht
          · subst ht; exact inv.small _ (Or.inl h0)
          · subst ht
            right
            simp only [freshTable]
            rw [hall0, ← ok0.used, pow_succ, ← hk]
            omega
      · have hz : t0.size ≠ 0 := by omega
        have heq : expandIfNeed d = some (none, d) := by
          simp only [expandIfNeed, hnr, h0, hz]
          by_cases hu : t0.used > t0.size
          · have hd : ¬ Int.tdiv t0.used t0.size > ForceRatio := fun hx => hc ⟨hu, hx⟩
            simp [hu, hd]
          · simp [hu]
        exact ⟨d, heq, inv, rfl, by simp [h0], fun _ => rfl⟩
  · have hnr : d.isRehashing = true := (isRehashing_iff d).2 hr
    refine ⟨d, by simp [expandIfNeed, hnr], inv, rfl, inv.hts0_ne_none_of_moving hr, fun _ => rfl⟩

theorem TableOK.lookup {h : Heap} {t : htable} (ok : TableOK h t) (key : Ptr) (s : Bytes)
    (hk : keyStr h key = some s) :
    ∃ chain, getSlot t.table (slotOf s t.mask) = some chain ∧
      t.table[(slotOf s t.mask).toNat]? = some chain ∧
      ((∃ pos e, findInChain gstrType h key chain = some (some pos) ∧ chain[pos]? = some e ∧
          keyStr h e.Key = some s) ∨
       (findInChain gstrType h key chain = some none ∧
          ∀ e ∈ t.table.flatten, keyStr h e.Key ≠ some s)) := by
  rcases ok.read_slot (toInt64 (fnv1 s)) with ⟨chain, hg1, hg2⟩
  change getSlot t.table (slotOf s t.mask) = some chain at hg1
  change t.table[(slotOf s t.mask).toNat]? = some chain at hg2
  refine ⟨chain, hg1, hg2, ?_⟩
  have hc : ∀ e ∈ chain, ∃ s', keyStr h e.Key = some s' := by
    intro e he
    rcases ok.place _ chain hg2 e he with ⟨s', a, _⟩
    exact ⟨s', a⟩
  rcases findInChain_spec h key s hk chain hc with hfound | ⟨hnone, habs⟩
  · exact Or.inl hfound
  · right
    refine ⟨hnone, ?_⟩
    intro e he heq
    rcases exists_slot_of_mem_flatten he with ⟨j, cj, hj, hej⟩
    rcases ok.place j cj hj e hej with ⟨s', hs', hslot, _⟩
    rw [heq] at hs'
    simp only [Option.some.injEq] at hs'
    subst hs'
    have hr := ok.slot_range (toInt64 (fnv1 s))
    have hjj : (slotOf s t.mask).toNat = j := by
      rw [hslot]; simp
    rw [hjj, hj] at hg2
    simp only [Option.some.injEq] at hg2
    subst hg2
    exact habs e hej heq

theorem RefAt.entryAt {d : Dict} {r : EntryRef} {e : Entry} (hr : RefAt d r e) :
    d.entryAt r = some e := by
  rcases hr with ⟨t, chain, h1, h2, h3, _⟩
  simp [Dict.entryAt, h1, h2, h3]

theorem RefAt.mem {d : Dict} {r : EntryRef} {e : Entry} (hr : RefAt d r e) :
    e ∈ allEntries d := by
  rcases hr with ⟨t, chain, h1, h2, h3, h4⟩
  have hmem : e ∈ t.table.flatten := mem_flatten_of_slot h2 (List.getElem?_mem h3)
  unfold allEntries
  rcases h4 with h4 | h4
  · simp only [Dict.hts, h4, if_true] at h1
    rw [h1, entriesOf_some]
    exact List.mem_append_left _ hmem
  · simp only [Dict.hts, h4] at h1
    simp only [show ¬ (1 = 0) by decide, if_false] at h1
    rw [h1, entriesOf_some]
    exact List.mem_append_right _ hmem

theorem findLoop_spec (h : Heap) (d : Dict) (inv : DictInv h d) (hne : d.hts0 ≠ none)
    (key : Ptr) (s : Bytes) (hk : keyStr h key = some s) :
    (∃ r e, findLoop gstrType h d key (toInt64 (fnv1 s)) 2 0 = some (some r) ∧ RefAt d r e ∧
        keyStr h e.Key = some s) ∨
    (findLoop gstrType h d key (toInt64 (fnv1 s)) 2 0 = some none ∧
        ∀ e ∈ allEntries d, keyStr h e.Key ≠ some s) := by
  cases h0 : d.hts0 with
  | none => exact absurd h0 hne
  | some t0 =>
    have ok0 := inv.ok0 t0 h0
    rcases ok0.lookup key s hk with ⟨chain, hg1, hg2, hcase⟩
    change getSlot t0.table (and64 (toInt64 (fnv1 s)) t0.mask) = some chain at hg1
    have hr0 := ok0.slot_range (toInt64 (fnv1 s))
    rcases hcase with ⟨pos, e, hf, hp, hs⟩ | ⟨hf, habs0⟩
    · left
      refine ⟨⟨0, (slotOf s t0.mask).toNat, pos⟩, e, ?_, ⟨t0, chain, ?_, hg2, hp, Or.inl rfl⟩, hs⟩
      · simp [findLoop, Dict.hts, h0, hg1, hf, slotOf]
      · simp [Dict.hts, h0]
    · by_cases hr : d.rehashIdx = -1
      · right
        have h1 : d.hts1 = none := inv.steady hr
        have hnr : d.isRehashing = false := (isRehashing_false_iff d).2 hr
        refine ⟨?_, ?_⟩
        · simp [findLoop, Dict.hts, h0, hg1, hf, hnr, slotOf]
        · rw [allEntries_eq0 h0 h1]
          exact habs0
      · have hnr : d.isRehashing = true := (isRehashing_iff d).2 hr
        rcases inv.moving hr with ⟨t0', t1, h0', h1, _⟩
        have ok1 := inv.ok1 t1 h1
        rcases ok1.lookup key s hk with ⟨chain1, hg1', hg2', hcase1⟩
        change getSlot t1.table (and64 (toInt64 (fnv1 s)) t1.mask) = some chain1 at hg1'
        rcases hcase1 with ⟨pos, e, hf1, hp, hs⟩ | ⟨hf1, habs1⟩
        · left
          refine ⟨⟨1, (slotOf s t1.mask).toNat, pos⟩, e, ?_,
            ⟨t1, chain1, ?_, hg2', hp, Or.inr rfl⟩, hs⟩
          · simp [findLoop, Dict.hts, h0, h1, hg1, hg1', hf, hf1, hnr, slotOf]
          · simp [Dict.hts, h1]
        · right
          refine ⟨?_, ?_⟩
          · simp [findLoop, Dict.hts, h0, h1, hg1, hg1', hf, hf1, hnr, slotOf]
          · rw [allEntries_eq h0 h1]
            intro e he
            rcases List.mem_append.1 he with he | he
            · exact habs0 e he
            · exact habs1 e he

theorem keyIndexLoop_spec (h : Heap) (d : Dict) (inv : DictInv h d) (hne : d.hts0 ≠ none)
    (key : Ptr) (s : Bytes) (hk : keyStr h key = some s) :
    (keyIndexLoop gstrType h d key (toInt64 (fnv1 s)) 2 0 = some (-1) ∧
        ∃ e ∈ allEntries d, keyStr h e.Key = some s) ∨
    (∃ t, d.hts (targetTable d) = some t ∧
        keyIndexLoop gstrType h d key (toInt64 (fnv1 s)) 2 0 = some (slotOf s t.mask) ∧
        ∀ e ∈ allEntries d, keyStr h e.Key ≠ some s) := by
  cases h0 : d.hts0 with
  | none => exact absurd h0 hne
  | some t0 =>
    have ok0 := inv.ok0 t0 h0
    rcases ok0.lookup key s hk with ⟨chain, hg1, hg2, hcase⟩
    change getSlot t0.table (and64 (toInt64 (fnv1 s)) t0.mask) = some chain at hg1
    rcases hcase with ⟨pos, e, hf, hp, hs⟩ | ⟨hf, habs0⟩
    · left
      refine ⟨?_, e, ?_, hs⟩
      · simp [keyIndexLoop, Dict.hts, h0, hg1, hf, slotOf]
      · have : e ∈ t0.table.flatten := mem_flatten_of_slot hg2 (List.getElem?_mem hp)
        unfold allEntries
        rw [h0, entriesOf_some]
        exact List.mem_append_left _ this
    · by_cases hr : d.rehashIdx = -1
      · right
        have h1 : d.hts1 = none := inv.steady hr
        have hnr : d.isRehashing = false := (isRehashing_false_iff d).2 hr
        refine ⟨t0, by simp [targetTable, hnr, Dict.hts, h0], ?_, ?_⟩
        · simp [keyIndexLoop, Dict.hts, h0, hg1, hf, hnr, slotOf]
        · rw [allEntries_eq0 h0 h1]
          exact habs0
      · have hnr : d.isRehashing = true := (isRehashing_iff d).2 hr
        rcases inv.moving hr with ⟨t0', t1, h0', h1, _⟩
        have ok1 := inv.ok1 t1 h1
        rcases ok1.lookup key s hk with ⟨chain1, hg1', hg2', hcase1⟩
        change getSlot t1.table (and64 (toInt64 (fnv1 s)) t1.mask) = some chain1 at hg1'
        rcases hcase1 with ⟨pos, e, hf1, hp, hs⟩ | ⟨hf1, habs1⟩
        · left
          refine ⟨?_, e, ?_, hs⟩
          · simp [keyIndexLoop, Dict.hts, h0, h1, hg1, hg1', hf, hf1, hnr, slotOf]
          · have : e ∈ t1.table.flatten := mem_flatten_of_slot hg2' (List.getElem?_mem hp)
            rw [allEntries_eq h0 h1]
            exact List.mem_append_right _ this
        · right
          refine ⟨t1, by simp [targetTable, hnr, Dict.hts, h1], ?_, ?_⟩
          · simp [keyIndexLoop, Dict.hts, h0, h1, hg1, hg1', hf, hf1, hnr, slotOf]
          · rw [allEntries_eq h0 h1]
            intro e he
            rcases List.mem_append.1 he with he | he
            · exact habs0 e he
            · exact habs1 e he

theorem DictInv.heap_congr {h h' : Heap} {d : Dict} (hk : ∀ p, keyStr h' p = keyStr h p)
    (inv : DictInv h d) : DictInv h' d := by
  have hok : ∀ t, TableOK h t → TableOK h' t := by
    intro t ok
    refine ⟨ok.len, ok.mask, ok.pow, ok.used, ?_⟩
    intro i chain hi e he
    rcases ok.place i chain hi e he with ⟨s, a, b, c⟩
    exact ⟨s, by rw [hk]; exact a, b, c⟩
  refine ⟨inv.fresh, fun t ht => hok t (inv.ok0 t ht), fun t ht => hok t (inv.ok1 t ht),
    inv.steady, inv.moving, ?_, inv.small⟩
  have : (fun e : Entry => keyStr h' e.Key) = (fun e : Entry => keyStr h e.Key) := by
    funext e; exact hk _
  rw [this]
  exact inv.nodup

theorem allEntries_fresh {h : Heap} {d : Dict} (inv : DictInv h d) (h0 : d.hts0 = none) :
    allEntries d = [] := by
  have := (inv.fresh h0).1
  simp [allEntries, h0, this, entriesOf_none]

theorem maybeStep_bind {β : Type} (h : Heap) (d : Dict) (k : Dict → Option β) (d1 : Dict)
    (hs : (if d.isRehashing then rehashStep gstrType h d else some d) = some d1) :
    (if d.isRehashing = true then (rehashStep gstrType h d).bind k else (some d).bind k) =
      k d1 := by
  by_cases hc : d.isRehashing = true
  · rw [if_pos hc] at hs ⊢
    rw [hs]; rfl
  · rw [if_neg hc] at hs ⊢
    rw [hs]; rfl

theorem maybeStep_spec (h : Heap) (d : Dict) (inv : DictInv h d) :
    ∃ d1, (if d.isRehashing then rehashStep gstrType h d else some d) = some d1 ∧
      DictInv h d1 ∧ List.Perm (allEntries d1) (allEntries d) ∧
      (d.hts0 ≠ none → d1.hts0 ≠ none) := by
  by_cases hr : d.rehashIdx = -1
  · have hnr : d.isRehashing = false := (isRehashing_false_iff d).2 hr
    exact ⟨d, by simp [hnr], inv, List.Perm.refl _, fun hne => hne⟩
  · have hnr : d.isRehashing = true := (isRehashing_iff d).2 hr
    rcases rehashStep_spec h d inv hr with ⟨d1, a, b, c, e⟩
    exact ⟨d1, by simp [hnr, a], b, c, fun _ => e⟩

/-- A lookup on a consistent dictionary returns; it keeps the invariant and the stored
entries, and its answer is the entry whose key is the string looked up, or nil when no
stored key is that string. -/
theorem Find_spec (h : Heap) (d : Dict) (inv : DictInv h d) (key : Ptr) (s : Bytes)
    (hk : keyStr h key = some s) :
    ∃ r d', Find gstrType h d key = some (r, d') ∧ DictInv h d' ∧
      List.Perm (allEntries d') (allEntries d) ∧
      ((∃ ref e, r = some ref ∧ RefAt d' ref e ∧ keyStr h e.Key = some s) ∨
       (r = none ∧ ∀ e ∈ allEntries d, keyStr h e.Key ≠ some s)) := by
  cases h0 : d.hts0 with
  | none =>
    refine ⟨none, d, by simp [Find, h0], inv, List.Perm.refl _, Or.inr ⟨rfl, ?_⟩⟩
    rw [allEntries_fresh inv h0]
    simp
  | some t0 =>
    rcases maybeStep_spec h d inv with ⟨d1, hs1, inv1, hp1, hne1'⟩
    have hne1 : d1.hts0 ≠ none := hne1' (by simp [h0])
    have hh : gstrType.HashFunc (h key) = some (toInt64 (fnv1 s)) := keyStr_hash hk
    rcases findLoop_spec h d1 inv1 hne1 key s hk with ⟨r, e, hf, hra, hse⟩ | ⟨hf, habs⟩
    · refine ⟨some r, d1, ?_, inv1, hp1, Or.inl ⟨r, e, rfl, hra, hse⟩⟩
      unfold Find
      simp only [h0, Option.bind_eq_bind]
      rw [maybeStep_bind h d _ d1 hs1]
      simp [hh, hf]
    · refine ⟨none, d1, ?_, inv1, hp1, Or.inr ⟨rfl, ?_⟩⟩
      · unfold Find
        simp only [h0, Option.bind_eq_bind]
        rw [maybeStep_bind h d _ d1 hs1]
        simp [hh, hf]
      · intro e he
        exact habs e (hp1.symm.subset he)

theorem targetTable_cases (d : Dict) :
    (d.rehashIdx = -1 ∧ targetTable d = 0) ∨ (d.rehashIdx ≠ -1 ∧ targetTable d = 1) := by
  by_cases hr : d.rehashIdx = -1
  · left; exact ⟨hr, by simp [targetTable, (isRehashing_false_iff d).2 hr]⟩
  · right; exact ⟨hr, by simp [targetTable, (isRehashing_iff d).2 hr]⟩

/-- Replacing the table insertions go to by one that holds one more entry, under a key no
stored entry has, keeps the invariant. -/
theorem DictInv.replace_target {h : Heap} {d : Dict} (inv : DictInv h d) (t t' : htable)
    (ht : d.hts (targetTable d) = some t) (ok' : TableOK h t') (hsz : t'.size = t.size)
    (e : Entry) (hperm : List.Perm t'.table.flatten (e :: t.table.flatten))
    (hnew : ∀ x ∈ allEntries d, keyStr h x.Key ≠ keyStr h e.Key) :
    DictInv h (d.setHt (targetTable d) t') ∧
      List.Perm (allEntries (d.setHt (targetTable d) t')) (e :: allEntries d) := by
  rcases targetTable_cases d with ⟨hr, htn⟩ | ⟨hr, htn⟩
  · -- not rehashing: the table is `ht[0]`
    rw [htn] at ht ⊢
    have h0 : d.hts0 = some t := by simpa [Dict.hts] using ht
    have h1 : d.hts1 = none := inv.steady hr
    have hall : allEntries d = t.table.flatten := allEntries_eq0 h0 h1
    have hds : d.setHt 0 t' = ⟨some t', d.hts1, d.rehashIdx⟩ := by simp [Dict.setHt]
    have hall' : allEntries (d.setHt 0 t') = t'.table.flatten := by
      rw [hds, allEntries_mk, h1, entriesOf_some, entriesOf_none, List.append_nil]
    have hp : List.Perm (allEntries (d.setHt 0 t')) (e :: allEntries d) := by
      rw [hall', hall]; exact hperm
    refine ⟨?_, hp⟩
    rw [hds] at hp ⊢
    constructor
    · intro hc; simp at hc
    · intro x hx; simp only [Option.some.injEq] at hx; subst hx; exact ok'
    · intro x hx; simp only [h1] at hx; simp at hx
    · intro _; exact h1
    · intro hc; exact absurd hr hc
    · refine nodup_keys_of_perm hp ?_
      rw [List.map_cons, List.nodup_cons]
      refine ⟨?_, inv.nodup⟩
      intro hmem
      rcases List.mem_map.1 hmem with ⟨x, hx, hxe⟩
      exact hnew x hx hxe
    · intro x hx
      rw [hp.length_eq]
      simp only [h1, Option.some.injEq, or_false] at hx
      rcases hx with hx | hx
      · subst hx
        rw [hsz]
        rcases inv.small t (Or.inl h0) with hh | hh
        · exact Or.inl hh
        · right
          simp only [List.length_cons, Nat.cast_add, Nat.cast_one]
          omega
      · simp at hx
  · -- rehashing: the table is `ht[1]`
    rw [htn] at ht ⊢
    rcases inv.moving hr with ⟨t0, t1, h0, h1, hri, hsz1, hempty⟩
    have ht1 : t1 = t := by
      have : d.hts1 = some t := by simpa [Dict.hts] using ht
      rw [h1] at this
      exact Option.some.inj this
    subst ht1
    have hall : allEntries d = t0.table.flatten ++ t1.table.flatten := allEntries_eq h0 h1
    have hds : d.setHt 1 t' = ⟨d.hts0, some t', d.rehashIdx⟩ := by simp [Dict.setHt]
    have hall' : allEntries (d.setHt 1 t') = t0.table.flatten ++ t'.table.flatten := by
      rw [hds, allEntries_mk, h0, entriesOf_some, entriesOf_some]
    have hp : List.Perm (allEntries (d.setHt 1 t')) (e :: allEntries d) := by
      rw [hall', hall]
      refine (List.Perm.append_left _ hperm).trans ?_
      exact List.perm_middle
    refine ⟨?_, hp⟩
    rw [hds] at hp ⊢
    constructor
    · intro hc; simp only at hc; rw [h0] at hc; simp at hc
    · intro x hx; exact inv.ok0 x hx
    · intro x hx; simp only [Option.some.injEq] at hx; subst hx; exact ok'
    · intro hc; exact absurd hc hr
    · intro _
      exact ⟨t0, t', h0, rfl, hri, by rw [hsz, hsz1], hempty⟩
    · refine nodup_keys_of_perm hp ?_
      rw [List.map_cons, List.nodup_cons]
      refine ⟨?_, inv.nodup⟩
      intro hmem
      rcases List.mem_map.1 hmem with ⟨x, hx, hxe⟩
      exact hnew x hx hxe
    · intro x hx
      rw [hp.length_eq]
      have hgrow : ∀ y : htable, (y.size ≤ 8 ∨ y.size ≤ ((allEntries d).length : Int)) →
          (y.size ≤ 8 ∨ y.size ≤ (((e :: allEntries d).length : Nat) : Int)) := by
        intro y hy
        rcases hy with hh | hh
        · exact Or.inl hh
        · right
          simp only [List.length_cons, Nat.cast_add, Nat.cast_one]
          omega
      simp only [Option.some.injEq] at hx
      rcases hx with hx | hx
      · exact hgrow x (inv.small x (Or.inl hx))
      · subst hx
        have := hgrow t1 (inv.small t1 (Or.inr h1))
        rw [hsz]
        exact this

theorem hts_setHt (d : Dict) (tn : Nat) (t : htable) : (d.setHt tn t).hts tn = some t := by
  by_cases h : tn = 0
  · simp [Dict.setHt, Dict.hts, h]
  · simp [Dict.setHt, Dict.hts, h]

theorem setHt_setHt (d : Dict) (tn : Nat) (a b : htable) :
    (d.setHt tn a).setHt tn b = d.setHt tn b := by
  by_cases h : tn = 0
  · simp [Dict.setHt, h]
  · simp [Dict.setHt, h]

theorem keyIndex_spec (h : Heap) (d : Dict) (inv : DictInv h d)
    (hn : (allEntries d).length < 1152921504606846976) (key : Ptr) (s : Bytes)
    (hk : keyStr h key = some s) :
    ∃ d2, DictInv h d2 ∧ allEntries d2 = allEntries d ∧ d2.hts0 ≠ none ∧
      ((keyIndex gstrType h d key = some (-1, d2) ∧
          ∃ e ∈ allEntries d, keyStr h e.Key = some s) ∨
       (∃ t, d2.hts (targetTable d2) = some t ∧
          keyIndex gstrType h d key = some (slotOf s t.mask, d2) ∧
          ∀ e ∈ allEntries d, keyStr h e.Key ≠ some s)) := by
  rcases expandIfNeed_spec h d inv hn with ⟨d2, he, inv2, hall, hne, _⟩
  have hh : gstrType.HashFunc (h key) = some (toInt64 (fnv1 s)) := keyStr_hash hk
  refine ⟨d2, inv2, hall, hne, ?_⟩
  rcases keyIndexLoop_spec h d2 inv2 hne key s hk with ⟨hl, hex⟩ | ⟨t, ht, hl, habs⟩
  · left
    refine ⟨?_, ?_⟩
    · simp [keyIndex, he, hh, hl]
    · rw [← hall]; exact hex
  · right
    refine ⟨t, ht, ?_, ?_⟩
    · simp [keyIndex, he, hh, hl]
    · rw [← hall]; exact habs

/-- Insertion into a consistent dictionary holding fewer than `2^60` entries.  When a
stored key is the string of `key` the call answers `ExErr` and changes neither the heap nor
the stored entries; otherwise it answers nil, stores the entry `(key, val)` and increments
the reference counts of `key` and `val`. -/
theorem Add_spec (h : Heap) (d : Dict) (inv : DictInv h d)
    (hn : (allEntries d).length < 1152921504606846976) (key val : Ptr) (s : Bytes)
    (hk : keyStr h key = some s) :
    ((∃ e ∈ allEntries d, keyStr h e.Key = some s) ∧
      ∃ d', Add gstrType h d key val = some (some .ExErr, h, d') ∧ DictInv h d' ∧
        List.Perm (allEntries d') (allEntries d)) ∨
    ((∀ e ∈ allEntries d, keyStr h e.Key ≠ some s) ∧
      ∃ d', Add gstrType h d key val =
          some (none, IncrRefCount (IncrRefCount h key) val, d') ∧
        DictInv (IncrRefCount (IncrRefCount h key) val) d' ∧
        List.Perm (allEntries d') ({ Key := key, Val := some val } :: allEntries d)) := by
  rcases maybeStep_spec h d inv with ⟨d1, hs1, inv1, hp1, _⟩
  have hn1 : (allEntries d1).length < 1152921504606846976 := by rw [hp1.length_eq]; exact hn
  rcases keyIndex_spec h d1 inv1 hn1 key s hk with ⟨d2, inv2, hall2, hne2, hcase⟩
  have hp2 : List.Perm (allEntries d2) (allEntries d) := by rw [hall2]; exact hp1
  rcases hcase with ⟨hki, e, he, hes⟩ | ⟨t, ht, hki, habs⟩
  · left
    refine ⟨⟨e, hp1.subset he, hes⟩, d2, ?_, inv2, hp2⟩
    unfold Add AddRaw
    simp only [Option.bind_eq_bind]
    rw [maybeStep_bind h d _ d1 hs1]
    simp [hki]
  · right
    refine ⟨fun e he => habs e (hp1.symm.subset he), ?_⟩
    have okt : TableOK h t := by
      rcases targetTable_cases d2 with ⟨_, htn⟩ | ⟨_, htn⟩
      · rw [htn] at ht
        exact inv2.ok0 t (by simpa [Dict.hts] using ht)
      · rw [htn] at ht
        exact inv2.ok1 t (by simpa [Dict.hts] using ht)
    rcases okt.read_slot (toInt64 (fnv1 s)) with ⟨slot, hg1, hg2⟩
    change getSlot t.table (slotOf s t.mask) = some slot at hg1
    change t.table[(slotOf s t.mask).toNat]? = some slot at hg2
    have hrange : 0 ≤ slotOf s t.mask ∧ (slotOf s t.mask).toNat < t.table.length :=
      okt.slot_range (toInt64 (fnv1 s))
    have hpush := okt.push { Key := key, Val := some val } s hk (by simp) slot hg2
    have hnew : ∀ x ∈ allEntries d2,
        keyStr h x.Key ≠ keyStr h ({ Key := key, Val := some val } : Entry).Key := by
      intro x hx
      rw [hall2] at hx
      simp only [hk]
      exact habs x hx
    rcases inv2.replace_target t _ ht hpush.1 rfl _ hpush.2 hnew with ⟨inv3, hp3⟩
    refine ⟨_, ?_, ?_, hp3.trans (List.Perm.cons _ hp2)⟩
    · unfold Add AddRaw
      simp only [Option.bind_eq_bind]
      rw [maybeStep_bind h d _ d1 hs1]
      have hidx : slotOf s t.mask ≠ -1 := by omega
      have htt : (if d2.isRehashing = true then 1 else 0) = targetTable d2 := rfl
      simp only [hki, Option.some_bind, hidx, if_false, htt, ht, hg1, Dict.setVal, hts_setHt,
        setSlot, List.getElem?_set_self hrange.2, List.getElem?_cons_zero, setHt_setHt,
        List.set_set, List.set_cons_zero, Option.bind_eq_bind]
    · refine DictInv.heap_congr ?_ inv3
      intro p
      rw [keyStr_incr, keyStr_incr]

theorem DictInv.at_create (h : Heap) : DictInv h DictCreate := by
  constructor
  · intro _; exact ⟨rfl, rfl⟩
  · intro t ht; simp [DictCreate] at ht
  · intro t ht; simp [DictCreate] at ht
  · intro _; rfl
  · intro hc; exact absurd rfl hc
  · simp [allEntries, DictCreate, entriesOf_none]
  · intro t ht; simp [DictCreate] at ht

theorem inserted_length_le (ops : List DictOp) : (inserted ops).length ≤ ops.length := by
  induction ops with
  | nil => simp [inserted]
  | cons op ops ih =>
    cases op with
    | add k v => simp only [inserted, List.length_cons]; omega
    | find k => simp only [inserted, List.length_cons]; omega

theorem runOps_spec (h0 : Heap) (ops : List DictOp) :
    ∀ (h : Heap) (d : Dict) (pre : List (Ptr × Ptr)), DictInv h d →
      (∀ p, keyStr h p = keyStr h0 p) →
      List.Perm (allEntries d) (pre.map toEntry) →
      (∀ op ∈ ops, ∃ s, keyStr h0 op.key = some s) →
      ((pre ++ inserted ops).map (fun kv => keyStr h0 kv.1)).Nodup →
      pre.length + ops.length < 1152921504606846976 →
      ∃ h' d', runOps gstrType ops h d = some (h', d') ∧ DictInv h' d' ∧
        (∀ p, keyStr h' p = keyStr h0 p) ∧
        List.Perm (allEntries d') ((pre ++ inserted ops).map toEntry) := by
  induction ops with
  | nil =>
    intro h d pre inv hk hp _ _ _
    exact ⟨h, d, rfl, inv, hk, by simpa [inserted] using hp⟩
  | cons op ops ih =>
    intro h d pre inv hk hp hstr hnd hlen
    have hlen' : pre.length + ops.length + 1 < 1152921504606846976 := by
      simpa [Nat.add_assoc] using hlen
    cases op with
    | find k =>
      rcases hstr (.find k) (by simp) with ⟨s, hs⟩
      have hs' : keyStr h k = some s := by rw [hk]; exact hs
      rcases Find_spec h d inv k s hs' with ⟨r, d1, hf, inv1, hp1, _⟩
      rcases ih h d1 pre inv1 hk (hp1.trans hp) (fun op hop => hstr op (by simp [hop]))
        (by simpa [inserted] using hnd) (by omega) with ⟨h', d', hrun, inv', hk', hp'⟩
      refine ⟨h', d', ?_, inv', hk', by simpa [inserted] using hp'⟩
      simp [runOps, hf, hrun]
    | add k v =>
      rcases hstr (.add k v) (by simp) with ⟨s, hs⟩
      have hs' : keyStr h k = some s := by rw [hk]; exact hs
      have hcount : (allEntries d).length < 1152921504606846976 := by
        rw [hp.length_eq, List.length_map]; omega
      have hnd' : ((pre ++ [(k, v)] ++ inserted ops).map (fun kv => keyStr h0 kv.1)).Nodup := by
        simpa [inserted] using hnd
      have habs : ∀ e ∈ allEntries d, keyStr h e.Key ≠ some s := by
        intro e he heq
        have he' := hp.subset he
        rcases List.mem_map.1 he' with ⟨kv, hkv, hkve⟩
        subst hkve
        rw [hk] at heq
        simp only [toEntry] at heq
        have hnd2 : ((pre ++ [(k, v)]).map (fun kv => keyStr h0 kv.1)).Nodup := by
          rw [List.map_append] at hnd'
          exact (List.nodup_append.1 hnd').1
        rw [List.map_append, List.nodup_append] at hnd2
        have hdis := hnd2.2.2
        have hm1 : keyStr h0 kv.1 ∈ pre.map (fun kv => keyStr h0 kv.1) :=
          List.mem_map.2 ⟨kv, hkv, rfl⟩
        have hm2 : keyStr h0 kv.1 ∈ [(k, v)].map (fun kv => keyStr h0 kv.1) := by
          have hs2 : keyStr h0 k = some s := hs
          simp [heq, hs2]
        exact hdis hm1 hm2
      rcases Add_spec h d inv hcount k v s hs' with ⟨⟨e, he, hes⟩, _⟩ | ⟨_, d1, hadd, inv1, hp1⟩
      · exact absurd hes (habs e he)
      · have hk1 : ∀ p, keyStr (IncrRefCount (IncrRefCount h k) v) p = keyStr h0 p := by
          intro p; rw [keyStr_incr, keyStr_incr]; exact hk p
        have hp1' : List.Perm (allEntries d1) ((pre ++ [(k, v)]).map toEntry) := by
          refine hp1.trans ?_
          rw [List.map_append]
          refine (List.Perm.cons _ hp).trans ?_
          simp only [List.map_cons, List.map_nil]
          exact (List.perm_append_singleton _ _).symm
        rcases ih _ d1 (pre ++ [(k, v)]) inv1 hk1 hp1' (fun op hop => hstr op (by simp [hop]))
          hnd' (by simp only [List.length_append, List.length_singleton]; omega)
          with ⟨h', d', hrun, inv', hk', hp'⟩
        refine ⟨h', d', ?_, inv', hk', ?_⟩
        · simp [runOps, hadd, hrun]
        · simpa [inserted] using hp'

/-- On a consistent dictionary whose entries are the pairs of `pairs`, a lookup finds the
pair stored under the string looked up, and answers nil when there is none. -/
theorem Find_of_pairs (h : Heap) (d : Dict) (inv : DictInv h d) (pairs : List (Ptr × Ptr))
    (hp : List.Perm (allEntries d) (pairs.map toEntry)) (q : Ptr) (s : Bytes)
    (hq : keyStr h q = some s) :
    (∀ kv ∈ pairs, keyStr h kv.1 = some s →
        ∃ r d', Find gstrType h d q = some (some r, d') ∧ d'.entryAt r = some (toEntry kv)) ∧
    ((∀ kv ∈ pairs, keyStr h kv.1 ≠ some s) → ∃ d', Find gstrType h d q = some (none, d')) := by
  rcases Find_spec h d inv q s hq with ⟨r, d1, hf, inv1, hp1, hcase⟩
  constructor
  · intro kv hkv hs
    have hmem : toEntry kv ∈ allEntries d := hp.symm.subset (List.mem_map.2 ⟨kv, hkv, rfl⟩)
    rcases hcase with ⟨ref, e, hr, hra, hse⟩ | ⟨_, habs⟩
    · subst hr
      refine ⟨ref, d1, hf, ?_⟩
      rw [hra.entryAt]
      have he : e ∈ allEntries d := hp1.subset hra.mem
      have := List.inj_on_of_nodup_map inv.nodup he hmem
        (by simp only [hse, toEntry, hs])
      rw [this]
    · exact absurd (by simpa [toEntry] using hs) (habs _ hmem)
  · intro hnone
    rcases hcase with ⟨ref, e, hr, hra, hse⟩ | ⟨hr, _⟩
    · have he : e ∈ allEntries d := hp1.subset hra.mem
      rcases List.mem_map.1 (hp.subset he) with ⟨kv, hkv, hkve⟩
      subst hkve
      exact absurd hse (hnone kv hkv)
    · subst hr
      exact ⟨d1, hf⟩

theorem perm_cons_eraseIdx {α : Type} (l : List α) (i : Nat) (a : α) (h : l[i]? = some a) :
    List.Perm l (a :: l.eraseIdx i) := by
  induction l generalizing i with
  | nil => simp at h
  | cons x xs ih =>
    cases i with
    | zero =>
      simp only [List.getElem?_cons_zero, Option.some.injEq] at h
      subst h
      simp
    | succ j =>
      simp only [List.getElem?_cons_succ] at h
      simp only [List.eraseIdx_cons_succ]
      exact (List.Perm.cons x (ih j h)).trans (List.Perm.swap a x _)

theorem perm_set_eraseIdx {α : Type} (l : List α) (i : Nat) (a b : α) (h : l[i]? = some a) :
    List.Perm (l.set i b) (b :: l.eraseIdx i) := by
  induction l generalizing i with
  | nil => simp at h
  | cons x xs ih =>
    cases i with
    | zero => simp
    | succ j =>
      simp only [List.getElem?_cons_succ] at h
      simp only [List.set_cons_succ, List.eraseIdx_cons_succ]
      exact (List.Perm.cons x (ih j h)).trans (List.Perm.swap b x _)

/-- Overwriting one entry of one chain of a table: the entries before and after, up to
order. -/
theorem perm_table_set {α : Type} (tbl : List (List α)) (i pos : Nat) (chain : List α)
    (a b : α) (hi : tbl[i]? = some chain) (hp : chain[pos]? = some a) :
    ∃ rest, List.Perm tbl.flatten (a :: rest) ∧
      List.Perm (tbl.set i (chain.set pos b)).flatten (b :: rest) := by
  refine ⟨chain.eraseIdx pos ++ (tbl.set i []).flatten, ?_, ?_⟩
  · refine (perm_flatten_get tbl i chain hi).trans ?_
    exact List.Perm.append_right _ (perm_cons_eraseIdx chain pos a hp)
  · have hlt : i < tbl.length := (List.getElem?_eq_some_iff.1 hi).1
    refine (perm_flatten_set tbl i (chain.set pos b) hlt).trans ?_
    exact List.Perm.append_right _ (perm_set_eraseIdx chain pos a b hp)

theorem TableOK.setVal {h : Heap} {t : htable} (ok : TableOK h t) (i pos : Nat)
    (chain : List Entry) (e : Entry) (v : Ptr) (hi : t.table[i]? = some chain)
    (hp : chain[pos]? = some e) :
    TableOK h (putVal t i pos chain e v) := by
  unfold putVal
  rcases perm_table_set t.table i pos chain e { e with Val := some v } hi hp with ⟨rest, p1, p2⟩
  have hlt : i < t.table.length := (List.getElem?_eq_some_iff.1 hi).1
  constructor
  · simp only [List.length_set]; exact ok.len
  · exact ok.mask
  · exact ok.pow
  · simp only
    rw [p2.length_eq, ok.used, p1.length_eq]
    simp
  · intro j ch hj x hx
    simp only at hj
    by_cases hij : i = j
    · subst hij
      rw [List.getElem?_set_self hlt] at hj
      simp only [Option.some.injEq] at hj
      subst hj
      rcases List.mem_or_eq_of_mem_set hx with hx | hx
      · exact ok.place i chain hi x hx
      · subst hx
        rcases ok.place i chain hi e (List.getElem?_mem hp) with ⟨s, a, b, _⟩
        exact ⟨s, a, b, by simp⟩
    · rw [List.getElem?_set_ne hij] at hj
      exact ok.place j ch hj x hx

theorem nodup_keys_replace {h : Heap} {l l' rest : List Entry} (e e' : Entry)
    (hk : e'.Key = e.Key) (p1 : List.Perm l (e :: rest)) (p2 : List.Perm l' (e' :: rest))
    (hn : (l.map (fun x => keyStr h x.Key)).Nodup) :
    (l'.map (fun x => keyStr h x.Key)).Nodup := by
  refine nodup_keys_of_perm p2 ?_
  have := nodup_keys_of_perm p1.symm hn
  simpa [hk] using this

/-- The assignment `entry.Val = val` through a reference returned by a lookup. -/
theorem setVal_spec (h : Heap) (d : Dict) (inv : DictInv h d) (r : EntryRef) (e : Entry)
    (v : Ptr) (hr : RefAt d r e) :
    ∃ d', d.setVal r v = some d' ∧ DictInv h d' ∧
      RefAt d' r { Key := e.Key, Val := some v } ∧
      ∃ rest, List.Perm (allEntries d) (e :: rest) ∧
        List.Perm (allEntries d') ({ Key := e.Key, Val := some v } :: rest) := by
  rcases hr with ⟨t, chain, ht, hi, hp, htn⟩
  have hlt : r.idx < t.table.length := (List.getElem?_eq_some_iff.1 hi).1
  have hplt : r.pos < chain.length := (List.getElem?_eq_some_iff.1 hp).1
  rcases perm_table_set t.table r.idx r.pos chain e { e with Val := some v } hi hp
    with ⟨rest, p1, p2⟩
  have hset : d.setVal r v = some (d.setHt r.t
      (putVal t r.idx r.pos chain e v)) := by
    simp [Dict.setVal, ht, hi, hp, putVal]
  have hra : RefAt (d.setHt r.t
      (putVal t r.idx r.pos chain e v)) r
      { Key := e.Key, Val := some v } := by
    refine ⟨_, chain.set r.pos { e with Val := some v }, hts_setHt d r.t _, ?_, ?_, htn⟩
    · simp only [putVal]
      exact List.getElem?_set_self hlt
    · exact List.getElem?_set_self hplt
  rcases htn with htn | htn
  · -- the entry is in `ht[0]`
    rw [htn] at ht hset hra
    have h0 : d.hts0 = some t := by simpa [Dict.hts] using ht
    have ok0 := inv.ok0 t h0
    have hds : d.setHt 0 (putVal t r.idx r.pos chain e v) = ⟨some (putVal t r.idx r.pos chain e v), d.hts1, d.rehashIdx⟩ := by
      simp [Dict.setHt]
    rw [hds] at hset hra
    have hall : allEntries d = t.table.flatten ++ entriesOf d.hts1 := by
      simp [allEntries, h0, entriesOf_some]
    have q1 : List.Perm (allEntries d) (e :: (rest ++ entriesOf d.hts1)) := by
      rw [hall]
      exact List.Perm.append_right _ p1
    have q2 : List.Perm (allEntries ⟨some (putVal t r.idx r.pos chain e v), d.hts1, d.rehashIdx⟩)
        ({ Key := e.Key, Val := some v } :: (rest ++ entriesOf d.hts1)) := by
      rw [allEntries_mk, entriesOf_some]
      exact List.Perm.append_right _ p2
    refine ⟨_, hset, ?_, hra, _, q1, q2⟩
    constructor
    · intro hc; simp at hc
    · intro x hx
      simp only [Option.some.injEq] at hx
      subst hx
      exact ok0.setVal r.idx r.pos chain e v hi hp
    · intro x hx; exact inv.ok1 x hx
    · exact inv.steady
    · intro hmv
      rcases inv.moving hmv with ⟨t0, t1, h0', h1, hri, hsz, hempty⟩
      have : t0 = t := by rw [h0] at h0'; exact (Option.some.inj h0').symm
      subst this
      refine ⟨_, t1, rfl, h1, hri, hsz, ?_⟩
      intro j ch hj hjc
      simp only [putVal] at hjc
      by_cases hij : r.idx = j
      · subst hij
        have := hempty r.idx chain hj hi
        subst this
        simp at hp
      · rw [List.getElem?_set_ne hij] at hjc
        exact hempty j ch hj hjc
    · exact nodup_keys_replace e { Key := e.Key, Val := some v } rfl q1 q2 inv.nodup
    · intro x hx
      rw [q2.length_eq]
      have hl : (({ Key := e.Key, Val := some v } : Entry) :: (rest ++ entriesOf d.hts1)).length
          = (allEntries d).length := by
        rw [q1.length_eq]; simp
      rw [hl]
      simp only [Option.some.injEq] at hx
      rcases hx with hx | hx
      · subst hx
        exact inv.small t (Or.inl h0)
      · exact inv.small x (Or.inr hx)
  · -- the entry is in `ht[1]`
    rw [htn] at ht hset hra
    have h1 : d.hts1 = some t := by simpa [Dict.hts] using ht
    have ok1 := inv.ok1 t h1
    have hds : d.setHt 1 (putVal t r.idx r.pos chain e v) = ⟨d.hts0, some (putVal t r.idx r.pos chain e v), d.rehashIdx⟩ := by
      simp [Dict.setHt]
    rw [hds] at hset hra
    have hall : allEntries d = entriesOf d.hts0 ++ t.table.flatten := by
      simp [allEntries, h1, entriesOf_some]
    have q1 : List.Perm (allEntries d) (e :: (entriesOf d.hts0 ++ rest)) := by
      rw [hall]
      exact (List.Perm.append_left _ p1).trans List.perm_middle
    have q2 : List.Perm (allEntries ⟨d.hts0, some (putVal t r.idx r.pos chain e v), d.rehashIdx⟩)
        ({ Key := e.Key, Val := some v } :: (entriesOf d.hts0 ++ rest)) := by
      rw [allEntries_mk, entriesOf_some]
      exact (List.Perm.append_left _ p2).trans List.perm_middle
    have hmv : d.rehashIdx ≠ -1 := by
      intro hc
      have := inv.steady hc
      rw [h1] at this
      simp at this
    rcases inv.moving hmv with ⟨t0, t1, h0, h1', hri, hsz, hempty⟩
    have ht1 : t1 = t := by rw [h1] at h1'; exact (Option.some.inj h1').symm
    subst ht1
    refine ⟨_, hset, ?_, hra, _, q1, q2⟩
    constructor
    · intro hc; simp only at hc; rw [h0] at hc; simp at hc
    · intro x hx; exact inv.ok0 x hx
    · intro x hx
      simp only [Option.some.injEq] at hx
      subst hx
      exact ok1.setVal r.idx r.pos chain e v hi hp
    · intro hc; exact absurd hc hmv
    · intro _
      exact ⟨t0, _, h0, rfl, hri, hsz, hempty⟩
    · exact nodup_keys_replace e { Key := e.Key, Val := some v } rfl q1 q2 inv.nodup
    · intro x hx
      rw [q2.length_eq]
      have hl : (({ Key := e.Key, Val := some v } : Entry) :: (entriesOf d.hts0 ++ rest)).length
          = (allEntries d).length := by
        rw [q1.length_eq]; simp
      rw [hl]
      simp only [Option.some.injEq] at hx
      rcases hx with hx | hx
      · exact inv.small x (Or.inl hx)
      · subst hx
        exact inv.small t1 (Or.inr h1)

theorem valRefs_perm {d d' : Dict} (hp : List.Perm (allEntries d') (allEntries d)) (o : Ptr) :
    valRefs d' o = valRefs d o := by
  unfold valRefs
  exact hp.countP_eq _

theorem valRefs_of_perm_cons {d : Dict} {e : Entry} {rest : List Entry}
    (hp : List.Perm (allEntries d) (e :: rest)) (o : Ptr) :
    valRefs d o = rest.countP (fun x => decide (x.Val = some o)) +
      (if e.Val = some o then 1 else 0) := by
  unfold valRefs
  rw [hp.countP_eq, List.countP_cons]
  simp

theorem RefsOK.of_perm {h : Heap} {d d' : Dict} (hp : List.Perm (allEntries d') (allEntries d))
    (rc : RefsOK h d) : RefsOK h d' := by
  intro o
  rw [valRefs_perm hp]
  exact rc o

theorem RefsOK.from_create (h : Heap) (hl : ∀ o, 1 ≤ (h o).refCount) : RefsOK h DictCreate := by
  intro o
  have : valRefs DictCreate o = 0 := by
    simp [valRefs, allEntries, DictCreate, entriesOf_none]
  rw [this]
  have := hl o
  simp only [Nat.cast_zero]
  omega

theorem ite_eq_comm_cast (a b : Ptr) :
    (if a = b then (1 : Int) else 0) = (if b = a then (1 : Int) else 0) := by
  by_cases hab : a = b
  · subst hab; simp
  · have hba : ¬ b = a := fun hc => hab hc.symm
    simp [hab, hba]

theorem RefsOK.add {h : Heap} {d d' : Dict} {key val : Ptr} (rc : RefsOK h d)
    (hp : List.Perm (allEntries d') ({ Key := key, Val := some val } :: allEntries d)) :
    RefsOK (IncrRefCount (IncrRefCount h key) val) d' := by
  intro o
  have h1 : valRefs d' o = valRefs d o + (if val = o then 1 else 0) := by
    rw [valRefs_of_perm_cons hp o]
    simp only [Option.some.injEq]
    rfl
  rw [h1, refCount_incr, refCount_incr]
  have := rc o
  have hb : (0 : Int) ≤ (if o = key then 1 else 0) := by split <;> omega
  push_cast
  rw [ite_eq_comm_cast val o]
  omega

theorem RefsOK.replace {h : Heap} {d d' : Dict} {e : Entry} {rest : List Entry} {old val : Ptr}
    (rc : RefsOK h d) (hold : e.Val = some old)
    (p1 : List.Perm (allEntries d) (e :: rest))
    (p2 : List.Perm (allEntries d') ({ Key := e.Key, Val := some val } :: rest)) :
    RefsOK (IncrRefCount (DecrRefCount h old) val) d' := by
  intro o
  have h1 : valRefs d o = rest.countP (fun x => decide (x.Val = some o)) +
      (if old = o then 1 else 0) := by
    rw [valRefs_of_perm_cons p1 o, hold]
    simp only [Option.some.injEq]
  have h2 : valRefs d' o = rest.countP (fun x => decide (x.Val = some o)) +
      (if val = o then 1 else 0) := by
    rw [valRefs_of_perm_cons p2 o]
    simp only [Option.some.injEq]
  rw [h2, refCount_incr, refCount_decr]
  have := rc o
  rw [h1] at this
  push_cast at this ⊢
  rw [ite_eq_comm_cast old o] at this
  rw [ite_eq_comm_cast val o]
  omega

/-- A stored value is counted at least twice, so releasing one reference keeps it alive. -/
theorem RefsOK.stored_alive {h : Heap} {d : Dict} (rc : RefsOK h d) {e : Entry} {old : Ptr}
    (he : e ∈ allEntries d) (hold : e.Val = some old) : (h old).refCount - 1 ≠ 0 := by
  have h1 : 0 < valRefs d old := by
    unfold valRefs
    rw [List.countP_pos_iff]
    exact ⟨e, he, by simp [hold]⟩
  have := rc old
  omega

/-- A lookup for a string under which an entry is stored returns that entry. -/
theorem Find_stored (h : Heap) (d : Dict) (inv : DictInv h d) (q : Ptr) (s : Bytes)
    (hq : keyStr h q = some s) (e0 : Entry) (he0 : e0 ∈ allEntries d)
    (hs0 : keyStr h e0.Key = some s) :
    ∃ r d', Find gstrType h d q = some (some r, d') ∧ DictInv h d' ∧
      List.Perm (allEntries d') (allEntries d) ∧ RefAt d' r e0 := by
  rcases Find_spec h d inv q s hq with ⟨r, d1, hf, inv1, hp1, hcase⟩
  rcases hcase with ⟨ref, e, hr, hra, hse⟩ | ⟨_, habs⟩
  · subst hr
    have he : e ∈ allEntries d := hp1.subset hra.mem
    have heq : e = e0 := List.inj_on_of_nodup_map inv.nodup he he0 (by simp only [hse, hs0])
    subst heq
    exact ⟨ref, d1, hf, inv1, hp1, hra⟩
  · exact absurd hs0 (habs e0 he0)

/-- A lookup for a string under which nothing is stored returns nil. -/
theorem Find_absent (h : Heap) (d : Dict) (inv : DictInv h d) (q : Ptr) (s : Bytes)
    (hq : keyStr h q = some s) (habs : ∀ e ∈ allEntries d, keyStr h e.Key ≠ some s) :
    ∃ d', Find gstrType h d q = some (none, d') ∧ DictInv h d' ∧
      List.Perm (allEntries d') (allEntries d) := by
  rcases Find_spec h d inv q s hq with ⟨r, d1, hf, inv1, hp1, hcase⟩
  rcases hcase with ⟨ref, e, hr, hra, hse⟩ | ⟨hr, _⟩
  · exact absurd hse (habs e (hp1.subset hra.mem))
  · subst hr
    exact ⟨d1, hf, inv1, hp1⟩

theorem Get_stored (h : Heap) (d : Dict) (inv : DictInv h d) (q : Ptr) (s : Bytes)
    (hq : keyStr h q = some s) (e0 : Entry) (he0 : e0 ∈ allEntries d)
    (hs0 : keyStr h e0.Key = some s) :
    ∃ d', Get gstrType h d q = some (e0.Val, d') ∧ DictInv h d' ∧
      List.Perm (allEntries d') (allEntries d) := by
  rcases Find_stored h d inv q s hq e0 he0 hs0 with ⟨r, d1, hf, inv1, hp1, hra⟩
  refine ⟨d1, ?_, inv1, hp1⟩
  simp [Get, hf, hra.entryAt]

theorem Get_absent (h : Heap) (d : Dict) (inv : DictInv h d) (q : Ptr) (s : Bytes)
    (hq : keyStr h q = some s) (habs : ∀ e ∈ allEntries d, keyStr h e.Key ≠ some s) :
    ∃ d', Get gstrType h d q = some (none, d') ∧ DictInv h d' ∧
      List.Perm (allEntries d') (allEntries d) := by
  rcases Find_absent h d inv q s hq habs with ⟨d1, hf, inv1, hp1⟩
  refine ⟨d1, ?_, inv1, hp1⟩
  simp [Get, hf]

theorem DictInv.entry_ok {h : Heap} {d : Dict} (inv : DictInv h d) {e : Entry}
    (he : e ∈ allEntries d) : (∃ s, keyStr h e.Key = some s) ∧ ∃ v, e.Val = some v := by
  have hok : ∀ t, TableOK h t → e ∈ t.table.flatten →
      (∃ s, keyStr h e.Key = some s) ∧ ∃ v, e.Val = some v := by
    intro t ok hmem
    rcases exists_slot_of_mem_flatten hmem with ⟨j, chain, hj, hec⟩
    rcases ok.place j chain hj e hec with ⟨s, a, _, b⟩
    refine ⟨⟨s, a⟩, ?_⟩
    cases hv : e.Val with
    | none => exact absurd hv b
    | some v => exact ⟨v, rfl⟩
  unfold allEntries at he
  rcases List.mem_append.1 he with he | he
  · cases h0 : d.hts0 with
    | none => rw [h0, entriesOf_none] at he; simp at he
    | some t => rw [h0, entriesOf_some] at he; exact hok t (inv.ok0 t h0) he
  · cases h1 : d.hts1 with
    | none => rw [h1, entriesOf_none] at he; simp at he
    | some t => rw [h1, entriesOf_some] at he; exact hok t (inv.ok1 t h1) he

/-- `Set` on a string under which nothing is stored is a successful `Add`. -/
theorem Set_absent (h : Heap) (d : Dict) (inv : DictInv h d) (rc : RefsOK h d)
    (hn : (allEntries d).length < 1152921504606846976) (key val : Ptr) (s : Bytes)
    (hk : keyStr h key = some s) (habs : ∀ e ∈ allEntries d, keyStr h e.Key ≠ some s) :
    ∃ d', Add gstrType h d key val = some (none, IncrRefCount (IncrRefCount h key) val, d') ∧
      Set gstrType h d key val = some (IncrRefCount (IncrRefCount h key) val, d') ∧
      DictInv (IncrRefCount (IncrRefCount h key) val) d' ∧
      RefsOK (IncrRefCount (IncrRefCount h key) val) d' ∧
      List.Perm (allEntries d') ({ Key := key, Val := some val } :: allEntries d) := by
  rcases Add_spec h d inv hn key val s hk with ⟨⟨e, he, hes⟩, _⟩ | ⟨_, d1, hadd, inv1, hp1⟩
  · exact absurd hes (habs e he)
  · refine ⟨d1, hadd, ?_, inv1, rc.add hp1, hp1⟩
    simp [Set, hadd]

/-- `Set` on a string under which an entry is stored overwrites the value of that entry:
the old value loses one reference, the new one gains one. -/
theorem Set_present (h : Heap) (d : Dict) (inv : DictInv h d) (rc : RefsOK h d)
    (hn : (allEntries d).length < 1152921504606846976) (key val : Ptr) (s : Bytes)
    (hk : keyStr h key = some s) (e0 : Entry) (old : Ptr) (he0 : e0 ∈ allEntries d)
    (hs0 : keyStr h e0.Key = some s) (hold : e0.Val = some old) :
    ∃ d', Set gstrType h d key val = some (IncrRefCount (DecrRefCount h old) val, d') ∧
      DictInv (IncrRefCount (DecrRefCount h old) val) d' ∧
      RefsOK (IncrRefCount (DecrRefCount h old) val) d' ∧
      ∃ rest, List.Perm (allEntries d) (e0 :: rest) ∧
        List.Perm (allEntries d') ({ Key := e0.Key, Val := some val } :: rest) := by
  rcases Add_spec h d inv hn key val s hk with ⟨_, d1, hadd, inv1, hp1⟩ | ⟨habs, _⟩
  · have he1 : e0 ∈ allEntries d1 := hp1.symm.subset he0
    rcases Find_stored h d1 inv1 key s hk e0 he1 hs0 with ⟨r, d2, hf, inv2, hp2, hra⟩
    rcases setVal_spec h d2 inv2 r e0 val hra with ⟨d3, hsv, inv3, _, rest, q1, q2⟩
    have q1' : List.Perm (allEntries d) (e0 :: rest) := (hp1.symm.trans hp2.symm).trans q1
    have hkeep : ∀ p, keyStr (IncrRefCount (DecrRefCount h old) val) p = keyStr h p := by
      intro p
      rw [keyStr_incr, keyStr_decr h old p (Or.inr (rc.stored_alive he0 hold))]
    refine ⟨d3, ?_, DictInv.heap_congr hkeep inv3, rc.replace hold q1' q2, rest, q1', q2⟩
    simp [Set, hadd, hf, hra.entryAt, hold, hsv]
  · exact absurd hs0 (habs e0 he0)

theorem Reachable.good {h : Heap} {d : Dict} (hr : Reachable h d) : DictInv h d ∧ RefsOK h d := by
  induction hr with
  | create h hl => exact ⟨DictInv.at_create h, RefsOK.from_create h hl⟩
  | @add h d k v err h' d' _ hk hn hop ih =>
    rcases ih with ⟨inv, rc⟩
    rcases Option.isSome_iff_exists.1 hk with ⟨s, hs⟩
    rcases Add_spec h d inv hn k v s hs with ⟨_, d1, hadd, inv1, hp1⟩ | ⟨_, d1, hadd, inv1, hp1⟩
    · rw [hadd] at hop
      simp only [Option.some.injEq, Prod.mk.injEq] at hop
      rcases hop with ⟨_, h1, h2⟩
      subst h1 h2
      exact ⟨inv1, rc.of_perm hp1⟩
    · rw [hadd] at hop
      simp only [Option.some.injEq, Prod.mk.injEq] at hop
      rcases hop with ⟨_, h1, h2⟩
      subst h1 h2
      exact ⟨inv1, rc.add hp1⟩
  | @set h d k v h' d' _ hk hn hop ih =>
    rcases ih with ⟨inv, rc⟩
    rcases Option.isSome_iff_exists.1 hk with ⟨s, hs⟩
    by_cases hex : ∃ e ∈ allEntries d, keyStr h e.Key = some s
    · rcases hex with ⟨e0, he0, hs0⟩
      rcases (inv.entry_ok he0).2 with ⟨old, hold⟩
      rcases Set_present h d inv rc hn k v s hs e0 old he0 hs0 hold with ⟨d1, hset, inv1, rc1, _⟩
      rw [hset] at hop
      simp only [Option.some.injEq, Prod.mk.injEq] at hop
      rcases hop with ⟨h1, h2⟩
      subst h1 h2
      exact ⟨inv1, rc1⟩
    · have habs : ∀ e ∈ allEntries d, keyStr h e.Key ≠ some s := by
        intro e he hc
        exact hex ⟨e, he, hc⟩
      rcases Set_absent h d inv rc hn k v s hs habs with ⟨d1, _, hset, inv1, rc1, _⟩
      rw [hset] at hop
      simp only [Option.some.injEq, Prod.mk.injEq] at hop
      rcases hop with ⟨h1, h2⟩
      subst h1 h2
      exact ⟨inv1, rc1⟩
  | @find h d k r d' _ hk hop ih =>
    rcases ih with ⟨inv, rc⟩
    rcases Option.isSome_iff_exists.1 hk with ⟨s, hs⟩
    rcases Find_spec h d inv k s hs with ⟨r1, d1, hf, inv1, hp1, _⟩
    rw [hf] at hop
    simp only [Option.some.injEq, Prod.mk.injEq] at hop
    rcases hop with ⟨_, h2⟩
    subst h2
    exact ⟨inv1, rc.of_perm hp1⟩
  | @get h d k r d' _ hk hop ih =>
    rcases ih with ⟨inv, rc⟩
    rcases Option.isSome_iff_exists.1 hk with ⟨s, hs⟩
    by_cases hex : ∃ e ∈ allEntries d, keyStr h e.Key = some s
    · rcases hex with ⟨e0, he0, hs0⟩
      rcases Get_stored h d inv k s hs e0 he0 hs0 with ⟨d1, hg, inv1, hp1⟩
      rw [hg] at hop
      simp only [Option.some.injEq, Prod.mk.injEq] at hop
      rcases hop with ⟨_, h2⟩
      subst h2
      exact ⟨inv1, rc.of_perm hp1⟩
    · have habs : ∀ e ∈ allEntries d, keyStr h e.Key ≠ some s := by
        intro e he hc
        exact hex ⟨e, he, hc⟩
      rcases Get_absent h d inv k s hs habs with ⟨d1, hg, inv1, hp1⟩
      rw [hg] at hop
      simp only [Option.some.injEq, Prod.mk.injEq] at hop
      rcases hop with ⟨_, h2⟩
      subst h2
      exact ⟨inv1, rc.of_perm hp1⟩

theorem freeArgsLoop_spec (args : List (Option Ptr)) (h : Heap)
    (hv : ∀ a ∈ args, a ≠ none) :
    ∃ h', freeArgsLoop args h = some h' ∧ ∀ p, some p ∉ args → h' p = h p := by
  induction args generalizing h with
  | nil => exact ⟨h, rfl, fun _ _ => rfl⟩
  | cons a rest ih =>
    cases a with
    | none => exact absurd rfl (hv none (by simp))
    | some v =>
      rcases ih (DecrRefCount h v) (fun a ha => hv a (by simp [ha])) with ⟨h', h1, h2⟩
      refine ⟨h', by simp [freeArgsLoop, h1], ?_⟩
      intro p hp
      have hp1 : some p ∉ rest := fun hc => hp (by simp [hc])
      have hp2 : p ≠ v := fun hc => hp (by simp [hc])
      rw [h2 p hp1]
      unfold DecrRefCount
      exact Function.update_noteq hp2 _ _

theorem AddFileEvent_keeps (env : Env) (loop : AeLoop) (fd : Int) (mask : Nat) (key : Int)
    (hk : loop.FileEvents key = true) : (loop.AddFileEvent env fd mask).FileEvents key = true := by
  have hupd : (Function.update loop.FileEvents (getFeKey fd mask) true) key = true := by
    by_cases hkey : key = getFeKey fd mask
    · subst hkey; simp
    · rw [Function.update_noteq hkey]; exact hk
  unfold AeLoop.AddFileEvent
  simp only
  split_ifs <;> first | exact hk | exact hupd

/-- An error reply of the dispatcher followed by `resetClient`. -/
theorem errorReply_spec (env : Env) (s : GodisServer) (c : GodisClient) (msg : Bytes)
    (halloc : argsAllocated s c = true) :
    ErrorReplied s c msg
      (resetClient (AddReplyStr env s c msg).1 (AddReplyStr env s c msg).2) := by
  have hv : ∀ a ∈ c.args, a ≠ none ∧ a ≠ some s.brk := by
    intro a ha
    unfold argsAllocated at halloc
    have := (List.all_eq_true.1 halloc) a ha
    cases a with
    | none => simp at this
    | some p =>
      have hlt : p < s.brk := by simpa using this
      constructor
      · simp
      · simp only [ne_eq, Option.some.injEq]; exact Nat.ne_of_lt hlt
  have hargs : (AddReplyStr env s c msg).2.args = c.args := rfl
  rcases freeArgsLoop_spec c.args (AddReplyStr env s c msg).1.heap (fun a ha => (hv a ha).1)
    with ⟨h', hf1, hf2⟩
  have hbrk : some s.brk ∉ c.args := fun hc => (hv _ hc).2 rfl
  refine ⟨{ (AddReplyStr env s c msg).1 with heap := h' },
    { (AddReplyStr env s c msg).2 with cmdTy := CommonUnkonw, bulkNum := 0, bulkLen := 0 },
    ?_, ⟨s.brk, rfl, ?_⟩, rfl, ?_, rfl, rfl, rfl, rfl, rfl⟩
  · simp [resetClient, freeArgs, hargs, hf1]
  · show (h' s.brk).StrVal = some msg
    rw [hf2 s.brk hbrk]
    simp [AddReplyStr, AddReply, GodisServer.alloc, DecrRefCount, IncrRefCount, CreateObject,
      Gobj.incr, Gobj.decr, Gobj.StrVal, GSTR]
  · intro key hk
    exact AddFileEvent_keeps env s.aeLoop c.fd AEWriteable key hk

/-- The state a run of insertions and lookups leaves is well-formed. -/
theorem runOps_reachable (h0 : Heap) (ops : List DictOp) :
    ∀ (h : Heap) (d : Dict) (pre : List (Ptr × Ptr)), Reachable h d →
      (∀ p, keyStr h p = keyStr h0 p) →
      List.Perm (allEntries d) (pre.map toEntry) →
      (∀ op ∈ ops, (keyStr h0 op.key).isSome = true) →
      ((pre ++ inserted ops).map (fun kv => keyStr h0 kv.1)).Nodup →
      pre.length + ops.length < 1152921504606846976 →
      ∃ h' d', runOps gstrType ops h d = some (h', d') ∧ Reachable h' d' := by
  induction ops with
  | nil =>
    intro h d pre hr _ _ _ _ _
    exact ⟨h, d, rfl, hr⟩
  | cons op ops ih =>
    intro h d pre hr hk hp hstr hnd hlen
    have inv := hr.good.1
    have hlen' : pre.length + ops.length + 1 < 1152921504606846976 := by
      simpa [Nat.add_assoc] using hlen
    have hstr' : ∀ op ∈ ops, (keyStr h0 op.key).isSome = true :=
      fun op hop => hstr op (by simp [hop])
    cases op with
    | find k =>
      have hks : (keyStr h k).isSome = true := by rw [hk]; exact hstr (.find k) (by simp)
      rcases Option.isSome_iff_exists.1 hks with ⟨s, hs⟩
      rcases Find_spec h d inv k s hs with ⟨r, d1, hf, _, hp1, _⟩
      rcases ih h d1 pre (Reachable.find k hr hks hf) hk (hp1.trans hp) hstr'
        (by simpa [inserted] using hnd) (by omega) with ⟨h', d', hrun, hr'⟩
      exact ⟨h', d', by simp [runOps, hf, hrun], hr'⟩
    | add k v =>
      have hks : (keyStr h k).isSome = true := by rw [hk]; exact hstr (.add k v) (by simp)
      rcases Option.isSome_iff_exists.1 hks with ⟨s, hs⟩
      have hs0 : keyStr h0 k = some s := by rw [← hk]; exact hs
      have hcount : (allEntries d).length < 1152921504606846976 := by
        rw [hp.length_eq, List.length_map]; omega
      have hnd' : ((pre ++ [(k, v)] ++ inserted ops).map (fun kv => keyStr h0 kv.1)).Nodup := by
        simpa [inserted] using hnd
      have habs : ∀ e ∈ allEntries d, keyStr h e.Key ≠ some s := by
        intro e he heq
        have he' := hp.subset he
        rcases List.mem_map.1 he' with ⟨kv, hkv, hkve⟩
        subst hkve
        rw [hk] at heq
        simp only [toEntry] at heq
        have hnd2 : ((pre ++ [(k, v)]).map (fun kv => keyStr h0 kv.1)).Nodup := by
          rw [List.map_append] at hnd'
          exact (List.nodup_append.1 hnd').1
        rw [List.map_append, List.nodup_append] at hnd2
        have hm1 : keyStr h0 kv.1 ∈ pre.map (fun kv => keyStr h0 kv.1) :=
          List.mem_map.2 ⟨kv, hkv, rfl⟩
        have hm2 : keyStr h0 kv.1 ∈ [(k, v)].map (fun kv => keyStr h0 kv.1) := by
          simp [heq, hs0]
        exact hnd2.2.2 hm1 hm2
      rcases Add_spec h d inv hcount k v s hs with ⟨⟨e, he, hes⟩, _⟩ | ⟨_, d1, hadd, _, hp1⟩
      · exact absurd hes (habs e he)
      · have hk1 : ∀ p, keyStr (IncrRefCount (IncrRefCount h k) v) p = keyStr h0 p := by
          intro p; rw [keyStr_incr, keyStr_incr]; exact hk p
        have hp1' : List.Perm (allEntries d1) ((pre ++ [(k, v)]).map toEntry) := by
          refine hp1.trans ?_
          rw [List.map_append]
          refine (List.Perm.cons _ hp).trans ?_
          simp only [List.map_cons, List.map_nil]
          exact (List.perm_append_singleton _ _).symm
        rcases ih _ d1 (pre ++ [(k, v)]) (Reachable.add k v hr hks hcount hadd) hk1 hp1' hstr'
          hnd' (by simp only [List.length_append, List.length_singleton]; omega)
          with ⟨h', d', hrun, hr'⟩
        exact ⟨h', d', by simp [runOps, hadd, hrun], hr'⟩

theorem exampleHeap_live : ∀ o, 1 ≤ (exampleHeap o).refCount := by
  intro o
  unfold exampleHeap
  split <;> simp [CreateObject]

theorem lookupCommand_none (name : Bytes)
    (h : name ≠ bytes "get" ∧ name ≠ bytes "set" ∧ name ≠ bytes "expire") :
    lookupCommand name = none := by
  rcases h with ⟨h1, h2, h3⟩
  have e1 : ¬ (bytes "get" = name) := fun hc => h1 hc.symm
  have e2 : ¬ (bytes "set" = name) := fun hc => h2 hc.symm
  have e3 : ¬ (bytes "expire" = name) := fun hc => h3 hc.symm
  simp [lookupCommand, cmdTable, List.find?, e1, e2, e3]

theorem lookupCommand_table (cmd : GodisCommand) (hc : cmd ∈ cmdTable) :
    lookupCommand cmd.name = some cmd := by
  have hne1 : ¬ (bytes "get" = bytes "set") := by decide
  have hne2 : ¬ (bytes "get" = bytes "expire") := by decide
  have hne3 : ¬ (bytes "set" = bytes "expire") := by decide
  simp only [cmdTable, List.mem_cons, List.mem_singleton, List.not_mem_nil, or_false] at hc
  rcases hc with hc | hc | hc <;> subst hc <;>
    simp [lookupCommand, cmdTable, List.find?, hne1, hne2, hne3]

/-- The state after `Add(k1, v1)` on a fresh dictionary is well-formed. -/
theorem exampleDict1_reachable : Reachable exampleHeap1 exampleDict1 :=
  Reachable.add 1 101 (Reachable.create exampleHeap exampleHeap_live) (by decide) (by decide)
    (by rfl)

theorem digitsValue_ge (ds : Bytes) (n : Nat) : n ≤ digitsValue ds n := by
  induction ds generalizing n with
  | nil => exact le_refl _
  | cons c cs ih =>
    show n ≤ digitsValue cs (n * 10 + (c - 48))
    exact le_trans (by omega) (ih _)

theorem parseUintLoop_spec (s : Bytes) (n : Nat) (hn : n ≤ 18446744073709551615) :
    parseUintLoop s n =
      if digitsValue (s.takeWhile isDigit) n > 18446744073709551615 then .outOfRange
      else if s.all isDigit then .ok (digitsValue s n) else .malformed := by
  induction s generalizing n with
  | nil => simp [parseUintLoop, digitsValue, Nat.not_lt.2 hn]
  | cons c cs ih =>
    by_cases hd : 48 ≤ c ∧ c ≤ 57
    · have hdig : isDigit c = true := by simp [isDigit, hd]
      have htw : (c :: cs).takeWhile isDigit = c :: cs.takeWhile isDigit := by
        simp [List.takeWhile, hdig]
      have hv : ∀ l : Bytes, digitsValue (c :: l) n = digitsValue l (n * 10 + (c - 48)) :=
        fun l => rfl
      by_cases h1 : n ≥ 1844674407370955162
      · have hbig : digitsValue (cs.takeWhile isDigit) (n * 10 + (c - 48)) > 18446744073709551615 :=
          lt_of_lt_of_le (by omega) (digitsValue_ge _ _)
        simp only [parseUintLoop, hd, and_self, if_true, h1, htw, hv, hbig]
      · by_cases h2 : n * 10 + (c - 48) > 18446744073709551615
        · have hbig : digitsValue (cs.takeWhile isDigit) (n * 10 + (c - 48)) > 18446744073709551615 :=
            lt_of_lt_of_le h2 (digitsValue_ge _ _)
          simp only [parseUintLoop, hd, and_self, if_true, h1, if_false, h2, htw, hv, hbig]
        · have := ih (n * 10 + (c - 48)) (by omega)
          simp only [parseUintLoop, hd, and_self, if_true, h1, if_false, h2, htw, hv, this,
            List.all_cons, hdig, Bool.true_and]
    · have hdig : isDigit c = false := by simp [isDigit, hd]
      have htw : (c :: cs).takeWhile isDigit = [] := by simp [List.takeWhile, hdig]
      have hv : digitsValue [] n = n := rfl
      simp [parseUintLoop, hd, htw, hv, Nat.not_lt.2 hn, hdig]

theorem ParseUint_spec (s : Bytes) :
    ParseUint s =
      if digitsValue (s.takeWhile isDigit) 0 > 18446744073709551615 then .outOfRange
      else if s ≠ [] ∧ s.all isDigit = true then .ok (digitsValue s 0) else .malformed := by
  unfold ParseUint
  by_cases hs : s = []
  · subst hs; simp [digitsValue]
  · rw [if_neg hs, parseUintLoop_spec s 0 (by omega)]
    simp [hs]

theorem ParseInt_unfold (s : Bytes) (hs : s ≠ []) :
    ParseInt s =
      match ParseUint (unsigned s) with
      | .malformed => (0, true)
      | .outOfRange => if isNegative s then (MinInt64, true) else (MaxInt64, true)
      | .ok un =>
        if ¬ (isNegative s = true) ∧ un ≥ 9223372036854775808 then (MaxInt64, true)
        else if isNegative s = true ∧ un > 9223372036854775808 then (MinInt64, true)
        else (if isNegative s then - (un : Int) else (un : Int), false) := by
  cases s with
  | nil => exact absurd rfl hs
  | cons c cs =>
    simp only [ParseInt, unsigned, isNegative]
    cases ParseUint (if c = 43 ∨ c = 45 then cs else c :: cs) <;> simp

/-- What `ParseInt` returns, case by case. -/
theorem ParseInt_spec (s : Bytes) :
    (isDecimal s = true → MinInt64 ≤ decimalValue s → decimalValue s ≤ MaxInt64 →
      ParseInt s = (decimalValue s, false)) ∧
    (isDecimal s = true → MaxInt64 < decimalValue s → ParseInt s = (MaxInt64, true)) ∧
    (isDecimal s = true → decimalValue s < MinInt64 → ParseInt s = (MinInt64, true)) ∧
    (isDecimal s = false → digitsValue (leadDigits s) 0 ≤ 18446744073709551615 →
      ParseInt s = (0, true)) ∧
    (isDecimal s = false → 18446744073709551615 < digitsValue (leadDigits s) 0 →
      ParseInt s = (if isNegative s then MinInt64 else MaxInt64, true)) := by
  by_cases hs : s = []
  · subst hs
    simp [isDecimal, unsigned, ParseInt, leadDigits, digitsValue, isNegative]
  have hu := ParseInt_unfold s hs
  rw [ParseUint_spec] at hu
  have htw : isDecimal s = true → (unsigned s).takeWhile isDigit = unsigned s := by
    intro hd
    simp only [isDecimal, Bool.and_eq_true, decide_eq_true_eq] at hd
    exact List.takeWhile_eq_self_iff.2 (fun a ha => List.all_eq_true.1 hd.2 a ha)
  refine ⟨?_, ?_, ?_, ?_, ?_⟩
  · intro hd h1 h2
    have hd' := hd
    simp only [isDecimal, Bool.and_eq_true, decide_eq_true_eq] at hd'
    rw [htw hd] at hu
    unfold decimalValue MinInt64 MaxInt64 at *
    by_cases hneg : isNegative s = true
    · simp only [hneg, if_true] at h1 h2 ⊢
      have hle : digitsValue (unsigned s) 0 ≤ 9223372036854775808 := by omega
      rw [hu, if_neg (by omega)]
      simp [hd'.1, hd'.2, hneg, Nat.not_lt.2 hle]
    · simp only [hneg] at h1 h2 ⊢
      simp only [Bool.false_eq_true, if_false] at h1 h2 ⊢
      have hle : digitsValue (unsigned s) 0 < 9223372036854775808 := by omega
      rw [hu, if_neg (by omega)]
      simp [hd'.1, hd'.2, hneg, Nat.not_le.2 hle]
  · intro hd h1
    have hd' := hd
    simp only [isDecimal, Bool.and_eq_true, decide_eq_true_eq] at hd'
    rw [htw hd] at hu
    unfold decimalValue MaxInt64 at *
    by_cases hneg : isNegative s = true
    · simp only [hneg, if_true] at h1
      omega
    · simp only [hneg, Bool.false_eq_true, if_false] at h1
      have hle : 9223372036854775808 ≤ digitsValue (unsigned s) 0 := by omega
      rw [hu]
      by_cases hbig : digitsValue (unsigned s) 0 > 18446744073709551615
      · simp [hbig, hneg]
      · simp [hbig, hd'.1, hd'.2, hneg, hle]
  · intro hd h1
    have hd' := hd
    simp only [isDecimal, Bool.and_eq_true, decide_eq_true_eq] at hd'
    rw [htw hd] at hu
    unfold decimalValue MinInt64 at *
    by_cases hneg : isNegative s = true
    · simp only [hneg, if_true] at h1
      have hle : 9223372036854775808 < digitsValue (unsigned s) 0 := by omega
      rw [hu]
      by_cases hbig : digitsValue (unsigned s) 0 > 18446744073709551615
      · simp [hbig, hneg]
      · simp [hbig, hd'.1, hd'.2, hneg, hle]
    · simp only [hneg, Bool.false_eq_true, if_false] at h1
      omega
  · intro hd h1
    have hnd : ¬ (unsigned s ≠ [] ∧ (unsigned s).all isDigit = true) := by
      intro hc
      simp [isDecimal, hc.1, hc.2] at hd
    rw [hu]
    unfold leadDigits at h1
    rw [if_neg (by omega), if_neg hnd]
  · intro hd h1
    rw [hu]
    unfold leadDigits at h1
    rw [if_pos h1]
    by_cases hneg : isNegative s = true <;> simp [hneg]

theorem indexNL_ge (a : Bytes) : -1 ≤ indexNL a := by
  induction a with
  | nil => simp [indexNL]
  | cons b bs ih =>
    unfold indexNL
    split_ifs <;> omega

theorem indexNL_absent (a : Bytes) (h : 10 ∉ a) : indexNL a = -1 := by
  induction a with
  | nil => rfl
  | cons b bs ih =>
    have hb : b ≠ 10 := fun hc => h (by simp [hc])
    have hbs : 10 ∉ bs := fun hc => h (by simp [hc])
    simp [indexNL, hb, ih hbs]

theorem indexNL_append (a b : Bytes) (h : 10 ∉ a) : indexNL (a ++ 10 :: b) = (a.length : Int) := by
  induction a with
  | nil => simp [indexNL]
  | cons x xs ih =>
    have hx : x ≠ 10 := fun hc => h (by simp [hc])
    have hxs : 10 ∉ xs := fun hc => h (by simp [hc])
    have hrec : indexNL (xs ++ 10 :: b) = (xs.length : Int) := ih hxs
    show indexNL (x :: (xs ++ 10 :: b)) = ((x :: xs).length : Int)
    unfold indexNL
    rw [if_neg hx, hrec, if_neg (by omega), List.length_cons]
    push_cast
    ring

theorem slice_zero (buf : Bytes) (n : Int) (h0 : 0 ≤ n) (h1 : n ≤ (buf.length : Int)) :
    slice buf 0 n = some (buf.take n.toNat) := by
  simp [slice, h0, h1]

theorem take_line (line rest : Bytes) (n : Nat) (hn : line.length + 1 ≤ n) :
    (line ++ 10 :: rest).take n = line ++ 10 :: rest.take (n - (line.length + 1)) := by
  rw [List.take_append_eq_append_take, List.take_of_length_le (by omega)]
  have : n - line.length = (n - (line.length + 1)) + 1 := by omega
  rw [this, List.take_succ_cons]

theorem findLineQuery_line (c : GodisClient) (line rest : Bytes)
    (hbuf : c.queryBuf = line ++ 10 :: rest) (hnl : 10 ∉ line)
    (h1 : (line.length : Int) + 1 ≤ c.queryLen) (h2 : c.queryLen ≤ (c.queryBuf.length : Int)) :
    findLineQuery c = some ((line.length : Int), false) := by
  unfold findLineQuery
  rw [slice_zero _ _ (by omega) h2, hbuf, take_line line rest c.queryLen.toNat (by omega)]
  simp only [Option.bind_eq_bind, Option.some_bind, indexNL_append _ _ hnl]
  have : ¬ ((line.length : Int) < 0) := by omega
  simp [this]

theorem findLineQuery_absent (c : GodisClient) (h0 : 0 ≤ c.queryLen)
    (h2 : c.queryLen ≤ (c.queryBuf.length : Int)) (hnl : 10 ∉ c.queryBuf.take c.queryLen.toNat) :
    findLineQuery c = some (-1, decide (c.queryLen > GodisMaxInline)) := by
  unfold findLineQuery
  rw [slice_zero _ _ h0 h2]
  simp only [Option.bind_eq_bind, Option.some_bind, indexNL_absent _ hnl]
  by_cases hc : c.queryLen > GodisMaxInline <;> simp [hc]

theorem slice_line (line rest : Bytes) :
    slice (line ++ 10 :: rest) 0 (line.length : Int) = some line := by
  rw [slice_zero _ _ (by omega)
    (by simp only [List.length_append, List.length_cons]; push_cast; omega)]
  simp

theorem sliceFrom_line (line rest : Bytes) :
    sliceFrom (line ++ 10 :: rest) ((line.length : Int) + 1) = some rest := by
  unfold sliceFrom slice
  have h1 : (0 : Int) ≤ (line.length : Int) + 1 := by omega
  have h2 : (line.length : Int) + 1 ≤ ((line ++ 10 :: rest).length : Int) := by
    simp only [List.length_append, List.length_cons]; push_cast; omega
  rw [if_pos ⟨h1, h2, le_refl _⟩]
  have h3 : ((line.length : Int) + 1).toNat = line.length + 1 := by omega
  simp only [Int.toNat_ofNat, List.take_length, h3]
  rw [List.drop_append_eq_append_drop]
  simp

/-- The objects `createObjects` allocates carry the given strings, in order. -/
theorem createObjects_texts (vs : List Bytes) (s : GodisServer) :
    (createObjects vs s).1.map (fun p => ((createObjects vs s).2.heap p).StrVal) = vs.map some ∧
    (∀ p, p < s.brk → (createObjects vs s).2.heap p = s.heap p) ∧
    (∀ p ∈ (createObjects vs s).1, s.brk ≤ p) ∧
    (createObjects vs s).2.db = s.db ∧ (createObjects vs s).2.clients = s.clients := by
  induction vs generalizing s with
  | nil => simp [createObjects]
  | cons v vs ih =>
    have ih' := ih (s.alloc (CreateObject GSTR (.str v))).2
    rcases ih' with ⟨i1, i2, i3, i4, i5⟩
    have hbrk : (s.alloc (CreateObject GSTR (.str v))).2.brk = s.brk + 1 := rfl
    have hhead : (createObjects (v :: vs) s).1 =
        s.brk :: (createObjects vs (s.alloc (CreateObject GSTR (.str v))).2).1 := rfl
    have hst : (createObjects (v :: vs) s).2 =
        (createObjects vs (s.alloc (CreateObject GSTR (.str v))).2).2 := rfl
    rw [hhead, hst]
    refine ⟨?_, ?_, ?_, ?_, ?_⟩
    · rw [List.map_cons, i1, List.map_cons]
      congr 1
      rw [i2 s.brk (by rw [hbrk]; exact Nat.lt_succ_self _)]
      simp [GodisServer.alloc, CreateObject, Gobj.StrVal, GSTR]
    · intro p hp
      rw [i2 p (by rw [hbrk]; exact Nat.lt_succ_of_lt hp)]
      simp only [GodisServer.alloc]
      exact Function.update_noteq (Nat.ne_of_lt hp) _ _
    · intro p hp
      rcases List.mem_cons.1 hp with hp | hp
      · rw [hp]
      · have := i3 p hp
        rw [hbrk] at this
        exact Nat.le_of_succ_le this
    · rw [i4]; rfl
    · rw [i5]; rfl

/-- A buffered line is parsed into its space-separated arguments, whatever its length. -/
theorem handleInlineBuf_line (s : GodisServer) (c : GodisClient) (line rest : Bytes)
    (hbuf : c.queryBuf = line ++ 10 :: rest) (hnl : 10 ∉ line)
    (h1 : (line.length : Int) + 1 ≤ c.queryLen) (h2 : c.queryLen ≤ (c.queryBuf.length : Int)) :
    ∃ s' c', handleInlineBuf s c = some (true, false, s', c') ∧
      argTexts (s', c') = (splitSpace line).map some ∧ c'.queryBuf = rest ∧
      c'.queryLen = c.queryLen - ((line.length : Int) + 1) ∧ s'.db = s.db := by
  have hf := findLineQuery_line c line rest hbuf hnl h1 h2
  have hlt : ¬ ((line.length : Int) < 0) := by omega
  refine ⟨(createObjects (splitSpace line) s).2,
    { c with queryBuf := rest, queryLen := c.queryLen - ((line.length : Int) + 1),
             args := (createObjects (splitSpace line) s).1.map some }, ?_, ?_, rfl, rfl, ?_⟩
  · unfold handleInlineBuf
    simp only [hf, Option.bind_eq_bind, Option.some_bind, hlt, if_false, hbuf, slice_line,
      sliceFrom_line]
  · simp only [argTexts, List.map_map]
    have := (createObjects_texts (splitSpace line) s).1
    rw [← this]
    apply List.map_congr_left
    intro p _
    simp
  · exact (createObjects_texts (splitSpace line) s).2.2.2.1

/-- Without a line feed among the buffered bytes nothing is parsed, and the error is raised
exactly when more than `GodisMaxInline` bytes are buffered. -/
theorem handleInlineBuf_absent (s : GodisServer) (c : GodisClient) (h0 : 0 ≤ c.queryLen)
    (h2 : c.queryLen ≤ (c.queryBuf.length : Int)) (hnl : 10 ∉ c.queryBuf.take c.queryLen.toNat) :
    handleInlineBuf s c = some (false, decide (c.queryLen > 4096), s, c) := by
  unfold handleInlineBuf
  rw [findLineQuery_absent c h0 h2 hnl]
  simp [GodisMaxInline]

theorem splitSpace_word (l : Bytes) (h : 32 ∉ l) : splitSpace l = [l] := by
  induction l with
  | nil => rfl
  | cons b bs ih =>
    have hb : b ≠ 32 := fun hc => h (by simp [hc])
    have hbs : 32 ∉ bs := fun hc => h (by simp [hc])
    simp [splitSpace, hb, ih hbs]

theorem not_mem_replicate (n a b : Nat) (h : a ≠ b) : a ∉ List.replicate n b :=
  fun hc => h (List.eq_of_mem_replicate hc)

theorem clientWith_line (fd : Int) (line : Bytes) :
    (clientWith fd (line ++ 10 :: [])).queryBuf = line ++ 10 :: [] ∧
    (line.length : Int) + 1 ≤ (clientWith fd (line ++ 10 :: [])).queryLen ∧
    (clientWith fd (line ++ 10 :: [])).queryLen ≤
      ((clientWith fd (line ++ 10 :: [])).queryBuf.length : Int) ∧
    (clientWith fd (line ++ 10 :: [])).queryLen = (line.length : Int) + 1 := by
  refine ⟨rfl, ?_, le_refl _, ?_⟩
  · show (line.length : Int) + 1 ≤ ((line ++ 10 :: []).length : Int)
    rw [List.length_append]; simp
  · show ((line ++ 10 :: []).length : Int) = (line.length : Int) + 1
    rw [List.length_append]; simp

theorem skipEmpty_bounds (l : List (List Entry)) (j i : Nat) (hs : skipEmpty l j = some i) :
    j ≤ i ∧ i < j + l.length := by
  induction l generalizing j with
  | nil => simp [skipEmpty] at hs
  | cons c rest ih =>
    unfold skipEmpty at hs
    by_cases hc : c = []
    · rw [if_pos hc] at hs
      have := ih (j + 1) hs
      simp only [List.length_cons]
      omega
    · rw [if_neg hc] at hs
      simp only [Option.some.injEq] at hs
      simp only [List.length_cons]
      omega

theorem moveChain_sizes (ty : DictType) (h : Heap) (chain : List Entry) (t0 t1 t0' t1' : htable)
    (hm : moveChain ty h chain t0 t1 = some (t0', t1')) :
    t0'.size = t0.size ∧ t0'.table = t0.table ∧ t1'.size = t1.size := by
  induction chain generalizing t0 t1 with
  | nil =>
    simp only [moveChain, Option.some.injEq, Prod.mk.injEq] at hm
    rcases hm with ⟨a, b⟩
    subst a b
    exact ⟨rfl, rfl, rfl⟩
  | cons e es ih =>
    unfold moveChain at hm
    cases hh : ty.HashFunc (h e.Key) with
    | none => simp [hh] at hm
    | some hv =>
      simp only [hh, Option.bind_eq_bind, Option.some_bind] at hm
      cases hsl : getSlot t1.table (and64 hv t1.mask) with
      | none => simp [hsl] at hm
      | some slot =>
        simp only [hsl, Option.some_bind] at hm
        have hrec := ih _ _ hm
        exact hrec

/-- What one rehash step does to the shape of the dictionary. -/
theorem rehashStep_shape (ty : DictType) (h : Heap) (d d' : Dict) (t0 : htable)
    (hs : rehashStep ty h d = some d') (h0 : d.hts0 = some t0) :
    (t0.used = 0 → d' = ⟨d.hts1, none, -1⟩) ∧
    (t0.used ≠ 0 → ∃ i : Nat, 0 ≤ d.rehashIdx ∧ d.rehashIdx.toNat ≤ i ∧ i < t0.table.length ∧
      d'.rehashIdx = (i : Int) + 1 ∧
      ∃ t0' t1 t1', d.hts1 = some t1 ∧ d'.hts0 = some t0' ∧ d'.hts1 = some t1' ∧
        t0'.size = t0.size ∧ t1'.size = t1.size) := by
  unfold rehashStep DefaultStep rehash at hs
  simp only [h0, Option.bind_eq_bind, Option.some_bind] at hs
  constructor
  · intro hu
    rw [if_pos hu] at hs
    simp only [Option.some.injEq] at hs
    exact hs.symm
  · intro hu
    rw [if_neg hu] at hs
    by_cases hneg : d.rehashIdx < 0
    · rw [if_pos hneg] at hs; simp at hs
    · rw [if_neg hneg] at hs
      cases hsk : skipEmpty (t0.table.drop d.rehashIdx.toNat) d.rehashIdx.toNat with
      | none => simp [hsk] at hs
      | some i =>
        simp only [hsk, Option.some_bind] at hs
        cases hg : getSlot t0.table (i : Int) with
        | none => simp [hg] at hs
        | some entry =>
          simp only [hg, Option.some_bind] at hs
          cases h1 : d.hts1 with
          | none => simp [h1] at hs
          | some t1 =>
            simp only [h1, Option.some_bind] at hs
            cases hm : moveChain ty h entry t0 t1 with
            | none => simp [hm] at hs
            | some res =>
              obtain ⟨t0', t1'⟩ := res
              simp only [hm, Option.some_bind, rehash, Option.some.injEq] at hs
              have hb := skipEmpty_bounds _ _ _ hsk
              have hlen : i < t0.table.length := by
                have := hb.2
                rw [List.length_drop] at this
                have hg' : t0.table[i]? ≠ none := by
                  intro hc
                  simp [getSlot, hc] at hg
                by_contra hcon
                exact hg' (List.getElem?_eq_none (by omega))
              rcases moveChain_sizes ty h entry t0 t1 t0' t1' hm with ⟨a, _, c⟩
              subst hs
              exact ⟨i, by omega, hb.1, hlen, rfl, _, t1, t1', rfl, rfl, rfl, a, c⟩

theorem Int63n_spec (r : Nat) (n : Int) (hn : 0 < n) :
    ∃ x, Int63n r n = some x ∧ 0 ≤ x ∧ x < n := by
  refine ⟨(r : Int) % n, ?_, Int.emod_nonneg _ (by omega), Int.emod_lt_of_pos _ hn⟩
  simp [Int63n, Int.not_le.2 hn]

theorem getSlot_of_lt (tbl : List (List Entry)) (i : Int) (h0 : 0 ≤ i)
    (h1 : i < (tbl.length : Int)) :
    ∃ chain, getSlot tbl i = some chain ∧ tbl[i.toNat]? = some chain := by
  have hlt : i.toNat < tbl.length := by omega
  refine ⟨tbl[i.toNat], ?_, List.getElem?_eq_getElem hlt⟩
  simp [getSlot, Int.not_lt.2 h0, List.getElem?_eq_getElem hlt]

theorem randomSlot_spec (rnd : Nat → Nat) (t : htable) (hlen : (t.table.length : Int) = t.size)
    (hpos : 0 < t.size) :
    ∀ (fuel cnt : Nat) (idx : Int), cnt + fuel = 1001 → cnt ≤ 1000 → 0 ≤ idx → idx < t.size →
      ∃ idx' cnt', randomSlot rnd t fuel cnt idx = some (idx', cnt') ∧ 0 ≤ idx' ∧ idx' < t.size := by
  intro fuel
  induction fuel with
  | zero => intro cnt idx h1 h2; omega
  | succ fuel ih =>
    intro cnt idx h1 h2 h3 h4
    rcases getSlot_of_lt t.table idx h3 (by omega) with ⟨chain, hg, _⟩
    unfold randomSlot
    simp only [hg, Option.bind_eq_bind, Option.some_bind]
    by_cases hc : chain = [] ∧ cnt < 1000
    · rw [if_pos hc]
      rcases Int63n_spec (rnd (cnt + 1)) t.size hpos with ⟨x, hx, hx0, hx1⟩
      simp only [hx, Option.some_bind]
      exact ih (cnt + 1) x (by omega) (by omega) hx0 hx1
    · rw [if_neg hc]
      exact ⟨idx, cnt, rfl, h3, h4⟩

/-- The dictionary a lookup leaves is the one its rehash step leaves. -/
theorem Find_dict (ty : DictType) (h : Heap) (d d' : Dict) (key : Ptr) (r : Option EntryRef)
    (hf : Find ty h d key = some (r, d')) (hne : d.hts0 ≠ none) :
    (if d.isRehashing then rehashStep ty h d else some d) = some d' := by
  unfold Find at hf
  cases h0 : d.hts0 with
  | none => exact absurd h0 hne
  | some t0 =>
    simp only [h0, Option.bind_eq_bind] at hf
    by_cases hr : d.isRehashing = true
    · simp only [hr, if_true, Option.bind_eq_some] at hf ⊢
      rcases hf with ⟨y, hy, hv, _, x, _, hx⟩
      simp only [Option.some.injEq, Prod.mk.injEq] at hx
      rw [hy, hx.2]
    · simp only [hr, Bool.false_eq_true, if_false, Option.bind_eq_some] at hf ⊢
      rcases hf with ⟨y, hy, hrest⟩
      have hyd : y = d' := by
        rcases hrest with ⟨_, _, _, _, hq⟩
        simp only [Option.some.injEq, Prod.mk.injEq] at hq
        exact hq.2
      rw [← hyd]; exact hy

theorem RandomGet_dict (ty : DictType) (h : Heap) (rnd : Nat → Nat) (d d' : Dict)
    (r : Option EntryRef) (hf : RandomGet ty h rnd d = some (r, d')) (hne : d.hts0 ≠ none) :
    (if d.isRehashing then rehashStep ty h d else some d) = some d' := by
  unfold RandomGet at hf
  cases h0 : d.hts0 with
  | none => exact absurd h0 hne
  | some t0 =>
    simp only [h0] at hf
    cases hs : (if d.isRehashing then rehashStep ty h d else some d) with
    | none => rw [hs] at hf; simp at hf
    | some d1 =>
      rw [hs] at hf
      simp only [Option.some_bind, Option.bind_eq_some] at hf
      rcases hf with ⟨_, _, _, _, _, _, hq⟩
      simp only [Option.some.injEq, Prod.mk.injEq] at hq
      rw [hq.2]

/-- A random draw on a consistent dictionary returns, and what it returns is nil or the
address of a stored entry. -/
theorem RandomGet_spec (h : Heap) (rnd : Nat → Nat) (d : Dict) (inv : DictInv h d) :
    ∃ r d', RandomGet gstrType h rnd d = some (r, d') ∧ DictInv h d' ∧
      List.Perm (allEntries d') (allEntries d) ∧ ∀ ref, r = some ref → ∃ e, RefAt d' ref e := by
  cases h0 : d.hts0 with
  | none =>
    refine ⟨none, d, by simp [RandomGet, h0], inv, List.Perm.refl _, ?_⟩
    intro ref hc; simp at hc
  | some t0 =>
    rcases maybeStep_spec h d inv with ⟨d1, hs1, inv1, hp1, hne1'⟩
    have hne1 : d1.hts0 ≠ none := hne1' (by simp [h0])
    -- the table drawn from
    have htab : ∃ t ht, (if d.isRehashing then randomTable d1 else some 0) = some t ∧
        d1.hts t = some ht ∧ (t = 0 ∨ t = 1) := by
      cases h10 : d1.hts0 with
      | none => exact absurd h10 hne1
      | some t10 =>
        by_cases hr : d.isRehashing = true
        · cases h11 : d1.hts1 with
          | none =>
            exact ⟨0, t10, by simp [hr, randomTable, h11], by simp [Dict.hts, h10], Or.inl rfl⟩
          | some t11 =>
            by_cases hu : t11.used > t10.used
            · exact ⟨1, t11, by simp [hr, randomTable, h11, h10, hu], by simp [Dict.hts, h11],
                Or.inr rfl⟩
            · exact ⟨0, t10, by simp [hr, randomTable, h11, h10, hu], by simp [Dict.hts, h10],
                Or.inl rfl⟩
        · exact ⟨0, t10, by simp [hr], by simp [Dict.hts, h10], Or.inl rfl⟩
    rcases htab with ⟨t, ht, htc, hht, ht01⟩
    have okt : TableOK h ht := by
      rcases ht01 with ht0 | ht1
      · subst ht0
        exact inv1.ok0 ht (by simpa [Dict.hts] using hht)
      · subst ht1
        exact inv1.ok1 ht (by simpa [Dict.hts] using hht)
    have hb := okt.size_bounds
    have hpos : 0 < ht.size := by omega
    rcases Int63n_spec (rnd 0) ht.size hpos with ⟨idx0, hi0, hi1, hi2⟩
    rcases randomSlot_spec rnd ht okt.len hpos 1001 0 idx0 (by omega) (by omega) hi1 hi2
      with ⟨idx, cnt, hrs, hr1, hr2⟩
    rcases getSlot_of_lt ht.table idx hr1 (by rw [okt.len]; exact hr2) with ⟨chain, hg, hg'⟩
    by_cases hc : chain = []
    · refine ⟨none, d1, ?_, inv1, hp1, ?_⟩
      · unfold RandomGet
        simp only [h0]
        rw [hs1, Option.some_bind, htc, Option.some_bind, hht, Option.some_bind]
        simp [randomEntry, hi0, hrs, hg, hc]
      · intro ref hx; simp at hx
    · have hlen : 0 < (chain.length : Int) := by
        have := List.length_pos.2 hc
        omega
      rcases Int63n_spec (rnd (cnt + 1)) (chain.length : Int) hlen with ⟨li, hl0, hl1, hl2⟩
      have hlt : li.toNat < chain.length := by omega
      refine ⟨some ⟨t, idx.toNat, li.toNat⟩, d1, ?_, inv1, hp1, ?_⟩
      · unfold RandomGet
        simp only [h0]
        rw [hs1, Option.some_bind, htc, Option.some_bind, hht, Option.some_bind]
        simp [randomEntry, hi0, hrs, hg, hc, hl0, List.getElem?_eq_getElem hlt]
      · intro ref hx
        simp only [Option.some.injEq] at hx
        subst hx
        exact ⟨chain[li.toNat], ht, chain, hht, hg', List.getElem?_eq_getElem hlt, ht01⟩

theorem runProbe_spec (h : Heap) (d : Dict) (inv : DictInv h d) (p : Probe) (hk : p.Keyed h) :
    ∃ d1, runProbe gstrType h p d = some d1 ∧ DictInv h d1 ∧
      List.Perm (allEntries d1) (allEntries d) ∧
      (d.hts0 ≠ none → (if d.isRehashing then rehashStep gstrType h d else some d) = some d1) ∧
      (d.hts0 = none → d1 = d) := by
  cases p with
  | find k =>
    rcases Option.isSome_iff_exists.1 hk with ⟨s, hs⟩
    rcases Find_spec h d inv k s hs with ⟨r, d1, hf, inv1, hp1, _⟩
    refine ⟨d1, by simp [runProbe, hf], inv1, hp1, fun hne => Find_dict _ h d d1 k r hf hne, ?_⟩
    intro h0
    have : Find gstrType h d k = some (none, d) := by simp [Find, h0]
    rw [this] at hf
    simp only [Option.some.injEq, Prod.mk.injEq] at hf
    exact hf.2.symm
  | randomGet rnd =>
    rcases RandomGet_spec h rnd d inv with ⟨r, d1, hf, inv1, hp1, _⟩
    refine ⟨d1, by simp [runProbe, hf], inv1, hp1,
      fun hne => RandomGet_dict _ h rnd d d1 r hf hne, ?_⟩
    intro h0
    have : RandomGet gstrType h rnd d = some (none, d) := by simp [RandomGet, h0]
    rw [this] at hf
    simp only [Option.some.injEq, Prod.mk.injEq] at hf
    exact hf.2.symm

/-- On a dictionary that is not rehashing the calls change nothing. -/
theorem runProbes_steady (h : Heap) (ps : List Probe) (d : Dict) (inv : DictInv h d)
    (hr : d.rehashIdx = -1) (hk : ∀ p ∈ ps, p.Keyed h) :
    runProbes gstrType h ps d = some d := by
  induction ps with
  | nil => rfl
  | cons p ps ih =>
    rcases runProbe_spec h d inv p (hk p (by simp)) with ⟨d1, h1, _, _, h4, h5⟩
    have hd : d1 = d := by
      by_cases h0 : d.hts0 = none
      · exact h5 h0
      · have := h4 h0
        rw [(isRehashing_false_iff d).2 hr] at this
        simp only [Bool.false_eq_true, if_false, Option.some.injEq] at this
        exact this.symm
    subst hd
    simp only [runProbes, h1, Option.some_bind]
    exact ih (fun p hp => hk p (by simp [hp]))

/-- A rehash in progress is finished by the rehash steps of enough calls: one per slot of
`ht[0]` from `rehashIdx` on, and one more to promote `ht[1]`. -/
theorem runProbes_finish (h : Heap) (ps : List Probe) :
    ∀ (d : Dict) (t0 t1 : htable), DictInv h d → d.rehashIdx ≠ -1 → d.hts0 = some t0 →
      d.hts1 = some t1 → (t0.size - d.rehashIdx).toNat + 1 ≤ ps.length →
      (∀ p ∈ ps, p.Keyed h) →
      ∃ d' t, runProbes gstrType h ps d = some d' ∧ DictInv h d' ∧ d'.rehashIdx = -1 ∧
        d'.hts1 = none ∧ d'.hts0 = some t ∧ t.size = t1.size ∧
        List.Perm (allEntries d') (allEntries d) := by
  induction ps with
  | nil =>
    intro d t0 t1 _ _ _ _ hlen _
    simp at hlen
  | cons p ps ih =>
    intro d t0 t1 inv hr h0 h1 hlen hk
    have hne : d.hts0 ≠ none := by simp [h0]
    rcases runProbe_spec h d inv p (hk p (by simp)) with ⟨d1, hp1, inv1, hperm1, hstep, _⟩
    have hstep' := hstep hne
    rw [(isRehashing_iff d).2 hr, if_pos rfl] at hstep'
    have hkeys : ∀ p ∈ ps, p.Keyed h := fun p hp => hk p (by simp [hp])
    rcases rehashStep_shape gstrType h d d1 t0 hstep' h0 with ⟨hz, hnz⟩
    by_cases hu : t0.used = 0
    · have hd1 := hz hu
      have hr1 : d1.rehashIdx = -1 := by rw [hd1]
      refine ⟨d1, t1, ?_, inv1, hr1, by rw [hd1], by rw [hd1, h1], rfl, hperm1⟩
      simp only [runProbes, hp1, Option.some_bind]
      exact runProbes_steady h ps d1 inv1 hr1 hkeys
    · rcases hnz hu with ⟨i, hi0, hi1, hi2, hi3, t0', t1o, t1', e1, e2, e3, e4, e5⟩
      rw [h1] at e1
      simp only [Option.some.injEq] at e1
      subst e1
      have hlen0 : (t0.table.length : Int) = t0.size := (inv.ok0 t0 h0).len
      have hr1 : d1.rehashIdx ≠ -1 := by
        rw [hi3]
        clear hnz hz hstep hstep' ih
        omega
      have hmeasure : (t0'.size - d1.rehashIdx).toNat + 1 ≤ ps.length := by
        rw [e4, hi3]
        simp only [List.length_cons] at hlen
        clear hnz hz hstep hstep' ih
        omega
      rcases ih d1 t0' t1' inv1 hr1 e2 e3 hmeasure hkeys with ⟨d', t, f1, f2, f3, f4, f5, f6, f7⟩
      refine ⟨d', t, ?_, f2, f3, f4, f5, by rw [f6, e5], f7.trans hperm1⟩
      simp only [runProbes, hp1, Option.some_bind]
      exact f1

/-- A successful insertion, step by step: the rehash step, the growth check, and the table
that receives the entry. -/
theorem Add_fine (h : Heap) (d : Dict) (inv : DictInv h d)
    (hn : (allEntries d).length < 1152921504606846976) (key val : Ptr) (s : Bytes)
    (hk : keyStr h key = some s) (habs : ∀ e ∈ allEntries d, keyStr h e.Key ≠ some s) :
    ∃ d1 d2 t t', (if d.isRehashing then rehashStep gstrType h d else some d) = some d1 ∧
      expandIfNeed d1 = some (none, d2) ∧ d2.hts (targetTable d2) = some t ∧
      Add gstrType h d key val =
        some (none, IncrRefCount (IncrRefCount h key) val, d2.setHt (targetTable d2) t') ∧
      t'.size = t.size ∧ t'.used = t.used + 1 ∧
      List.Perm t'.table.flatten ({ Key := key, Val := some val } :: t.table.flatten) ∧
      DictInv h d1 ∧ DictInv h d2 ∧ allEntries d2 = allEntries d1 ∧
      List.Perm (allEntries d1) (allEntries d) := by
  rcases maybeStep_spec h d inv with ⟨d1, hs1, inv1, hp1, _⟩
  have hn1 : (allEntries d1).length < 1152921504606846976 := by rw [hp1.length_eq]; exact hn
  rcases expandIfNeed_spec h d1 inv1 hn1 with ⟨d2, he, inv2, hall2, hne2, _⟩
  have hh : gstrType.HashFunc (h key) = some (toInt64 (fnv1 s)) := keyStr_hash hk
  rcases keyIndexLoop_spec h d2 inv2 hne2 key s hk with ⟨_, e, hex, hes⟩ | ⟨t, ht, hl, _⟩
  · rw [hall2] at hex
    exact absurd hes (habs e (hp1.subset hex))
  · have hki : keyIndex gstrType h d1 key = some (slotOf s t.mask, d2) := by
      simp [keyIndex, he, hh, hl]
    have okt : TableOK h t := by
      rcases targetTable_cases d2 with ⟨_, htn⟩ | ⟨_, htn⟩
      · rw [htn] at ht
        exact inv2.ok0 t (by simpa [Dict.hts] using ht)
      · rw [htn] at ht
        exact inv2.ok1 t (by simpa [Dict.hts] using ht)
    rcases okt.read_slot (toInt64 (fnv1 s)) with ⟨slot, hg1, hg2⟩
    change getSlot t.table (slotOf s t.mask) = some slot at hg1
    change t.table[(slotOf s t.mask).toNat]? = some slot at hg2
    have hrange : 0 ≤ slotOf s t.mask ∧ (slotOf s t.mask).toNat < t.table.length :=
      okt.slot_range (toInt64 (fnv1 s))
    have hpush := okt.push { Key := key, Val := some val } s hk (by simp) slot hg2
    refine ⟨d1, d2, t, ⟨setSlot t.table (slotOf s t.mask) (⟨key, some val⟩ :: slot), t.size, t.mask,
      t.used + 1⟩, hs1, he, ht, ?_, rfl, rfl, hpush.2, inv1, inv2, hall2, hp1⟩
    unfold Add AddRaw
    simp only [Option.bind_eq_bind]
    rw [maybeStep_bind h d _ d1 hs1]
    have hidx : slotOf s t.mask ≠ -1 := by omega
    have htt : (if d2.isRehashing = true then 1 else 0) = targetTable d2 := rfl
    simp only [hki, Option.some_bind, hidx, if_false, htt, ht, hg1, Dict.setVal, hts_setHt,
      setSlot, List.getElem?_set_self hrange.2, List.getElem?_cons_zero, setHt_setHt,
      List.set_set, List.set_cons_zero, Option.bind_eq_bind]

/-- The growth check on a dictionary that has no table yet allocates the initial table. -/
theorem expandIfNeed_fresh (d : Dict) (hr : d.rehashIdx = -1) (h0 : d.hts0 = none) :
    expandIfNeed d = some (none, ⟨some (freshTable 8), d.hts1, d.rehashIdx⟩) := by
  have hnr : d.isRehashing = false := (isRehashing_false_iff d).2 hr
  simp [expandIfNeed, hnr, h0, expand, nextPower_init, freshTable]

/-- The growth check on a dictionary that is not rehashing and does not meet the growth
condition changes nothing. -/
theorem expandIfNeed_keep (d : Dict) (t0 : htable) (hr : d.rehashIdx = -1)
    (h0 : d.hts0 = some t0) (hz : t0.size ≠ 0)
    (hc : ¬ (t0.used > t0.size ∧ Int.tdiv t0.used t0.size > ForceRatio)) :
    expandIfNeed d = some (none, d) := by
  have hnr : d.isRehashing = false := (isRehashing_false_iff d).2 hr
  simp only [expandIfNeed, hnr, h0, hz]
  by_cases hu : t0.used > t0.size
  · have hd : ¬ Int.tdiv t0.used t0.size > ForceRatio := fun hx => hc ⟨hu, hx⟩
    simp [hu, hd]
  · simp [hu]

/-- The growth check on a dictionary that is not rehashing and meets the growth condition
allocates `ht[1]` with twice the size and starts the rehash at slot 0. -/
theorem expandIfNeed_grow (h : Heap) (d : Dict) (inv : DictInv h d) (t0 : htable)
    (hn : (allEntries d).length < 1152921504606846976) (hr : d.rehashIdx = -1)
    (h0 : d.hts0 = some t0)
    (hc : t0.used > t0.size ∧ Int.tdiv t0.used t0.size > ForceRatio) :
    expandIfNeed d = some (none, ⟨some t0, some (freshTable (2 * t0.size)), 0⟩) := by
  have hnr : d.isRehashing = false := (isRehashing_false_iff d).2 hr
  have ok0 := inv.ok0 t0 h0
  have hb := ok0.size_bounds
  rcases size_exponent_small ok0 _ hn (inv.small t0 (Or.inl h0)) with ⟨k, h3, h61, hk⟩
  have hnp := nextPower_double k h3 h61
  have hpos : ¬ ((2 : Int) ^ (k + 1) < 0) := by
    have : (0 : Int) ≤ 2 ^ (k + 1) := by positivity
    omega
  have hblk : ¬ ((2 : Int) ^ (k + 1) ≤ t0.size) := by
    rw [hk, pow_succ]
    have : (0 : Int) < 2 ^ k := by positivity
    omega
  have hz : t0.size ≠ 0 := by omega
  have h2 : (2 : Int) * 2 ^ k = (2 : Int) ^ (k + 1) := by rw [pow_succ]; ring
  have hexp : expand d ((2 : Int) ^ k * GrowRatio) =
      some (none, ⟨d.hts0, some (freshTable ((2 : Int) ^ (k + 1))), 0⟩) := by
    rw [hk] at hblk
    simp [expand, hnp, hnr, h0, hk, hpos, hblk, freshTable]
  unfold expandIfNeed
  simp only [hnr, h0, Bool.false_eq_true, if_false]
  rw [if_pos hc.1, if_neg hz, if_pos hc.2, hk, hexp, h0, h2]

theorem inserted_addOps (pairs : List (Ptr × Ptr)) : inserted (addOps pairs) = pairs := by
  induction pairs with
  | nil => rfl
  | cons kv rest ih =>
    show kv :: inserted (addOps rest) = kv :: rest
    rw [ih]

theorem addOps_key (pairs : List (Ptr × Ptr)) (op : DictOp) (hop : op ∈ addOps pairs) :
    ∃ kv ∈ pairs, op.key = kv.1 := by
  rcases List.mem_map.1 hop with ⟨kv, hkv, rfl⟩
  exact ⟨kv, hkv, rfl⟩

theorem runOps_append (ty : DictType) (a b : List DictOp) (h : Heap) (d : Dict) :
    runOps ty (a ++ b) h d = (runOps ty a h d).bind (fun r => runOps ty b r.1 r.2) := by
  induction a generalizing h d with
  | nil => simp [runOps]
  | cons op rest ih =>
    cases op with
    | add k v =>
      simp only [List.cons_append, runOps]
      cases Add ty h d k v with
      | none => rfl
      | some r => simp only [Option.some_bind]; exact ih _ _
    | find k =>
      simp only [List.cons_append, runOps]
      cases Find ty h d k with
      | none => rfl
      | some r => simp only [Option.some_bind]; exact ih _ _

theorem Grows_iff (h : Heap) (t : htable) (ok : TableOK h t) :
    Grows t ↔ (t.used > t.size ∧ Int.tdiv t.used t.size > ForceRatio) := by
  have hb := ok.size_bounds
  have hu0 : 0 ≤ t.used := by rw [ok.used]; exact Int.ofNat_nonneg _
  unfold Grows ForceRatio
  rw [Int.tdiv_eq_ediv hu0 (by omega)]

/-- Insertion of a new key into a dictionary that is not rehashing and has a table: a
rehash starts exactly when the growth condition holds for the table as it is before the
insertion. -/
theorem Add_steady (h : Heap) (d : Dict) (inv : DictInv h d)
    (hn : (allEntries d).length < 1152921504606846976) (key val : Ptr) (s : Bytes)
    (hk : keyStr h key = some s) (habs : ∀ e ∈ allEntries d, keyStr h e.Key ≠ some s)
    (hr : d.rehashIdx = -1) (t0 : htable) (h0 : d.hts0 = some t0) :
    ∃ d', Add gstrType h d key val =
        some (none, IncrRefCount (IncrRefCount h key) val, d') ∧
      (Grows t0 → d'.rehashIdx = 0 ∧ d'.hts0 = some t0 ∧
        ∃ t1, d'.hts1 = some t1 ∧ t1.size = 2 * t0.size) ∧
      (¬ Grows t0 → d'.rehashIdx = -1 ∧ d'.hts1 = none ∧
        ∃ t0', d'.hts0 = some t0' ∧ t0'.size = t0.size ∧ t0'.used = t0.used + 1) := by
  rcases Add_fine h d inv hn key val s hk habs
    with ⟨d1, d2, t, t', hs1, he, ht, hadd, hsz, hus, _, _, _, _, _⟩
  have hnr : d.isRehashing = false := (isRehashing_false_iff d).2 hr
  rw [hnr] at hs1
  simp only [Bool.false_eq_true, if_false, Option.some.injEq] at hs1
  subst hs1
  have ok0 := inv.ok0 t0 h0
  have hb := ok0.size_bounds
  refine ⟨_, hadd, ?_, ?_⟩
  · intro hg
    have hc := (Grows_iff h t0 ok0).1 hg
    have he' := expandIfNeed_grow h d inv t0 hn hr h0 hc
    rw [he'] at he
    simp only [Option.some.injEq, Prod.mk.injEq, true_and] at he
    subst he
    have htn : targetTable (⟨some t0, some (freshTable (2 * t0.size)), 0⟩ : Dict) = 1 := by
      simp [targetTable, Dict.isRehashing]
    rw [htn] at ht ⊢
    have ht' : t = freshTable (2 * t0.size) := by
      simp only [Dict.hts] at ht
      simpa using ht.symm
    refine ⟨rfl, rfl, t', rfl, ?_⟩
    rw [hsz, ht']
    rfl
  · intro hg
    have hc : ¬ (t0.used > t0.size ∧ Int.tdiv t0.used t0.size > ForceRatio) :=
      fun hx => hg ((Grows_iff h t0 ok0).2 hx)
    have he' := expandIfNeed_keep d t0 hr h0 (by omega) hc
    rw [he'] at he
    simp only [Option.some.injEq, Prod.mk.injEq, true_and] at he
    subst he
    have htn : targetTable d = 0 := by simp [targetTable, hnr]
    rw [htn] at ht ⊢
    have ht' : t = t0 := by
      simp only [Dict.hts, if_true, h0, Option.some.injEq] at ht
      exact ht.symm
    subst ht'
    exact ⟨hr, inv.steady hr, t', rfl, hsz, hus⟩

/-- The first insertion allocates the table of `InitSize` slots. -/
theorem Add_first (h : Heap) (d : Dict) (inv : DictInv h d) (key val : Ptr) (s : Bytes)
    (hk : keyStr h key = some s) (h0 : d.hts0 = none) :
    ∃ d' t, Add gstrType h d key val =
        some (none, IncrRefCount (IncrRefCount h key) val, d') ∧
      d'.rehashIdx = -1 ∧ d'.hts1 = none ∧ d'.hts0 = some t ∧ t.size = 8 ∧ t.used = 1 := by
  have hall : allEntries d = [] := allEntries_fresh inv h0
  have hr : d.rehashIdx = -1 := (inv.fresh h0).2
  have h1 : d.hts1 = none := (inv.fresh h0).1
  rcases Add_fine h d inv (by rw [hall]; simp) key val s hk (by rw [hall]; simp)
    with ⟨d1, d2, t, t', hs1, he, ht, hadd, hsz, hus, _, _, _, _, _⟩
  have hnr : d.isRehashing = false := (isRehashing_false_iff d).2 hr
  rw [hnr] at hs1
  simp only [Bool.false_eq_true, if_false, Option.some.injEq] at hs1
  subst hs1
  rw [expandIfNeed_fresh d hr h0] at he
  simp only [Option.some.injEq, Prod.mk.injEq, true_and] at he
  subst he
  have htn : targetTable (⟨some (freshTable 8), d.hts1, d.rehashIdx⟩ : Dict) = 0 := by
    simp [targetTable, Dict.isRehashing, hr]
  rw [htn] at ht hadd
  have ht' : t = freshTable 8 := by
    simp only [Dict.hts] at ht
    simpa using ht.symm
  refine ⟨_, t', hadd, hr, h1, rfl, ?_, ?_⟩
  · rw [hsz, ht']; rfl
  · rw [hus, ht']; rfl

theorem addOps_append (a b : List (Ptr × Ptr)) : addOps (a ++ b) = addOps a ++ addOps b := by
  simp [addOps]

theorem runOps_add_last (ty : DictType) (init : List (Ptr × Ptr)) (kv : Ptr × Ptr)
    (h0 h : Heap) (d : Dict) (hrun : runOps ty (addOps init) h0 DictCreate = some (h, d)) :
    runOps ty (addOps (init ++ [kv])) h0 DictCreate =
      (Add ty h d kv.1 kv.2).bind (fun r => some (r.2.1, r.2.2)) := by
  rw [addOps_append, runOps_append, hrun]
  simp only [Option.some_bind, addOps, List.map_cons, List.map_nil, runOps]

/-- A new key: no stored entry carries the string of the last pair of a list of pairs with
distinct keys. -/
theorem last_key_new (h0 h : Heap) (d : Dict) (init : List (Ptr × Ptr)) (kv : Ptr × Ptr)
    (s : Bytes) (hks : ∀ p, keyStr h p = keyStr h0 p)
    (hp : List.Perm (allEntries d) (init.map toEntry))
    (hnd : ((init ++ [kv]).map (fun kv => keyStr h0 kv.1)).Nodup)
    (hs : keyStr h0 kv.1 = some s) :
    ∀ e ∈ allEntries d, keyStr h e.Key ≠ some s := by
  intro e he heq
  rcases List.mem_map.1 (hp.subset he) with ⟨kv', hkv', rfl⟩
  rw [hks] at heq
  simp only [toEntry] at heq
  rw [List.map_append, List.nodup_append] at hnd
  have hm1 : keyStr h0 kv'.1 ∈ init.map (fun kv => keyStr h0 kv.1) :=
    List.mem_map.2 ⟨kv', hkv', rfl⟩
  have hm2 : keyStr h0 kv'.1 ∈ [kv].map (fun kv => keyStr h0 kv.1) := by
    simp [heq, hs]
  exact hnd.2.2 hm1 hm2

/-- The first twenty-four insertions of distinct keys into a fresh dictionary fill the
initial table of 8 slots and start no rehash. -/
theorem adds_steady (h0 : Heap) (pairs : List (Ptr × Ptr)) :
    pairs.length ≤ 24 → (∀ kv ∈ pairs, ∃ s, keyStr h0 kv.1 = some s) →
    (pairs.map (fun kv => keyStr h0 kv.1)).Nodup →
    ∃ h d, runOps gstrType (addOps pairs) h0 DictCreate = some (h, d) ∧ DictInv h d ∧
      (∀ p, keyStr h p = keyStr h0 p) ∧ List.Perm (allEntries d) (pairs.map toEntry) ∧
      d.rehashIdx = -1 ∧ d.hts1 = none ∧ (pairs = [] → d.hts0 = none) ∧
      (pairs ≠ [] → ∃ t, d.hts0 = some t ∧ t.size = 8 ∧ t.used = (pairs.length : Int)) := by
  induction pairs using List.reverseRecOn with
  | nil =>
    intro _ _ _
    exact ⟨h0, DictCreate, rfl, DictInv.at_create h0, fun _ => rfl, List.Perm.refl _, rfl, rfl,
      fun _ => rfl, fun hc => absurd rfl hc⟩
  | append_singleton init kv ih =>
    intro hlen hstr hnd
    have hlen' : init.length + 1 ≤ 24 := by simpa using hlen
    have hnd' : (init.map (fun kv => keyStr h0 kv.1)).Nodup := by
      rw [List.map_append] at hnd
      exact (List.nodup_append.1 hnd).1
    rcases ih (by omega) (fun x hx => hstr x (by simp [hx])) hnd'
      with ⟨h, d, hrun, inv, hks, hp, hr, h1, hnil, hcons⟩
    rcases hstr kv (by simp) with ⟨s, hs0⟩
    have hs : keyStr h kv.1 = some s := by rw [hks]; exact hs0
    have habs := last_key_new h0 h d init kv s hks hp hnd hs0
    have hcount : (allEntries d).length < 1152921504606846976 := by
      rw [hp.length_eq, List.length_map]; omega
    rcases Add_spec h d inv hcount kv.1 kv.2 s hs with ⟨⟨e, he, hes⟩, _⟩ | ⟨_, d', hadd, inv', hp'⟩
    · exact absurd hes (habs e he)
    have hks' : ∀ p, keyStr (IncrRefCount (IncrRefCount h kv.1) kv.2) p = keyStr h0 p := by
      intro p; rw [keyStr_incr, keyStr_incr]; exact hks p
    have hperm : List.Perm (allEntries d') ((init ++ [kv]).map toEntry) := by
      refine hp'.trans ?_
      rw [List.map_append]
      refine (List.Perm.cons _ hp).trans ?_
      simp only [List.map_cons, List.map_nil]
      exact (List.perm_append_singleton _ _).symm
    have hrun' : runOps gstrType (addOps (init ++ [kv])) h0 DictCreate =
        some (IncrRefCount (IncrRefCount h kv.1) kv.2, d') := by
      rw [runOps_add_last gstrType init kv h0 h d hrun, hadd]
      rfl
    have hne : init ++ [kv] ≠ [] := by simp
    by_cases hi : init = []
    · rcases Add_first h d inv kv.1 kv.2 s hs (hnil hi) with ⟨d'', t, hadd'', a, b, c, e, f⟩
      rw [hadd] at hadd''
      simp only [Option.some.injEq, Prod.mk.injEq, true_and] at hadd''
      subst hadd''
      refine ⟨IncrRefCount (IncrRefCount h kv.1) kv.2, d', hrun', inv', hks', hperm, a, b,
        fun hc => absurd hc hne, fun _ => ⟨t, c, e, ?_⟩⟩
      rw [f, hi]; rfl
    · rcases hcons hi with ⟨t, ht, hsz, hus⟩
      rcases Add_steady h d inv hcount kv.1 kv.2 s hs habs hr t ht with ⟨d'', hadd'', _, hkeep⟩
      rw [hadd] at hadd''
      simp only [Option.some.injEq, Prod.mk.injEq, true_and] at hadd''
      subst hadd''
      have hng : ¬ Grows t := by
        unfold Grows
        rw [hsz, hus]
        intro hc
        have h2 := hc.2
        have : ((init.length : Int)) / 8 ≤ 2 := by omega
        omega
      rcases hkeep hng with ⟨a, b, t', c, e, f⟩
      refine ⟨IncrRefCount (IncrRefCount h kv.1) kv.2, d', hrun', inv', hks', hperm, a, b,
        fun hc => absurd hc hne, fun _ => ⟨t', c, by rw [e, hsz], ?_⟩⟩
      rw [f, hus, List.length_append]
      simp

/-- The twenty-fifth insertion of a distinct key starts the rehash. -/
theorem adds_trigger (h0 : Heap) (pairs : List (Ptr × Ptr)) (hlen : pairs.length = 25)
    (hstr : ∀ kv ∈ pairs, ∃ s, keyStr h0 kv.1 = some s)
    (hnd : (pairs.map (fun kv => keyStr h0 kv.1)).Nodup) :
    ∃ h d t0 t1, runOps gstrType (addOps pairs) h0 DictCreate = some (h, d) ∧
      d.rehashIdx = 0 ∧ d.hts0 = some t0 ∧ t0.size = 8 ∧ d.hts1 = some t1 ∧ t1.size = 16 := by
  rcases List.eq_nil_or_concat pairs with hnil | ⟨init, kv, hpairs⟩
  · rw [hnil] at hlen; simp at hlen
  rw [List.concat_eq_append] at hpairs
  subst hpairs
  have hlen' : init.length = 24 := by simpa using hlen
  have hnd' : (init.map (fun kv => keyStr h0 kv.1)).Nodup := by
    rw [List.map_append] at hnd
    exact (List.nodup_append.1 hnd).1
  rcases adds_steady h0 init (by omega) (fun x hx => hstr x (by simp [hx])) hnd'
    with ⟨h, d, hrun, inv, hks, hp, hr, h1, hnil, hcons⟩
  rcases hstr kv (by simp) with ⟨s, hs0⟩
  have hs : keyStr h kv.1 = some s := by rw [hks]; exact hs0
  have habs := last_key_new h0 h d init kv s hks hp hnd hs0
  have hcount : (allEntries d).length < 1152921504606846976 := by
    rw [hp.length_eq, List.length_map]; omega
  have hi : init ≠ [] := by
    intro hc; rw [hc] at hlen'; simp at hlen'
  rcases hcons hi with ⟨t, ht, hsz, hus⟩
  rcases Add_steady h d inv hcount kv.1 kv.2 s hs habs hr t ht with ⟨d', hadd, hgrow, _⟩
  have hg : Grows t := by
    unfold Grows
    rw [hsz, hus, hlen']
    decide
  rcases hgrow hg with ⟨a, b, t1, c, e⟩
  refine ⟨IncrRefCount (IncrRefCount h kv.1) kv.2, d', t, t1, ?_, a, b, hsz, c,
    by rw [e, hsz]; rfl⟩
  rw [runOps_add_last gstrType init kv h0 h d hrun, hadd]
  rfl

set_option maxRecDepth 1000000 in
theorem rehashStart_reachable : Reachable rehashStart.1 rehashStart.2 := by
  rcases runOps_reachable exampleHeap (addOps (firstKeys 25)) exampleHeap DictCreate []
    (Reachable.create exampleHeap exampleHeap_live) (fun _ => rfl) (List.Perm.refl [])
    (by decide) (by decide) (by decide) with ⟨h, d, hrun, hr⟩
  have : rehashStart = (h, d) := by simp [rehashStart, hrun]
  rw [this]
  exact hr

theorem nineDraws_keyed (h : Heap) : ∀ p ∈ nineDraws, p.Keyed h := by
  intro p hp
  rw [List.eq_of_mem_replicate hp]
  trivial

theorem take_facts (h0 : Heap) (pairs : List (Ptr × Ptr)) (n : Nat)
    (hstr : ∀ kv ∈ pairs, (keyStr h0 kv.1).isSome = true)
    (hdist : (pairs.map (fun kv => keyStr h0 kv.1)).Nodup) :
    (∀ kv ∈ pairs.take n, ∃ s, keyStr h0 kv.1 = some s) ∧
    ((pairs.take n).map (fun kv => keyStr h0 kv.1)).Nodup := by
  constructor
  · intro kv hkv
    exact Option.isSome_iff_exists.1 (hstr kv (List.mem_of_mem_take hkv))
  · exact List.Nodup.sublist (List.Sublist.map _ (List.take_sublist _ _)) hdist

theorem Reachable.wellFormed {h : Heap} {d : Dict} (hr : Reachable h d) : WellFormed h d := by
  induction hr with
  | create h hl => exact WellFormed.create h hl
  | add k v _ hk hn hop ih => exact WellFormed.add k v ih hk hn hop
  | set k v _ hk hn hop ih => exact WellFormed.set k v ih hk hn hop
  | find k _ hk hop ih => exact WellFormed.find k ih hk hop
  | get k _ hk hop ih => exact WellFormed.get k ih hk hop

theorem WellFormed.invariant {h : Heap} {d : Dict} (hr : WellFormed h d) :
    DictInv h d ∧ RefsOK h d := by
  induction hr with
  | create h hl => exact ⟨DictInv.at_create h, RefsOK.from_create h hl⟩
  | @add h d k v err h' d' _ hk hn hop ih =>
    rcases ih with ⟨inv, rc⟩
    rcases Option.isSome_iff_exists.1 hk with ⟨s, hs⟩
    rcases Add_spec h d inv hn k v s hs with ⟨_, d1, hadd, inv1, hp1⟩ | ⟨_, d1, hadd, inv1, hp1⟩
    · rw [hadd] at hop
      simp only [Option.some.injEq, Prod.mk.injEq] at hop
      rcases hop with ⟨_, h1, h2⟩
      subst h1 h2
      exact ⟨inv1, rc.of_perm hp1⟩
    · rw [hadd] at hop
      simp only [Option.some.injEq, Prod.mk.injEq] at hop
      rcases hop with ⟨_, h1, h2⟩
      subst h1 h2
      exact ⟨inv1, rc.add hp1⟩
  | @set h d k v h' d' _ hk hn hop ih =>
    rcases ih with ⟨inv, rc⟩
    rcases Option.isSome_iff_exists.1 hk with ⟨s, hs⟩
    by_cases hex : ∃ e ∈ allEntries d, keyStr h e.Key = some s
    · rcases hex with ⟨e0, he0, hs0⟩
      rcases (inv.entry_ok he0).2 with ⟨old, hold⟩
      rcases Set_present h d inv rc hn k v s hs e0 old he0 hs0 hold with ⟨d1, hset, inv1, rc1, _⟩
      rw [hset] at hop
      simp only [Option.some.injEq, Prod.mk.injEq] at hop
      rcases hop with ⟨h1, h2⟩
      subst h1 h2
      exact ⟨inv1, rc1⟩
    · have habs : ∀ e ∈ allEntries d, keyStr h e.Key ≠ some s := by
        intro e he hc
        exact hex ⟨e, he, hc⟩
      rcases Set_absent h d inv rc hn k v s hs habs with ⟨d1, _, hset, inv1, rc1, _⟩
      rw [hset] at hop
      simp only [Option.some.injEq, Prod.mk.injEq] at hop
      rcases hop with ⟨h1, h2⟩
      subst h1 h2
      exact ⟨inv1, rc1⟩
  | @find h d k r d' _ hk hop ih =>
    rcases ih with ⟨inv, rc⟩
    rcases Option.isSome_iff_exists.1 hk with ⟨s, hs⟩
    rcases Find_spec h d inv k s hs with ⟨r1, d1, hf, inv1, hp1, _⟩
    rw [hf] at hop
    simp only [Option.some.injEq, Prod.mk.injEq] at hop
    rcases hop with ⟨_, h2⟩
    subst h2
    exact ⟨inv1, rc.of_perm hp1⟩
  | @get h d k r d' _ hk hop ih =>
    rcases ih with ⟨inv, rc⟩
    rcases Option.isSome_iff_exists.1 hk with ⟨s, hs⟩
    by_cases hex : ∃ e ∈ allEntries d, keyStr h e.Key = some s
    · rcases hex with ⟨e0, he0, hs0⟩
      rcases Get_stored h d inv k s hs e0 he0 hs0 with ⟨d1, hg, inv1, hp1⟩
      rw [hg] at hop
      simp only [Option.some.injEq, Prod.mk.injEq] at hop
      rcases hop with ⟨_, h2⟩
      subst h2
      exact ⟨inv1, rc.of_perm hp1⟩
    · have habs : ∀ e ∈ allEntries d, keyStr h e.Key ≠ some s := by
        intro e he hc
        exact hex ⟨e, he, hc⟩
      rcases Get_absent h d inv k s hs habs with ⟨d1, hg, inv1, hp1⟩
      rw [hg] at hop
      simp only [Option.some.injEq, Prod.mk.injEq] at hop
      rcases hop with ⟨_, h2⟩
      subst h2
      exact ⟨inv1, rc.of_perm hp1⟩
  | @randomGet h d rnd r d' _ hop ih =>
    rcases ih with ⟨inv, rc⟩
    rcases RandomGet_spec h rnd d inv with ⟨r1, d1, hf, inv1, hp1, _⟩
    rw [hf] at hop
    simp only [Option.some.injEq, Prod.mk.injEq] at hop
    rcases hop with ⟨_, h2⟩
    subst h2
    exact ⟨inv1, rc.of_perm hp1⟩

/-- The growth check changes nothing while a rehash is in progress. -/
theorem expandIfNeed_moving (d d2 : Dict) (hr : d.rehashIdx ≠ -1)
    (he : expandIfNeed d = some (none, d2)) : d2 = d := by
  have hnr : d.isRehashing = true := (isRehashing_iff d).2 hr
  simp only [expandIfNeed, hnr, if_true, Option.some.injEq, Prod.mk.injEq, true_and] at he
  exact he.symm

/-- Where an insertion made during a rehash puts the new entry: into `ht[1]`, or, when the
rehash step of the call found `ht[0]` empty and promoted `ht[1]`, into the promoted
table. -/
theorem Add_while_rehashing (h : Heap) (d : Dict) (inv : DictInv h d)
    (hn : (allEntries d).length < 1152921504606846976) (key val : Ptr) (s : Bytes)
    (hk : keyStr h key = some s) (habs : ∀ e ∈ allEntries d, keyStr h e.Key ≠ some s)
    (hr : d.rehashIdx ≠ -1) (h' : Heap) (d' : Dict)
    (hadd : Add gstrType h d key val = some (none, h', d')) :
    ({ Key := key, Val := some val } : Entry) ∈ entriesOf d'.hts1 ∨
    (d'.isRehashing = false ∧ ({ Key := key, Val := some val } : Entry) ∈ entriesOf d'.hts0 ∧
      ∃ t0 t1 t', d.hts0 = some t0 ∧ t0.used = 0 ∧ d.hts1 = some t1 ∧ d'.hts0 = some t' ∧
        t'.size = t1.size) := by
  rcases Add_fine h d inv hn key val s hk habs
    with ⟨d1, d2, t, t', hs1, he, ht, hadd', hsz, _, hperm, inv1, _, _, _⟩
  rw [hadd'] at hadd
  simp only [Option.some.injEq, Prod.mk.injEq, true_and] at hadd
  rcases hadd with ⟨_, hd'⟩
  subst hd'
  have hmem : ({ Key := key, Val := some val } : Entry) ∈ t'.table.flatten :=
    hperm.symm.subset (List.mem_cons_self _ _)
  rw [(isRehashing_iff d).2 hr, if_pos rfl] at hs1
  rcases inv.moving hr with ⟨t0, t1, h0, h1, _, _, _⟩
  rcases rehashStep_shape gstrType h d d1 t0 hs1 h0 with ⟨hz, hnz⟩
  rcases targetTable_cases d2 with ⟨hr2, htn⟩ | ⟨hr2, htn⟩
  · right
    rw [htn] at ht ⊢
    have hu : t0.used = 0 := by
      by_contra hu
      rcases hnz hu with ⟨i, _, _, _, hi3, _⟩
      have hr1 : d1.rehashIdx ≠ -1 := by rw [hi3]; omega
      have := expandIfNeed_moving d1 d2 hr1 he
      rw [this] at hr2
      exact hr1 hr2
    have hd1 := hz hu
    have h10 : d1.hts0 = some t1 := by rw [hd1, h1]
    have hr1 : d1.rehashIdx = -1 := by rw [hd1]
    have ok1 := inv1.ok0 t1 h10
    have hd2 : d2 = d1 := by
      by_cases hc : t1.used > t1.size ∧ Int.tdiv t1.used t1.size > ForceRatio
      · have hn1 : (allEntries d1).length < 1152921504606846976 := by
          rcases maybeStep_spec h d inv with ⟨dx, hsx, _, hpx, _⟩
          rw [(isRehashing_iff d).2 hr, if_pos rfl, hs1] at hsx
          simp only [Option.some.injEq] at hsx
          subst hsx
          rw [hpx.length_eq]; exact hn
        rw [expandIfNeed_grow h d1 inv1 t1 hn1 hr1 h10 hc] at he
        simp only [Option.some.injEq, Prod.mk.injEq, true_and] at he
        rw [← he] at hr2
        simp at hr2
      · have hb := ok1.size_bounds
        rw [expandIfNeed_keep d1 t1 hr1 h10 (by omega) hc] at he
        simp only [Option.some.injEq, Prod.mk.injEq, true_and] at he
        exact he.symm
    subst hd2
    have htt : t = t1 := by
      simp only [Dict.hts, if_true, h10, Option.some.injEq] at ht
      exact ht.symm
    refine ⟨?_, ?_, t0, t1, t', h0, hu, h1, ?_, by rw [hsz, htt]⟩
    · simp [Dict.isRehashing, Dict.setHt, hr1]
    · simp [Dict.setHt, entriesOf, hmem]
    · simp [Dict.setHt]
  · left
    rw [htn]
    simp [Dict.setHt, entriesOf, hmem]

/-- A rehash step leaves the cursor within the old table, one past the slot it moved. -/
theorem rehashStep_cursor (ty : DictType) (h : Heap) (d d' : Dict)
    (hs : rehashStep ty h d = some d') : CursorOK d' := by
  cases h0 : d.hts0 with
  | none => simp [rehashStep, DefaultStep, rehash, h0] at hs
  | some t0 =>
    unfold rehashStep DefaultStep rehash at hs
    simp only [h0, Option.bind_eq_bind, Option.some_bind] at hs
    by_cases hu : t0.used = 0
    · rw [if_pos hu] at hs
      simp only [Option.some.injEq] at hs
      subst hs
      exact Or.inl rfl
    · rw [if_neg hu] at hs
      by_cases hneg : d.rehashIdx < 0
      · rw [if_pos hneg] at hs; simp at hs
      · rw [if_neg hneg] at hs
        cases hsk : skipEmpty (t0.table.drop d.rehashIdx.toNat) d.rehashIdx.toNat with
        | none => simp [hsk] at hs
        | some i =>
          simp only [hsk, Option.some_bind] at hs
          cases hg : getSlot t0.table (i : Int) with
          | none => simp [hg] at hs
          | some entry =>
            simp only [hg, Option.some_bind] at hs
            cases h1 : d.hts1 with
            | none => simp [h1] at hs
            | some t1 =>
              simp only [h1, Option.some_bind] at hs
              cases hm : moveChain ty h entry t0 t1 with
              | none => simp [hm] at hs
              | some res =>
                obtain ⟨t0', t1'⟩ := res
                simp only [hm, Option.some_bind, rehash, Option.some.injEq] at hs
                have hlen : i < t0.table.length := by
                  have hg' : t0.table[i]? ≠ none := by
                    intro hc
                    simp [getSlot, hc] at hg
                  by_contra hcon
                  exact hg' (List.getElem?_eq_none (by omega))
                rcases moveChain_sizes ty h entry t0 t1 t0' t1' hm with ⟨_, htab, _⟩
                subst hs
                refine Or.inr ⟨_, rfl, ?_, ?_⟩
                · show (0 : Int) ≤ (i : Int) + 1
                  omega
                · show (i : Int) + 1 ≤ ((setSlot t0'.table (i : Int) []).length : Int)
                  simp only [setSlot, List.length_set, htab]
                  omega

theorem maybeStep_bind_some {β : Type} (ty : DictType) (h : Heap) (d : Dict)
    (k : Dict → Option β) (b : β)
    (hq : (if d.isRehashing = true then (rehashStep ty h d).bind k else (some d).bind k) =
      some b) :
    ∃ d1, (if d.isRehashing then rehashStep ty h d else some d) = some d1 ∧ k d1 = some b := by
  by_cases hc : d.isRehashing = true
  · rw [if_pos hc] at hq ⊢
    rcases Option.bind_eq_some.1 hq with ⟨d1, h1, h2⟩
    exact ⟨d1, h1, h2⟩
  · rw [if_neg hc] at hq ⊢
    exact ⟨d, rfl, hq⟩

theorem maybeStep_cursor (ty : DictType) (h : Heap) (d d' : Dict)
    (hs : (if d.isRehashing then rehashStep ty h d else some d) = some d') (hc : CursorOK d) :
    CursorOK d' := by
  by_cases hr : d.isRehashing = true
  · rw [if_pos hr] at hs
    exact rehashStep_cursor ty h d d' hs
  · rw [if_neg hr] at hs
    simp only [Option.some.injEq] at hs
    rw [← hs]
    exact hc

theorem expand_cursor (d d2 : Dict) (size : Int) (e : Option DictErr)
    (he : expand d size = some (e, d2)) (hc : CursorOK d) : CursorOK d2 := by
  unfold expand at he
  cases hsz : nextPower size with
  | none => simp [hsz] at he
  | some sz =>
    simp only [hsz, Option.bind_eq_bind, Option.some_bind] at he
    split at he
    · simp only [Option.some.injEq, Prod.mk.injEq] at he
      rw [← he.2]
      exact hc
    · rename_i hnb
      split at he
      · simp at he
      · cases h0 : d.hts0 with
        | none =>
          simp only [h0, Option.some.injEq, Prod.mk.injEq] at he
          have hnr : d.rehashIdx = -1 := by
            by_contra hcon
            exact hnb (by simp [(isRehashing_iff d).2 hcon])
          rw [← he.2]
          exact Or.inl hnr
        | some t0 =>
          simp only [h0, Option.some.injEq, Prod.mk.injEq] at he
          rw [← he.2]
          exact Or.inr ⟨t0, rfl, le_refl _, Int.ofNat_nonneg _⟩

theorem expandIfNeed_cursor (d d2 : Dict) (e : Option DictErr)
    (he : expandIfNeed d = some (e, d2)) (hc : CursorOK d) : CursorOK d2 := by
  unfold expandIfNeed at he
  have hsame : some ((none : Option DictErr), d) = some (e, d2) → CursorOK d2 := by
    intro hq
    simp only [Option.some.injEq, Prod.mk.injEq] at hq
    rw [← hq.2]
    exact hc
  split at he
  · exact hsame he
  · split at he
    · exact expand_cursor d d2 _ e he hc
    · split at he
      · split at he
        · simp at he
        · split at he
          · exact expand_cursor d d2 _ e he hc
          · exact hsame he
      · exact hsame he

theorem CursorOK.replaceTable {d : Dict} (hc : CursorOK d) (tn : Nat) (t t' : htable)
    (ht : d.hts tn = some t) (hl : t'.table.length = t.table.length) :
    CursorOK (d.setHt tn t') := by
  unfold Dict.hts at ht
  unfold Dict.setHt
  by_cases h0 : tn = 0
  · rw [if_pos h0] at ht ⊢
    rcases hc with hc | ⟨t0, ht0, ha, hb⟩
    · exact Or.inl hc
    · rw [ht] at ht0
      simp only [Option.some.injEq] at ht0
      subst ht0
      exact Or.inr ⟨t', rfl, ha, by rw [hl]; exact hb⟩
  · rw [if_neg h0] at ht ⊢
    rcases hc with hc | ⟨t0, ht0, ha, hb⟩
    · exact Or.inl hc
    · exact Or.inr ⟨t0, ht0, ha, hb⟩

theorem setVal_cursor (d d' : Dict) (r : EntryRef) (v : Ptr)
    (hs : d.setVal r v = some d') (hc : CursorOK d) : CursorOK d' := by
  unfold Dict.setVal at hs
  simp only [Option.bind_eq_bind, Option.bind_eq_some, Option.some.injEq] at hs
  rcases hs with ⟨t, ht, chain, _, e, _, hd⟩
  rw [← hd]
  exact hc.replaceTable r.t t _ ht (by simp)

theorem keyIndex_cursor (ty : DictType) (h : Heap) (d d2 : Dict) (key : Ptr) (idx : Int)
    (hk : keyIndex ty h d key = some (idx, d2)) (hc : CursorOK d) : CursorOK d2 := by
  unfold keyIndex at hk
  cases he : expandIfNeed d with
  | none => simp [he] at hk
  | some res =>
    obtain ⟨e, d1⟩ := res
    have h1 := expandIfNeed_cursor d d1 e he hc
    simp only [he, Option.bind_eq_bind, Option.some_bind] at hk
    split at hk
    · simp only [Option.some.injEq, Prod.mk.injEq] at hk
      rw [← hk.2]; exact h1
    · simp only [Option.bind_eq_some, Option.some.injEq, Prod.mk.injEq] at hk
      rcases hk with ⟨_, _, _, _, _, hq⟩
      rw [← hq]; exact h1

theorem AddRaw_cursor (ty : DictType) (h h' : Heap) (d d' : Dict) (key : Ptr)
    (r : Option EntryRef) (ha : AddRaw ty h d key = some (r, h', d')) (hc : CursorOK d) :
    CursorOK d' := by
  unfold AddRaw at ha
  simp only [Option.bind_eq_bind] at ha
  rcases maybeStep_bind_some ty h d _ _ ha with ⟨d1, hs, ha⟩
  · have c1 := maybeStep_cursor ty h d d1 hs hc
    cases hk : keyIndex ty h d1 key with
    | none => simp [hk] at ha
    | some res =>
      obtain ⟨idx, d2⟩ := res
      have c2 := keyIndex_cursor ty h d1 d2 key idx hk c1
      simp only [hk, Option.some_bind] at ha
      split at ha
      · simp only [Option.some.injEq, Prod.mk.injEq] at ha
        rw [← ha.2.2]; exact c2
      · simp only [Option.bind_eq_some, Option.some.injEq, Prod.mk.injEq] at ha
        rcases ha with ⟨ht, hht, slot, _, _, _, hd⟩
        rw [← hd]
        exact c2.replaceTable _ ht _ hht (by simp [setSlot])

theorem Add_cursor (ty : DictType) (h h' : Heap) (d d' : Dict) (key val : Ptr)
    (err : Option DictErr) (ha : Add ty h d key val = some (err, h', d')) (hc : CursorOK d) :
    CursorOK d' := by
  unfold Add at ha
  cases hr : AddRaw ty h d key with
  | none => simp [hr] at ha
  | some res =>
    obtain ⟨entry, h1, d1⟩ := res
    have c1 := AddRaw_cursor ty h h1 d d1 key entry hr hc
    simp only [hr, Option.bind_eq_bind, Option.some_bind] at ha
    cases entry with
    | none =>
      simp only [Option.some.injEq, Prod.mk.injEq] at ha
      rw [← ha.2.2]; exact c1
    | some r =>
      simp only [Option.bind_eq_some, Option.some.injEq, Prod.mk.injEq] at ha
      rcases ha with ⟨d2, hsv, _, _, hd⟩
      rw [← hd]
      exact setVal_cursor d1 d2 r val hsv c1

theorem Find_cursor (ty : DictType) (h : Heap) (d d' : Dict) (key : Ptr) (r : Option EntryRef)
    (hf : Find ty h d key = some (r, d')) (hc : CursorOK d) : CursorOK d' := by
  by_cases hne : d.hts0 = none
  · simp only [Find, hne, Option.some.injEq, Prod.mk.injEq] at hf
    rw [← hf.2]; exact hc
  · exact maybeStep_cursor ty h d d' (Find_dict ty h d d' key r hf hne) hc

theorem Get_cursor (ty : DictType) (h : Heap) (d d' : Dict) (key : Ptr) (r : Option Ptr)
    (hg : Get ty h d key = some (r, d')) (hc : CursorOK d) : CursorOK d' := by
  unfold Get at hg
  cases hf : Find ty h d key with
  | none => simp [hf] at hg
  | some res =>
    obtain ⟨entry, d1⟩ := res
    have c1 := Find_cursor ty h d d1 key entry hf hc
    simp only [hf, Option.bind_eq_bind, Option.some_bind] at hg
    cases entry with
    | none =>
      simp only [Option.some.injEq, Prod.mk.injEq] at hg
      rw [← hg.2]; exact c1
    | some x =>
      simp only [Option.bind_eq_some, Option.some.injEq, Prod.mk.injEq] at hg
      rcases hg with ⟨_, _, _, hd⟩
      rw [← hd]; exact c1

theorem Set_cursor (ty : DictType) (h h' : Heap) (d d' : Dict) (key val : Ptr)
    (hs : Set ty h d key val = some (h', d')) (hc : CursorOK d) : CursorOK d' := by
  unfold Set at hs
  cases ha : Add ty h d key val with
  | none => simp [ha] at hs
  | some res =>
    obtain ⟨err, h1, d1⟩ := res
    have c1 := Add_cursor ty h h1 d d1 key val err ha hc
    simp only [ha, Option.bind_eq_bind, Option.some_bind] at hs
    split at hs
    · simp only [Option.some.injEq, Prod.mk.injEq] at hs
      rw [← hs.2]; exact c1
    · cases hf : Find ty h1 d1 key with
      | none => simp [hf] at hs
      | some res2 =>
        obtain ⟨entry, d2⟩ := res2
        have c2 := Find_cursor ty h1 d1 d2 key entry hf c1
        simp only [hf, Option.some_bind, Option.bind_eq_some, Option.some.injEq,
          Prod.mk.injEq] at hs
        rcases hs with ⟨r, _, e, _, old, _, d3, hsv, _, hd⟩
        rw [← hd]
        exact setVal_cursor d2 d3 r val hsv c2

theorem RandomGet_cursor (ty : DictType) (h : Heap) (rnd : Nat → Nat) (d d' : Dict)
    (r : Option EntryRef) (hf : RandomGet ty h rnd d = some (r, d')) (hc : CursorOK d) :
    CursorOK d' := by
  by_cases hne : d.hts0 = none
  · simp only [RandomGet, hne, Option.some.injEq, Prod.mk.injEq] at hf
    rw [← hf.2]; exact hc
  · exact maybeStep_cursor ty h d d' (RandomGet_dict ty h rnd d d' r hf hne) hc

/-- In every well-formed state the rehash cursor is within the old table. -/
theorem WellFormed.cursor {h : Heap} {d : Dict} (hw : WellFormed h d) : CursorOK d := by
  induction hw with
  | create h hl => exact Or.inl rfl
  | add k v _ hk hn hop ih => exact Add_cursor _ _ _ _ _ k v _ hop ih
  | set k v _ hk hn hop ih => exact Set_cursor _ _ _ _ _ k v hop ih
  | find k _ hk hop ih => exact Find_cursor _ _ _ _ k _ hop ih
  | get k _ hk hop ih => exact Get_cursor _ _ _ _ k _ hop ih
  | randomGet rnd _ hop ih => exact RandomGet_cursor _ _ rnd _ _ _ hop ih

theorem runProbes_wellFormed (h : Heap) (ps : List Probe) :
    ∀ (d d' : Dict), WellFormed h d → (∀ p ∈ ps, p.Keyed h) →
      runProbes gstrType h ps d = some d' → WellFormed h d' := by
  induction ps with
  | nil =>
    intro d d' hw _ hr
    simp only [runProbes, Option.some.injEq] at hr
    rw [← hr]; exact hw
  | cons p ps ih =>
    intro d d' hw hk hr
    simp only [runProbes, Option.bind_eq_some] at hr
    rcases hr with ⟨d1, h1, h2⟩
    have hk' : ∀ q ∈ ps, q.Keyed h := fun q hq => hk q (List.mem_cons_of_mem _ hq)
    have hp := hk p (List.mem_cons_self _ _)
    refine ih d1 d' ?_ hk' h2
    cases p with
    | find k =>
      simp only [runProbe, Option.map_eq_some'] at h1
      rcases h1 with ⟨r, hf, hd⟩
      obtain ⟨r1, r2⟩ := r
      simp only at hd
      subst hd
      exact WellFormed.find k hw hp hf
    | randomGet rnd =>
      simp only [runProbe, Option.map_eq_some'] at h1
      rcases h1 with ⟨r, hf, hd⟩
      obtain ⟨r1, r2⟩ := r
      simp only at hd
      subst hd
      exact WellFormed.randomGet rnd hw hf

set_option maxRecDepth 1000000 in
theorem rehashEnd_wellFormed : WellFormed rehashStart.1 rehashEnd := by
  have hsome : (runProbes gstrType rehashStart.1 eightFinds rehashStart.2).isSome = true := by
    decide
  rcases Option.isSome_iff_exists.1 hsome with ⟨d', hd'⟩
  have he : rehashEnd = d' := by simp [rehashEnd, hd']
  rw [he]
  refine runProbes_wellFormed rehashStart.1 eightFinds _ d' rehashStart_reachable.wellFormed
    ?_ hd'
  intro p hp
  rw [List.eq_of_mem_replicate hp]
  show (keyStr rehashStart.1 0).isSome = true
  decide

theorem bulk_cr_without_lf (s : GodisServer) (rest : Bytes) :
    (handleBulkBuf s
      { pendingBulk with queryBuf := bytes "get\r" ++ 0 :: rest, queryLen := 4 }).map
        (fun r => (r.1, r.2.1)) = some (false, true) := by
  have hb : bytes "get\r" = [103, 101, 116, 13] := by decide
  rw [hb]
  simp [handleBulkBuf, bulkLoop, pendingBulk, clientWith, byteAt, CommonBulk]

theorem negative_count_faults (s : GodisServer) (c : GodisClient) (rest : Bytes)
    (hn : c.bulkNum = 0) (hb : c.queryBuf = bytes "*-1\n" ++ rest) (hl : c.queryLen = 4) :
    handleBulkBuf s c = none := by
  have hbytes : bytes "*-1\n" = [42, 45, 49, 10] := by decide
  rw [hbytes] at hb
  have hat : Atoi [45, 49] = (-1, false) := by decide
  have hlen : (4 : Int) ≤ (c.queryBuf.length : Int) := by
    rw [hb]
    simp only [List.cons_append, List.nil_append, List.length_cons]
    omega
  have hfl : findLineQuery c = some (3, false) := by
    have hq : slice c.queryBuf 0 c.queryLen = some [42, 45, 49, 10] := by
      rw [hl]
      unfold slice
      rw [if_pos ⟨le_refl _, by decide, hlen⟩, hb]
      rfl
    have hi : indexNL [42, 45, 49, 10] = 3 := by decide
    unfold findLineQuery
    rw [hq]
    simp only [Option.bind_eq_bind, Option.some_bind, hi]
    rw [if_neg (fun hc => absurd hc.1 (by decide))]
  have hsl : slice c.queryBuf 1 3 = some [45, 49] := by
    unfold slice
    rw [if_pos ⟨by decide, by decide, by omega⟩, hb]
    rfl
  unfold handleBulkBuf
  rw [if_pos hn, hfl]
  simp only [Option.bind_eq_bind, Option.some_bind]
  rw [if_neg (by decide)]
  unfold getNumInQuery
  rw [hsl]
  simp only [Option.bind_eq_bind, Option.some_bind, hat]
  cases sliceFrom c.queryBuf (3 + 1) with
  | none => rfl
  | some r => simp

/-- C1. The dictionary is a finite map through incremental rehash.  Take any run of `Add`
calls and `Find` calls from a fresh dictionary (`DictCreate` with `GStrHash`/`GStrEqual`)
in which every key is a string object and the inserted keys are pairwise different strings
(fewer than `2^60` calls).  The run returns, and in the state it leaves, whether one or two
tables are live, `Find` of a key equal to an inserted key returns the entry holding that
key object and its value, and `Find` of a string that was never inserted returns nil.
Every prefix of a run is a run, so this holds after each insertion. -/
theorem C1_finite_map_through_rehash (h0 : Heap) (ops : List DictOp)
    (hstr : ∀ op ∈ ops, (keyStr h0 op.key).isSome = true)
    (hdist : ((inserted ops).map (fun kv => keyStr h0 kv.1)).Nodup)
    (hlen : ops.length < 1152921504606846976) :
    ∃ h d, runOps gstrType ops h0 DictCreate = some (h, d) ∧
      ∀ (q : Ptr) (s : Bytes), keyStr h0 q = some s →
        (∀ kv ∈ inserted ops, keyStr h0 kv.1 = some s →
          ∃ r d', Find gstrType h d q = some (some r, d') ∧
            d'.entryAt r = some { Key := kv.1, Val := some kv.2 }) ∧
        ((∀ kv ∈ inserted ops, keyStr h0 kv.1 ≠ some s) →
          ∃ d', Find gstrType h d q = some (none, d')) := by
  have hstr' : ∀ op ∈ ops, ∃ s, keyStr h0 op.key = some s :=
    fun op hop => Option.isSome_iff_exists.1 (hstr op hop)
  rcases runOps_spec h0 ops h0 DictCreate [] (DictInv.at_create h0) (fun _ => rfl)
    (by simp [allEntries, DictCreate, entriesOf_none]) hstr' (by simpa using hdist)
    (by simpa using hlen) with ⟨h, d, hrun, inv, hk, hp⟩
  refine ⟨h, d, hrun, ?_⟩
  intro q s hq
  have hq' : keyStr h q = some s := by rw [hk]; exact hq
  have hp' : List.Perm (allEntries d) ((inserted ops).map toEntry) := by simpa using hp
  rcases Find_of_pairs h d inv (inserted ops) hp' q s hq' with ⟨hfound, hnone⟩
  constructor
  · intro kv hkv hs
    exact hfound kv hkv (by rw [hk]; exact hs)
  · intro habs
    exact hnone (fun kv hkv => by rw [hk]; exact habs kv hkv)

set_option maxRecDepth 1000000 in
theorem C1_finite_map_through_rehash_witness :
    (∀ op ∈ scenarioOps, (keyStr exampleHeap op.key).isSome = true) ∧
    ((inserted scenarioOps).map (fun kv => keyStr exampleHeap kv.1)).Nodup ∧
    scenarioOps.length < 1152921504606846976 ∧
    ∃ h d, runOps gstrType scenarioOps exampleHeap DictCreate = some (h, d) ∧
      ∀ (q : Ptr) (s : Bytes), keyStr exampleHeap q = some s →
        (∀ kv ∈ inserted scenarioOps, keyStr exampleHeap kv.1 = some s →
          ∃ r d', Find gstrType h d q = some (some r, d') ∧
            d'.entryAt r = some { Key := kv.1, Val := some kv.2 }) ∧
        ((∀ kv ∈ inserted scenarioOps, keyStr exampleHeap kv.1 ≠ some s) →
          ∃ d', Find gstrType h d q = some (none, d')) :=
  ⟨by decide, by decide, by decide,
   C1_finite_map_through_rehash exampleHeap scenarioOps (by decide) (by decide) (by decide)⟩

/-- C2, as amended.  On every well-formed dictionary state and for every string key `k`,
`Add(k, v)` returns; it answers `ExErr` exactly when an entry whose key equals `k` is stored
in `ht[0]` or `ht[1]`, and nil otherwise.  After nil, `Find(k)` returns an entry whose `Key`
is `k` and whose `Val` is `v`, and the heap is the old one with the count of `k` and the
count of `v` incremented: when `k` and `v` are different objects each count is exactly one
higher than before the call; when `k` and `v` are the same object its count is two higher,
the entry holding it as key and as value.  After `ExErr` the heap, hence every reference
count, and the stored entries are unchanged. -/
theorem C2_add_contract (h : Heap) (d : Dict) (hr : Reachable h d)
    (hn : (allEntries d).length < 1152921504606846976) (k v : Ptr)
    (hk : (keyStr h k).isSome = true) :
    ∃ err h' d', Add gstrType h d k v = some (err, h', d') ∧
      (err = some DictErr.ExErr ↔ ∃ e ∈ allEntries d, keyStr h e.Key = keyStr h k) ∧
      (err ≠ some DictErr.ExErr → err = none) ∧
      (err = none →
        (∃ r d'', Find gstrType h' d' k = some (some r, d'') ∧
          d''.entryAt r = some { Key := k, Val := some v }) ∧
        h' = IncrRefCount (IncrRefCount h k) v ∧
        (k ≠ v → (h' k).refCount = (h k).refCount + 1 ∧
          (h' v).refCount = (h v).refCount + 1) ∧
        (k = v → (h' k).refCount = (h k).refCount + 2)) ∧
      (err = some DictErr.ExErr → h' = h ∧ List.Perm (allEntries d') (allEntries d)) := by
  rcases hr.good with ⟨inv, _⟩
  rcases Option.isSome_iff_exists.1 hk with ⟨s, hs⟩
  rcases Add_spec h d inv hn k v s hs with ⟨hex, d1, hadd, inv1, hp1⟩ | ⟨habs, d1, hadd, inv1, hp1⟩
  · refine ⟨some .ExErr, h, d1, hadd, ?_, ?_, ?_, ?_⟩
    · rw [hs]; exact ⟨fun _ => hex, fun _ => rfl⟩
    · intro hc; exact absurd rfl hc
    · intro hc; simp at hc
    · intro _; exact ⟨rfl, hp1⟩
  · refine ⟨none, _, d1, hadd, ?_, ?_, ?_, ?_⟩
    · rw [hs]
      constructor
      · intro hc; simp at hc
      · rintro ⟨e, he, hes⟩; exact absurd hes (habs e he)
    · intro _; rfl
    · intro _
      refine ⟨?_, rfl, ?_, ?_⟩
      · have hk' : keyStr (IncrRefCount (IncrRefCount h k) v) k = some s := by
          rw [keyStr_incr, keyStr_incr]; exact hs
        have hmem : ({ Key := k, Val := some v } : Entry) ∈ allEntries d1 :=
          hp1.symm.subset (List.mem_cons_self _ _)
        rcases Find_stored _ d1 inv1 k s hk' _ hmem hk' with ⟨r, d2, hf, _, _, hra⟩
        exact ⟨r, d2, hf, hra.entryAt⟩
      · intro hne
        have hne' : ¬ v = k := fun hc => hne hc.symm
        rw [refCount_incr, refCount_incr, refCount_incr, refCount_incr]
        simp [hne, hne']
      · intro heq
        subst heq
        rw [refCount_incr, refCount_incr]
        simp
        ring
    · intro hc; simp at hc

set_option maxRecDepth 1000000 in
theorem C2_add_contract_witness :
    (Reachable exampleHeap1 exampleDict1 ∧
    (allEntries exampleDict1).length < 1152921504606846976 ∧
    (keyStr exampleHeap1 1).isSome = true ∧
    (Add gstrType exampleHeap1 exampleDict1 1 102).map (fun a => a.1) =
      some (some DictErr.ExErr) ∧
    ∃ err h' d', Add gstrType exampleHeap1 exampleDict1 1 102 = some (err, h', d') ∧
      (err = some DictErr.ExErr ↔
        ∃ e ∈ allEntries exampleDict1, keyStr exampleHeap1 e.Key = keyStr exampleHeap1 1) ∧
      (err ≠ some DictErr.ExErr → err = none) ∧
      (err = none →
        (∃ r d'', Find gstrType h' d' 1 = some (some r, d'') ∧
          d''.entryAt r = some { Key := 1, Val := some 102 }) ∧
        h' = IncrRefCount (IncrRefCount exampleHeap1 1) 102 ∧
        ((1 : Ptr) ≠ 102 → (h' 1).refCount = (exampleHeap1 1).refCount + 1 ∧
          (h' 102).refCount = (exampleHeap1 102).refCount + 1) ∧
        ((1 : Ptr) = 102 → (h' 1).refCount = (exampleHeap1 1).refCount + 2)) ∧
      (err = some DictErr.ExErr →
        h' = exampleHeap1 ∧ List.Perm (allEntries d') (allEntries exampleDict1))) ∧
    (Reachable exampleHeap1 exampleDict1 ∧
    (allEntries exampleDict1).length < 1152921504606846976 ∧
    (keyStr exampleHeap1 2).isSome = true ∧
    (Add gstrType exampleHeap1 exampleDict1 2 2).map (fun a => a.1) = some none ∧
    ∃ err h' d', Add gstrType exampleHeap1 exampleDict1 2 2 = some (err, h', d') ∧
      (err = some DictErr.ExErr ↔
        ∃ e ∈ allEntries exampleDict1, keyStr exampleHeap1 e.Key = keyStr exampleHeap1 2) ∧
      (err ≠ some DictErr.ExErr → err = none) ∧
      (err = none →
        (∃ r d'', Find gstrType h' d' 2 = some (some r, d'') ∧
          d''.entryAt r = some { Key := 2, Val := some 2 }) ∧
        h' = IncrRefCount (IncrRefCount exampleHeap1 2) 2 ∧
        ((2 : Ptr) ≠ 2 → (h' 2).refCount = (exampleHeap1 2).refCount + 1 ∧
          (h' 2).refCount = (exampleHeap1 2).refCount + 1) ∧
        ((2 : Ptr) = 2 → (h' 2).refCount = (exampleHeap1 2).refCount + 2)) ∧
      (err = some DictErr.ExErr →
        h' = exampleHeap1 ∧ List.Perm (allEntries d') (allEntries exampleDict1))) :=
  ⟨⟨exampleDict1_reachable, by decide, by decide, by decide,
    C2_add_contract exampleHeap1 exampleDict1 exampleDict1_reachable (by decide) 1 102
      (by decide)⟩,
   ⟨exampleDict1_reachable, by decide, by decide, by decide,
    C2_add_contract exampleHeap1 exampleDict1 exampleDict1_reachable (by decide) 2 2
      (by decide)⟩⟩

set_option maxRecDepth 1000000 in
/-- C2, counterexample.  The count of an object added as key and as value of the same entry
is not one higher but two higher.  On the fresh dictionary, a well-formed state, `k1` has
the count 1; `Add(k1, k1)` returns nil, `Find(k1)` then returns the entry whose key and
value are `k1`, and the count of `k1` is 3: `AddRaw` has counted the key and `Add` the
value. -/
theorem C2_same_object_counted_twice :
    Reachable exampleHeap DictCreate ∧ (keyStr exampleHeap 1).isSome = true ∧
    (exampleHeap 1).refCount = 1 ∧
    (Add gstrType exampleHeap DictCreate 1 1).map (fun a => (a.1, (a.2.1 1).refCount)) =
      some (none, 3) ∧
    ((Add gstrType exampleHeap DictCreate 1 1).bind
      (fun a => (Find gstrType a.2.1 a.2.2 1).bind
        (fun f => f.1.bind (fun r => f.2.entryAt r)))) = some { Key := 1, Val := some 1 } := by
  refine ⟨Reachable.create exampleHeap exampleHeap_live, by decide, by decide, by decide,
    by decide⟩

set_option maxRecDepth 1000000 in
/-- C3. `Delete` unlinks the entry but leaves the `used` counter of its table as it was, and
a later rehash step trusts that counter.  Insert the twenty-four scenario keys and `k24`
into a fresh dictionary and look `k0` up six times: the state is well-formed, `used` is
exact, and `ht[0]` holds entries in slots 6 and 7 only, `k3` alone in slot 7.  `Delete(k3)`
returns nil and leaves `used` inexact; the following `Find(k3)` does not return nil: its
rehash step walks past the end of `ht[0]` and the call faults. -/
theorem C3_delete_then_find_faults :
    (∃ h d, runOps gstrType scenarioOps exampleHeap DictCreate = some (h, d) ∧ Reachable h d ∧
      usedExact d = true ∧ d.rehashIdx = 6) ∧
    (runOps gstrType scenarioOps exampleHeap DictCreate).bind
      (fun s => (Delete gstrType s.1 s.2 3).map (fun r => (r.1, usedExact r.2.2))) =
        some (none, false) ∧
    (runOps gstrType scenarioOps exampleHeap DictCreate).bind
      (fun s => (Delete gstrType s.1 s.2 3).bind (fun r => Find gstrType r.2.1 r.2.2 3)) =
        none := by
  refine ⟨?_, by decide, by decide⟩
  rcases runOps_reachable exampleHeap scenarioOps exampleHeap DictCreate []
    (Reachable.create exampleHeap exampleHeap_live) (fun _ => rfl) (List.Perm.refl [])
    (by decide) (by decide) (by decide) with ⟨h, d, hrun, hr⟩
  have hu : ((runOps gstrType scenarioOps exampleHeap DictCreate).map
      (fun s => (usedExact s.2, s.2.rehashIdx))) = some (true, 6) := by decide
  rw [hrun] at hu
  simp only [Option.map_some', Option.some.injEq, Prod.mk.injEq] at hu
  exact ⟨h, d, hrun, hr, hu.1, hu.2⟩

/-- C4. `Set` is an upsert with exact reference counting.  On every well-formed dictionary
state and for every string key `k`, `Set(k, v2)` returns and a following `Get(k)` returns
`v2`.  When an entry with a key equal to `k` and value `v1` was stored, the number of stored
entries is unchanged and, for `v1` a different object than `v2`, the count of `v1` is one
lower and the count of `v2` one higher.  When no such entry was stored, `Set` leaves the
state a successful `Add(k, v2)` leaves. -/
theorem C4_set_upsert (h : Heap) (d : Dict) (hr : Reachable h d)
    (hn : (allEntries d).length < 1152921504606846976) (k v2 : Ptr)
    (hk : (keyStr h k).isSome = true) :
    ∃ h' d', Set gstrType h d k v2 = some (h', d') ∧
      (∃ d'', Get gstrType h' d' k = some (some v2, d'')) ∧
      (∀ e ∈ allEntries d, keyStr h e.Key = keyStr h k → ∀ v1, e.Val = some v1 →
        (allEntries d').length = (allEntries d).length ∧
        (v1 ≠ v2 → (h' v1).refCount = (h v1).refCount - 1 ∧
          (h' v2).refCount = (h v2).refCount + 1)) ∧
      ((∀ e ∈ allEntries d, keyStr h e.Key ≠ keyStr h k) →
        Add gstrType h d k v2 = some (none, h', d')) := by
  rcases hr.good with ⟨inv, rc⟩
  rcases Option.isSome_iff_exists.1 hk with ⟨s, hs⟩
  by_cases hex : ∃ e ∈ allEntries d, keyStr h e.Key = some s
  · rcases hex with ⟨e0, he0, hs0⟩
    rcases (inv.entry_ok he0).2 with ⟨old, hold⟩
    rcases Set_present h d inv rc hn k v2 s hs e0 old he0 hs0 hold
      with ⟨d1, hset, inv1, _, rest, q1, q2⟩
    have hkeep : ∀ p, keyStr (IncrRefCount (DecrRefCount h old) v2) p = keyStr h p := by
      intro p
      rw [keyStr_incr, keyStr_decr h old p (Or.inr (rc.stored_alive he0 hold))]
    refine ⟨_, d1, hset, ?_, ?_, ?_⟩
    · have hmem : ({ Key := e0.Key, Val := some v2 } : Entry) ∈ allEntries d1 :=
        q2.symm.subset (List.mem_cons_self _ _)
      rcases Get_stored _ d1 inv1 k s (by rw [hkeep]; exact hs) _ hmem
        (by rw [hkeep]; exact hs0) with ⟨d2, hg, _, _⟩
      exact ⟨d2, hg⟩
    · intro e he hes v1 hv1
      rw [hs] at hes
      have heq : e = e0 := List.inj_on_of_nodup_map inv.nodup he he0 (by simp only [hes, hs0])
      subst heq
      rw [hold] at hv1
      simp only [Option.some.injEq] at hv1
      subst hv1
      refine ⟨?_, ?_⟩
      · rw [q2.length_eq, q1.length_eq]; simp
      · intro hne
        have hne' : ¬ v2 = old := fun hc => hne hc.symm
        rw [refCount_incr, refCount_incr, refCount_decr, refCount_decr]
        simp [hne, hne']
    · intro habs
      rw [hs] at habs
      exact absurd hs0 (habs e0 he0)
  · have habs : ∀ e ∈ allEntries d, keyStr h e.Key ≠ some s := by
      intro e he hc
      exact hex ⟨e, he, hc⟩
    rcases Set_absent h d inv rc hn k v2 s hs habs with ⟨d1, hadd, hset, inv1, _, hp1⟩
    refine ⟨_, d1, hset, ?_, ?_, fun _ => hadd⟩
    · have hk' : keyStr (IncrRefCount (IncrRefCount h k) v2) k = some s := by
        rw [keyStr_incr, keyStr_incr]; exact hs
      have hmem : ({ Key := k, Val := some v2 } : Entry) ∈ allEntries d1 :=
        hp1.symm.subset (List.mem_cons_self _ _)
      rcases Get_stored _ d1 inv1 k s hk' _ hmem hk' with ⟨d2, hg, _, _⟩
      exact ⟨d2, hg⟩
    · intro e he hes
      rw [hs] at hes
      exact absurd hes (habs e he)

theorem C4_set_upsert_witness :
    Reachable exampleHeap1 exampleDict1 ∧
    (allEntries exampleDict1).length < 1152921504606846976 ∧
    (keyStr exampleHeap1 1).isSome = true ∧
    ∃ h' d', Set gstrType exampleHeap1 exampleDict1 1 102 = some (h', d') ∧
      (∃ d'', Get gstrType h' d' 1 = some (some 102, d'')) ∧
      (∀ e ∈ allEntries exampleDict1, keyStr exampleHeap1 e.Key = keyStr exampleHeap1 1 →
        ∀ v1, e.Val = some v1 →
        (allEntries d').length = (allEntries exampleDict1).length ∧
        (v1 ≠ 102 → (h' v1).refCount = (exampleHeap1 v1).refCount - 1 ∧
          (h' 102).refCount = (exampleHeap1 102).refCount + 1)) ∧
      ((∀ e ∈ allEntries exampleDict1, keyStr exampleHeap1 e.Key ≠ keyStr exampleHeap1 1) →
        Add gstrType exampleHeap1 exampleDict1 1 102 = some (none, h', d')) :=
  ⟨exampleDict1_reachable, by decide, by decide,
   C4_set_upsert exampleHeap1 exampleDict1 exampleDict1_reachable (by decide) 1 102 (by decide)⟩

set_option maxRecDepth 1000000 in
/-- C5. The SET/GET round trip fails on a key that had an expiration.  Twenty-five keys are
SET, each is given an expiration a hundred seconds ahead, and `k0` is read six times; every
command is answered without error and in both dictionaries `used` is exact.  `set k3 v` is
then answered `+OK\r\n`, but its `expire.Delete(k3)` leaves the `used` counter of the
expire dictionary inexact, and the following `get k3` produces no reply: the rehash step of
`expire.Find` walks past the end of `ht[0]` and the call faults. -/
theorem C5_set_then_get_faults :
    (feedLines okEnv 1000 roundTripScript (emptyServer, clientWith 7 [])).map
      (fun sc => (usedExact sc.1.db.data, usedExact sc.1.db.expire)) = some (true, true) ∧
    ((feedLines okEnv 1000 roundTripScript (emptyServer, clientWith 7 [])).bind
      (feedLine okEnv 1000 (setLine 3))).map
        (fun r => (r.1, (replyTexts r.2).getLast?, usedExact r.2.1.db.expire)) =
      some (false, some (bytes "+OK\r\n"), false) ∧
    (((feedLines okEnv 1000 roundTripScript (emptyServer, clientWith 7 [])).bind
      (feedLine okEnv 1000 (setLine 3))).bind
        (fun r => feedLine okEnv 1000 (getLine 3) r.2)).isNone = true := by
  refine ⟨by decide, by decide, by decide⟩

/-- C6. The multi-bulk parser rejects the RESP frame of `set k v`.  `findLineQuery` ends
a line at the line feed and `getNumInQuery` reads the number up to that index, so the
argument count of the header `*3` is read from `3\r`, which `Atoi` refuses:
`handleBulkBuf` returns an error, and
`ProcessQueryBuf` returns that error with no argument parsed, no reply queued and the
keyspace untouched. -/
theorem C6_resp_frame_rejected :
    Atoi (bytes "3\r") = (0, true) ∧
    (handleBulkBuf emptyServer { clientWith 7 respSetFrame with cmdTy := CommonBulk }).map
        (fun r => (r.1, r.2.1)) = some (false, true) ∧
    (ProcessQueryBuf okEnv 1000 emptyServer (clientWith 7 respSetFrame)).map
        (fun r => (r.1, r.2.2.args, replyTexts r.2, r.2.1.db.data)) =
      some (true, [], [], DictCreate) := by
  refine ⟨by decide, by decide, by decide⟩

/-- C7. Dispatcher errors keep the client and the keyspace.  For an assembled command (its
arguments are allocated objects, the first one carrying the name) whose name is not `quit`:
when the name is none of `get`, `set`, `expire` (compared byte for byte), `ProcessCommand`
enqueues exactly the reply `-ERR: unknow command\r\n`; when it is a table name and the
number of arguments differs from the arity (get 2, set 3, expire 3), it enqueues exactly
`-ERR: wrong number of args\r\n`.  In both cases the client stays registered, its parse
state is reset and both dictionaries are unchanged. -/
theorem C7_dispatch_errors (env : Env) (now : Int) (s : GodisServer) (c : GodisClient)
    (a0 : Ptr) (name : Bytes) (harg : c.arg 0 = some a0)
    (hname : (s.heap a0).StrVal = some name) (halloc : argsAllocated s c = true)
    (hquit : name ≠ bytes "quit") :
    ((name ≠ bytes "get" ∧ name ≠ bytes "set" ∧ name ≠ bytes "expire") →
      ErrorReplied s c (bytes "-ERR: unknow command\r\n") (ProcessCommand env now s c)) ∧
    (∀ cmd ∈ cmdTable, cmd.name = name → cmd.arity ≠ (c.args.length : Int) →
      ErrorReplied s c (bytes "-ERR: wrong number of args\r\n") (ProcessCommand env now s c)) ∧
    cmdTable.map (fun cmd => (cmd.name, cmd.arity)) =
      [(bytes "get", 2), (bytes "set", 3), (bytes "expire", 3)] := by
  refine ⟨?_, ?_, rfl⟩
  · intro hn
    have hl := lookupCommand_none name hn
    have : ProcessCommand env now s c =
        resetClient (AddReplyStr env s c (bytes "-ERR: unknow command\r\n")).1
          (AddReplyStr env s c (bytes "-ERR: unknow command\r\n")).2 := by
      simp [ProcessCommand, harg, hname, hquit, hl]
    rw [this]
    exact errorReply_spec env s c _ halloc
  · intro cmd hc hcn har
    have hl : lookupCommand name = some cmd := by rw [← hcn]; exact lookupCommand_table cmd hc
    have : ProcessCommand env now s c =
        resetClient (AddReplyStr env s c (bytes "-ERR: wrong number of args\r\n")).1
          (AddReplyStr env s c (bytes "-ERR: wrong number of args\r\n")).2 := by
      simp [ProcessCommand, harg, hname, hquit, hl, har]
    rw [this]
    exact errorReply_spec env s c _ halloc

theorem C7_dispatch_errors_witness :
    exampleCommand.arg 0 = some 0 ∧
    (exampleServer.heap 0).StrVal = some (bytes "k0") ∧
    argsAllocated exampleServer exampleCommand = true ∧
    bytes "k0" ≠ bytes "quit" ∧
    (((bytes "k0" ≠ bytes "get" ∧ bytes "k0" ≠ bytes "set" ∧ bytes "k0" ≠ bytes "expire") →
      ErrorReplied exampleServer exampleCommand (bytes "-ERR: unknow command\r\n")
        (ProcessCommand okEnv 1000 exampleServer exampleCommand)) ∧
    (∀ cmd ∈ cmdTable, cmd.name = bytes "k0" → cmd.arity ≠ (exampleCommand.args.length : Int) →
      ErrorReplied exampleServer exampleCommand (bytes "-ERR: wrong number of args\r\n")
        (ProcessCommand okEnv 1000 exampleServer exampleCommand)) ∧
    cmdTable.map (fun cmd => (cmd.name, cmd.arity)) =
      [(bytes "get", 2), (bytes "set", 3), (bytes "expire", 3)]) :=
  ⟨by decide, by decide, by decide, by decide,
   C7_dispatch_errors okEnv 1000 exampleServer exampleCommand 0 (bytes "k0")
     (by decide) (by decide) (by decide) (by decide)⟩

/-- C8. The inline line `quit\r\n` does not close the client.  `handleInlineBuf` cuts
the line at the line feed only, so the single argument is `quit\r`; `ProcessCommand` does
not recognise it and answers `-ERR: unknow command\r\n`, the client stays in
`server.clients` and its readable registration is kept. -/
theorem C8_quit_crlf_not_recognised :
    (handleInlineBuf emptyServer (clientWith 7 (bytes "quit\r\n"))).map
        (fun r => (r.1, r.2.1, argTexts r.2.2)) = some (true, false, [some (bytes "quit\r")]) ∧
    (ProcessQueryBuf okEnv 1000 emptyServer (clientWith 7 (bytes "quit\r\n"))).map
        (fun r => (r.1, r.2.1.clients, r.2.1.aeLoop.FileEvents (getFeKey 7 AEReadable),
          replyTexts r.2)) =
      some (false, [7], true, [bytes "-ERR: unknow command\r\n"]) := by
  constructor <;> decide

set_option maxRecDepth 1000000 in
/-- C9. A read of an expired key faults instead of answering `$-1\r\n`.  Twenty-five keys
are SET, `k0` is read six times and `expire k3 0` is answered `+OK\r\n`; in both
dictionaries `used` is exact.  The next `get k3`, at the same clock reading, produces no
reply: `expireIfNeed` deletes `k3` from both dictionaries, the `used` counter of the data
dictionary stays as it was, and the rehash step of the `data.Find` that follows walks past
the end of `ht[0]`. -/
theorem C9_expired_read_faults :
    (feedLines okEnv 1000 expiredScript (emptyServer, clientWith 7 [])).map
      (fun sc => ((replyTexts sc).getLast?, usedExact sc.1.db.data, usedExact sc.1.db.expire)) =
        some (some (bytes "+OK\r\n"), true, true) ∧
    ((feedLines okEnv 1000 expiredScript (emptyServer, clientWith 7 [])).bind
      (feedLine okEnv 1000 (getLine 3))).isNone = true := by
  refine ⟨by decide, by decide⟩

/-- C11. The growth trigger as the test states it.  When distinct string keys are added to a
fresh dictionary, the dictionary is not rehashing after each of the first 24 insertions, and
the 25th insertion starts a rehash: `isRehashing` is true, `rehashIdx` is 0, `ht[0]` has
size 8 and `ht[1]` size 16.  In general, on a well-formed dictionary that is not rehashing
and whose table has size `s` and used count `u`, the `Add` of a new string key succeeds and
starts a rehash exactly when `u > s` and `u / s > 2`; the old table is then still `ht[0]`,
the new table `ht[1]` has size `2 * s`, and `rehashIdx` is 0. -/
theorem C11_growth_trigger (h0 : Heap) (pairs : List (Ptr × Ptr))
    (hstr : ∀ kv ∈ pairs, (keyStr h0 kv.1).isSome = true)
    (hdist : (pairs.map (fun kv => keyStr h0 kv.1)).Nodup) :
    (∀ n, n ≤ 24 → ∃ h d, runOps gstrType (addOps (pairs.take n)) h0 DictCreate = some (h, d) ∧
      d.isRehashing = false) ∧
    (25 ≤ pairs.length → ∃ h d t0 t1,
      runOps gstrType (addOps (pairs.take 25)) h0 DictCreate = some (h, d) ∧
      d.isRehashing = true ∧ d.rehashIdx = 0 ∧ d.hts0 = some t0 ∧ t0.size = 8 ∧
      d.hts1 = some t1 ∧ t1.size = 16) ∧
    (∀ (h : Heap) (d : Dict) (t0 : htable) (k v : Ptr), Reachable h d →
      (allEntries d).length < 1152921504606846976 → d.isRehashing = false →
      d.hts0 = some t0 → (keyStr h k).isSome = true →
      (∀ e ∈ allEntries d, keyStr h e.Key ≠ keyStr h k) →
      ∃ h' d', Add gstrType h d k v = some (none, h', d') ∧
        (d'.isRehashing = true ↔ (t0.used > t0.size ∧ t0.used / t0.size > 2)) ∧
        (d'.isRehashing = true →
          d'.rehashIdx = 0 ∧ d'.hts0 = some t0 ∧ ∃ t1, d'.hts1 = some t1 ∧ t1.size = 2 * t0.size)) := by
  refine ⟨?_, ?_, ?_⟩
  · intro n hn
    rcases take_facts h0 pairs n hstr hdist with ⟨f1, f2⟩
    have hlen : (pairs.take n).length ≤ 24 := by
      rw [List.length_take]; omega
    rcases adds_steady h0 (pairs.take n) hlen f1 f2 with ⟨h, d, hrun, _, _, _, hr, _⟩
    exact ⟨h, d, hrun, (isRehashing_false_iff d).2 hr⟩
  · intro hlen
    rcases take_facts h0 pairs 25 hstr hdist with ⟨f1, f2⟩
    have hlen' : (pairs.take 25).length = 25 := by
      rw [List.length_take]; omega
    rcases adds_trigger h0 (pairs.take 25) hlen' f1 f2 with ⟨h, d, t0, t1, hrun, a, b, c, e, f⟩
    exact ⟨h, d, t0, t1, hrun, (isRehashing_iff d).2 (by rw [a]; decide), a, b, c, e, f⟩
  · intro h d t0 k v hr hn hnr h0' hk hnew
    have inv := hr.good.1
    rcases Option.isSome_iff_exists.1 hk with ⟨s, hs⟩
    have habs : ∀ e ∈ allEntries d, keyStr h e.Key ≠ some s := by
      intro e he; rw [← hs]; exact hnew e he
    rcases Add_steady h d inv hn k v s hs habs ((isRehashing_false_iff d).1 hnr) t0 h0'
      with ⟨d', hadd, hgrow, hkeep⟩
    refine ⟨_, d', hadd, ?_, ?_⟩
    · constructor
      · intro hreh
        by_contra hng
        exact (isRehashing_iff d').1 hreh (hkeep hng).1
      · intro hg
        exact (isRehashing_iff d').2 (by rw [(hgrow hg).1]; decide)
    · intro hreh
      have hg : Grows t0 := by
        by_contra hng
        exact (isRehashing_iff d').1 hreh (hkeep hng).1
      exact hgrow hg

set_option maxRecDepth 1000000 in
theorem C11_growth_trigger_witness :
    (∀ kv ∈ firstKeys 25, (keyStr exampleHeap kv.1).isSome = true) ∧
    ((firstKeys 25).map (fun kv => keyStr exampleHeap kv.1)).Nodup ∧
    ((∀ n, n ≤ 24 → ∃ h d,
      runOps gstrType (addOps ((firstKeys 25).take n)) exampleHeap DictCreate = some (h, d) ∧
      d.isRehashing = false) ∧
    (25 ≤ (firstKeys 25).length → ∃ h d t0 t1,
      runOps gstrType (addOps ((firstKeys 25).take 25)) exampleHeap DictCreate = some (h, d) ∧
      d.isRehashing = true ∧ d.rehashIdx = 0 ∧ d.hts0 = some t0 ∧ t0.size = 8 ∧
      d.hts1 = some t1 ∧ t1.size = 16) ∧
    (∀ (h : Heap) (d : Dict) (t0 : htable) (k v : Ptr), Reachable h d →
      (allEntries d).length < 1152921504606846976 → d.isRehashing = false →
      d.hts0 = some t0 → (keyStr h k).isSome = true →
      (∀ e ∈ allEntries d, keyStr h e.Key ≠ keyStr h k) →
      ∃ h' d', Add gstrType h d k v = some (none, h', d') ∧
        (d'.isRehashing = true ↔ (t0.used > t0.size ∧ t0.used / t0.size > 2)) ∧
        (d'.isRehashing = true →
          d'.rehashIdx = 0 ∧ d'.hts0 = some t0 ∧ ∃ t1, d'.hts1 = some t1 ∧ t1.size = 2 * t0.size))) :=
  ⟨by decide, by decide, C11_growth_trigger exampleHeap (firstKeys 25) (by decide) (by decide)⟩

/-- C12, as amended.  When distinct string keys are inserted into a fresh dictionary
(initial size 8), the incremental rehash starts at the 25th insert, not at the 17th: after
each of the first 24 insertions, the 16th and the 17th among them, the dictionary is not
rehashing, `ht[1]` is nil and `ht[0]` has size 8 and holds the keys inserted so far; after
the 25th insertion it is rehashing, `ht[1]` is allocated and `rehashIdx >= 0`. -/
theorem C12_rehash_starts_at_25th (h0 : Heap) (pairs : List (Ptr × Ptr))
    (hstr : ∀ kv ∈ pairs, (keyStr h0 kv.1).isSome = true)
    (hdist : (pairs.map (fun kv => keyStr h0 kv.1)).Nodup) (hlen : 25 ≤ pairs.length) :
    (∀ n, 1 ≤ n → n ≤ 24 → ∃ h d t0,
      runOps gstrType (addOps (pairs.take n)) h0 DictCreate = some (h, d) ∧
      d.isRehashing = false ∧ d.hts1 = none ∧ d.hts0 = some t0 ∧ t0.size = 8 ∧
      t0.used = (n : Int)) ∧
    (∃ h d t1, runOps gstrType (addOps (pairs.take 25)) h0 DictCreate = some (h, d) ∧
      d.isRehashing = true ∧ d.hts1 = some t1 ∧ 0 ≤ d.rehashIdx) := by
  constructor
  · intro n h1 hn
    rcases take_facts h0 pairs n hstr hdist with ⟨f1, f2⟩
    have hl : (pairs.take n).length = n := by
      rw [List.length_take]; omega
    rcases adds_steady h0 (pairs.take n) (by omega) f1 f2
      with ⟨h, d, hrun, _, _, _, hr, hh1, _, hcons⟩
    have hne : pairs.take n ≠ [] := by
      intro hc
      rw [hc] at hl
      simp at hl
      omega
    rcases hcons hne with ⟨t, a, b, c⟩
    exact ⟨h, d, t, hrun, (isRehashing_false_iff d).2 hr, hh1, a, b, by rw [c, hl]⟩
  · rcases take_facts h0 pairs 25 hstr hdist with ⟨f1, f2⟩
    have hlen' : (pairs.take 25).length = 25 := by
      rw [List.length_take]; omega
    rcases adds_trigger h0 (pairs.take 25) hlen' f1 f2 with ⟨h, d, t0, t1, hrun, a, b, c, e, f⟩
    exact ⟨h, d, t1, hrun, (isRehashing_iff d).2 (by rw [a]; decide), e, by rw [a]⟩

set_option maxRecDepth 1000000 in
theorem C12_rehash_starts_at_25th_witness :
    (∀ kv ∈ firstKeys 25, (keyStr exampleHeap kv.1).isSome = true) ∧
    ((firstKeys 25).map (fun kv => keyStr exampleHeap kv.1)).Nodup ∧
    25 ≤ (firstKeys 25).length ∧
    ((∀ n, 1 ≤ n → n ≤ 24 → ∃ h d t0,
      runOps gstrType (addOps ((firstKeys 25).take n)) exampleHeap DictCreate = some (h, d) ∧
      d.isRehashing = false ∧ d.hts1 = none ∧ d.hts0 = some t0 ∧ t0.size = 8 ∧
      t0.used = (n : Int)) ∧
    (∃ h d t1,
      runOps gstrType (addOps ((firstKeys 25).take 25)) exampleHeap DictCreate = some (h, d) ∧
      d.isRehashing = true ∧ d.hts1 = some t1 ∧ 0 ≤ d.rehashIdx)) :=
  ⟨by decide, by decide, by decide,
   C12_rehash_starts_at_25th exampleHeap (firstKeys 25) (by decide) (by decide) (by decide)⟩

set_option maxRecDepth 1000000 in
/-- C12, counterexample.  After the keys `k0` to `k16` have been inserted into a fresh dictionary, seventeen
distinct keys, the dictionary is not rehashing: `rehashIdx` is -1 and `ht[1]` is nil. -/
theorem C12_no_rehash_at_17th :
    (runOps gstrType (addOps (firstKeys 17)) exampleHeap DictCreate).map
      (fun s => (s.2.isRehashing, s.2.hts1, s.2.rehashIdx)) = some (false, none, -1) := by
  decide

/-- C13. A started rehash completes within a bounded number of steps.  From a well-formed
dictionary state in which a rehash is in progress, with `ht[0]` of size `s`, any `s + 1`
consecutive calls of `Find` (on string keys) or `RandomGet` (whatever its generator draws)
all return and leave the dictionary not rehashing, `ht[1]` nil and `ht[0]` of size `2 * s`,
the size of the former `ht[1]`, holding every entry; every key stored before the calls is
still found, in the entry that carries its value. -/
theorem C13_rehash_completes (h : Heap) (d : Dict) (hr : Reachable h d)
    (hreh : d.isRehashing = true) (s : Int) (hs : d.hts0.map (fun t => t.size) = some s)
    (ps : List Probe) (hlen : (ps.length : Int) = s + 1) (hk : ∀ p ∈ ps, p.Keyed h) :
    ∃ d', runProbes gstrType h ps d = some d' ∧ d'.isRehashing = false ∧ d'.hts1 = none ∧
      d'.hts0.map (fun t => t.size) = some (2 * s) ∧
      d'.hts0.map (fun t => t.size) = d.hts1.map (fun t => t.size) ∧
      List.Perm (entriesOf d'.hts0) (allEntries d) ∧
      ∀ e ∈ allEntries d, ∀ q, keyStr h q = keyStr h e.Key →
        ∃ r d'', Find gstrType h d' q = some (some r, d'') ∧ d''.entryAt r = some e := by
  have inv := hr.good.1
  have hri : d.rehashIdx ≠ -1 := (isRehashing_iff d).1 hreh
  rcases inv.moving hri with ⟨t0, t1, h0, h1, hge, hdouble, _⟩
  rw [h0] at hs
  simp only [Option.map_some', Option.some.injEq] at hs
  have hb := (inv.ok0 t0 h0).size_bounds
  have hmeasure : (t0.size - d.rehashIdx).toNat + 1 ≤ ps.length := by omega
  rcases runProbes_finish h ps d t0 t1 inv hri h0 h1 hmeasure hk
    with ⟨d', t, hrun, inv', hr', h1', h0', hsz, hperm⟩
  refine ⟨d', hrun, (isRehashing_false_iff d').2 hr', h1', ?_, ?_, ?_, ?_⟩
  · rw [h0', Option.map_some', hsz, hdouble, hs]
  · rw [h0', h1, Option.map_some', Option.map_some', hsz]
  · have : allEntries d' = entriesOf d'.hts0 := by
      simp [allEntries, h1', entriesOf_none]
    rw [← this]
    exact hperm
  · intro e he q hq
    rcases (inv.entry_ok he).1 with ⟨se, hse⟩
    have hq' : keyStr h q = some se := by rw [hq]; exact hse
    rcases Find_stored h d' inv' q se hq' e (hperm.symm.subset he) hse with ⟨r, d'', hf, _, _, hra⟩
    exact ⟨r, d'', hf, hra.entryAt⟩

set_option maxRecDepth 1000000 in
theorem C13_rehash_completes_witness :
    Reachable rehashStart.1 rehashStart.2 ∧ rehashStart.2.isRehashing = true ∧
    rehashStart.2.hts0.map (fun t => t.size) = some 8 ∧ (nineDraws.length : Int) = 8 + 1 ∧
    (∀ p ∈ nineDraws, p.Keyed rehashStart.1) ∧
    ∃ d', runProbes gstrType rehashStart.1 nineDraws rehashStart.2 = some d' ∧
      d'.isRehashing = false ∧ d'.hts1 = none ∧
      d'.hts0.map (fun t => t.size) = some (2 * 8) ∧
      d'.hts0.map (fun t => t.size) = rehashStart.2.hts1.map (fun t => t.size) ∧
      List.Perm (entriesOf d'.hts0) (allEntries rehashStart.2) ∧
      ∀ e ∈ allEntries rehashStart.2, ∀ q, keyStr rehashStart.1 q = keyStr rehashStart.1 e.Key →
        ∃ r d'', Find gstrType rehashStart.1 d' q = some (some r, d'') ∧
          d''.entryAt r = some e :=
  ⟨rehashStart_reachable, by decide, by decide, by decide, nineDraws_keyed rehashStart.1,
   C13_rehash_completes rehashStart.1 rehashStart.2 rehashStart_reachable (by decide) 8
     (by decide) nineDraws (by decide) (nineDraws_keyed rehashStart.1)⟩

/-- C14, as amended.  A buffered inline line is parsed into its space-separated arguments
whatever its length, 4095 and 4097 bytes alike: the line is consumed with its line feed and
no error is raised.  A protocol error is raised only while no line feed has been buffered,
and then exactly when more than 4096 bytes are buffered; with at most 4096 bytes and no line
feed the call reports an incomplete line without an error. -/
theorem C14_inline_length_boundary (s : GodisServer) (c : GodisClient) (line rest : Bytes)
    (hbuf : c.queryBuf = line ++ 10 :: rest) (hnl : 10 ∉ line)
    (h1 : (line.length : Int) + 1 ≤ c.queryLen) (h2 : c.queryLen ≤ (c.queryBuf.length : Int)) :
    (∃ s' c', handleInlineBuf s c = some (true, false, s', c') ∧
      argTexts (s', c') = (splitSpace line).map some ∧ c'.queryBuf = rest ∧
      c'.queryLen = c.queryLen - ((line.length : Int) + 1)) ∧
    (∀ c2 : GodisClient, 0 ≤ c2.queryLen → c2.queryLen ≤ (c2.queryBuf.length : Int) →
      10 ∉ c2.queryBuf.take c2.queryLen.toNat →
      handleInlineBuf s c2 = some (false, decide (c2.queryLen > 4096), s, c2)) := by
  constructor
  · rcases handleInlineBuf_line s c line rest hbuf hnl h1 h2 with ⟨s', c', h, ha, hb, hc, _⟩
    exact ⟨s', c', h, ha, hb, hc⟩
  · intro c2 h0 h3 h4
    exact handleInlineBuf_absent s c2 h0 h3 h4

theorem C14_inline_length_boundary_witness :
    (clientWith 7 (List.replicate 4095 97 ++ 10 :: [])).queryBuf =
      List.replicate 4095 97 ++ 10 :: [] ∧
    10 ∉ List.replicate 4095 97 ∧
    ((List.replicate 4095 97).length : Int) + 1 ≤
      (clientWith 7 (List.replicate 4095 97 ++ 10 :: [])).queryLen ∧
    (clientWith 7 (List.replicate 4095 97 ++ 10 :: [])).queryLen ≤
      ((clientWith 7 (List.replicate 4095 97 ++ 10 :: [])).queryBuf.length : Int) ∧
    ((∃ s' c', handleInlineBuf emptyServer (clientWith 7 (List.replicate 4095 97 ++ 10 :: [])) =
        some (true, false, s', c') ∧
      argTexts (s', c') = (splitSpace (List.replicate 4095 97)).map some ∧ c'.queryBuf = [] ∧
      c'.queryLen = (clientWith 7 (List.replicate 4095 97 ++ 10 :: [])).queryLen -
        (((List.replicate 4095 97).length : Int) + 1)) ∧
    (∀ c2 : GodisClient, 0 ≤ c2.queryLen → c2.queryLen ≤ (c2.queryBuf.length : Int) →
      10 ∉ c2.queryBuf.take c2.queryLen.toNat →
      handleInlineBuf emptyServer c2 = some (false, decide (c2.queryLen > 4096), emptyServer, c2))) :=
  ⟨rfl, not_mem_replicate 4095 10 97 (by decide),
   (clientWith_line 7 (List.replicate 4095 97)).2.1,
   (clientWith_line 7 (List.replicate 4095 97)).2.2.1,
   C14_inline_length_boundary emptyServer (clientWith 7 (List.replicate 4095 97 ++ 10 :: []))
     (List.replicate 4095 97) [] rfl (not_mem_replicate 4095 10 97 (by decide))
     (clientWith_line 7 (List.replicate 4095 97)).2.1
     (clientWith_line 7 (List.replicate 4095 97)).2.2.1⟩

/-- C14, counterexample.  A line of 4097 bytes followed by its line feed, 4098 buffered bytes in all, is not
rejected: it is parsed into one argument of 4097 bytes without an error. -/
theorem C14_long_line_is_parsed :
    (clientWith 7 (List.replicate 4097 97 ++ 10 :: [])).queryLen = 4098 ∧
    (handleInlineBuf emptyServer (clientWith 7 (List.replicate 4097 97 ++ 10 :: []))).map
      (fun r => (r.1, r.2.1, argTexts r.2.2)) =
        some (true, false, [some (List.replicate 4097 97)]) := by
  constructor
  · rw [(clientWith_line 7 (List.replicate 4097 97)).2.2.2, List.length_replicate]
    rfl
  · rcases handleInlineBuf_line emptyServer (clientWith 7 (List.replicate 4097 97 ++ 10 :: []))
      (List.replicate 4097 97) [] rfl (not_mem_replicate 4097 10 97 (by decide))
      (clientWith_line 7 (List.replicate 4097 97)).2.1
      (clientWith_line 7 (List.replicate 4097 97)).2.2.1 with ⟨s', c', h, ha, _⟩
    rw [h, Option.map_some', ha,
      splitSpace_word _ (not_mem_replicate 4097 32 97 (by decide))]
    rfl

/-- C16, as amended.  For a string object, `IntVal` returns `n` when the payload is a
decimal numeral (an optional sign, then one or more digits) of a value `n` within the int64
range; when the payload is a decimal numeral outside the int64 range it returns the nearest
bound, `MaxInt64` or `MinInt64`, not 0; it returns 0 for every payload that is not a decimal
numeral (empty, a lone sign, non-numeric, trailing characters such as `\r`) as long as the
digits the payload starts with do not exceed `2^64 - 1`, and the bound of its sign when they
do.  For every object that is not a string object it returns 0. -/
theorem C16_intval_parses_or_clamps (o : Gobj) (s : Bytes) (hT : o.Type_ = GSTR)
    (hV : o.Val_ = .str s) :
    (isDecimal s = true → MinInt64 ≤ decimalValue s → decimalValue s ≤ MaxInt64 →
      o.IntVal = some (decimalValue s)) ∧
    (isDecimal s = true → MaxInt64 < decimalValue s → o.IntVal = some MaxInt64) ∧
    (isDecimal s = true → decimalValue s < MinInt64 → o.IntVal = some MinInt64) ∧
    (isDecimal s = false → digitsValue (leadDigits s) 0 ≤ 18446744073709551615 →
      o.IntVal = some 0) ∧
    (isDecimal s = false → 18446744073709551615 < digitsValue (leadDigits s) 0 →
      o.IntVal = some (if isNegative s then MinInt64 else MaxInt64)) ∧
    (∀ o' : Gobj, o'.Type_ ≠ GSTR → o'.IntVal = some 0) := by
  have hi : o.IntVal = some (ParseInt s).1 := by simp [Gobj.IntVal, hT, hV]
  rcases ParseInt_spec s with ⟨p1, p2, p3, p4, p5⟩
  refine ⟨?_, ?_, ?_, ?_, ?_, ?_⟩
  · intro a b c; rw [hi, p1 a b c]
  · intro a b; rw [hi, p2 a b]
  · intro a b; rw [hi, p3 a b]
  · intro a b; rw [hi, p4 a b]
  · intro a b; rw [hi, p5 a b]
  · intro o' ho
    simp [Gobj.IntVal, ho]

theorem C16_intval_parses_or_clamps_witness :
    (CreateObject GSTR (.str (bytes "-42"))).Type_ = GSTR ∧
    (CreateObject GSTR (.str (bytes "-42"))).Val_ = .str (bytes "-42") ∧
    ((isDecimal (bytes "-42") = true → MinInt64 ≤ decimalValue (bytes "-42") →
      decimalValue (bytes "-42") ≤ MaxInt64 →
      (CreateObject GSTR (.str (bytes "-42"))).IntVal = some (decimalValue (bytes "-42"))) ∧
    (isDecimal (bytes "-42") = true → MaxInt64 < decimalValue (bytes "-42") →
      (CreateObject GSTR (.str (bytes "-42"))).IntVal = some MaxInt64) ∧
    (isDecimal (bytes "-42") = true → decimalValue (bytes "-42") < MinInt64 →
      (CreateObject GSTR (.str (bytes "-42"))).IntVal = some MinInt64) ∧
    (isDecimal (bytes "-42") = false →
      digitsValue (leadDigits (bytes "-42")) 0 ≤ 18446744073709551615 →
      (CreateObject GSTR (.str (bytes "-42"))).IntVal = some 0) ∧
    (isDecimal (bytes "-42") = false →
      18446744073709551615 < digitsValue (leadDigits (bytes "-42")) 0 →
      (CreateObject GSTR (.str (bytes "-42"))).IntVal =
        some (if isNegative (bytes "-42") then MinInt64 else MaxInt64)) ∧
    (∀ o' : Gobj, o'.Type_ ≠ GSTR → o'.IntVal = some 0)) :=
  ⟨rfl, rfl,
   C16_intval_parses_or_clamps (CreateObject GSTR (.str (bytes "-42"))) (bytes "-42") rfl rfl⟩

/-- C16, counterexample.  The payload `9223372036854775808` is a decimal numeral one above the int64 range, and
`IntVal` returns 9223372036854775807 for it, not 0. -/
theorem C16_out_of_range_is_clamped :
    isDecimal (bytes "9223372036854775808") = true ∧
    decimalValue (bytes "9223372036854775808") = 9223372036854775808 ∧
    MaxInt64 < decimalValue (bytes "9223372036854775808") ∧
    (CreateObject GSTR (.str (bytes "9223372036854775808"))).IntVal =
      some 9223372036854775807 := by
  refine ⟨by decide, by decide, by decide, by decide⟩

set_option maxRecDepth 1000000 in
/-- C17. `ServerCron` does not delete a sampled key whose deadline is past.  The key `k3` is
set and given the deadline 1700000000000 ms by `expire k3 0`.  Five seconds later, at
1700000005000 ms, `ServerCron` samples that entry at every draw and compares its deadline
with the clock in seconds, 1700000005: the deadline is not below it, so nothing is deleted
and both dictionaries stay as they were. -/
theorem C17_cron_keeps_expired_key :
    (feedLines okEnv 1700000000000 cronScript (emptyServer, clientWith 7 [])).bind
      (fun sc => (RandomGet gstrType sc.1.heap (fun _ => 7) sc.1.db.expire).bind
        (fun r => r.1.bind (fun ref => (r.2.entryAt ref).bind
          (fun e => e.Val.bind (fun v => (sc.1.heap v).IntVal))))) = some 1700000000000 ∧
    (1700000000000 : Int) < 1700000005000 ∧ (1700000005000 : Int) / 1000 = 1700000005 ∧
    (feedLines okEnv 1700000000000 cronScript (emptyServer, clientWith 7 [])).bind
      (fun sc => (ServerCron (fun _ _ => 7) 1700000005 sc.1).map
        (fun s => (decide (s.db.data = sc.1.db.data), decide (s.db.expire = sc.1.db.expire),
          (allEntries s.db.data).length, (allEntries s.db.expire).length))) =
      some (true, true, 1, 1) := by
  refine ⟨by decide, by decide, by decide, by decide⟩

/-- C18. A recurring time event is not rescheduled by its interval.  `AddTimeEvent` with
`AENormal` and the interval 100 at clock reading 0 links an event whose `when` is 100 and
whose field `interval` is 0; the event is due at 100, and after `AeProcess` fires it at
clock reading 100 its `when` is still 100, not 200. -/
theorem C18_recurring_event_not_rescheduled :
    (AeLoopCreate.AddTimeEvent 0 AENormal 100 0).2.TimeEvents = [⟨1, AENormal, 100, 0, 0⟩] ∧
    (AeLoopCreate.AddTimeEvent 0 AENormal 100 0).2.dueTimeEvents 100 =
      [⟨1, AENormal, 100, 0, 0⟩] ∧
    (AeProcess idleProcs (fun _ => 100) 0 (AeLoopCreate.AddTimeEvent 0 AENormal 100 0).2
      ((AeLoopCreate.AddTimeEvent 0 AENormal 100 0).2.dueTimeEvents 100)).TimeEvents =
      [⟨1, AENormal, 100, 0, 0⟩] := by
  refine ⟨by decide, by decide, by decide⟩

/-- C19. After `Delete` the field `used` is not the number of chained entries.  `Add(k1, v1)`
on a fresh dictionary leaves a well-formed state whose `used` is exact; `Delete(k1)` then
returns nil and leaves `ht[0]` with `used` equal to 1 and no entry in its slots. -/
theorem C19_used_after_delete :
    Add gstrType exampleHeap DictCreate 1 101 = some (none, exampleHeap1, exampleDict1) ∧
    Reachable exampleHeap1 exampleDict1 ∧ usedExact exampleDict1 = true ∧
    (Delete gstrType exampleHeap1 exampleDict1 1).map
      (fun q => (q.1, usedExact q.2.2,
        q.2.2.hts0.map (fun t => (t.used, t.table.flatten.length)))) =
      some (none, false, some (1, 0)) := by
  refine ⟨by rfl, exampleDict1_reachable, by decide, by decide⟩

/-- C20, as amended.  No key is stored twice.  In every dictionary state reached from
`DictCreate` by `Add`, `Set`, `Find`, `Get` calls on string keys and `RandomGet` calls,
every stored key is a string object and no two entries anywhere in `ht[0]` and `ht[1]`
carry equal strings; in particular no key of `ht[0]` equals a key of `ht[1]`.  An `Add` of
a string key performed while rehashing that returns nil places the new entry in `ht[1]`,
except when the rehash step of that very call finds `ht[0]` empty and promotes `ht[1]` to
`ht[0]`: the dictionary is then no longer rehashing and the entry is in that promoted table,
the one that was `ht[1]` when the call was made. -/
theorem C20_no_key_twice (h : Heap) (d : Dict) (hw : WellFormed h d) :
    (∀ e ∈ allEntries d, (keyStr h e.Key).isSome = true) ∧
    ((allEntries d).map (fun e => keyStr h e.Key)).Nodup ∧
    (∀ e0 ∈ entriesOf d.hts0, ∀ e1 ∈ entriesOf d.hts1, keyStr h e0.Key ≠ keyStr h e1.Key) ∧
    (∀ (k v : Ptr) (h' : Heap) (d' : Dict), d.isRehashing = true →
      (keyStr h k).isSome = true → (allEntries d).length < 1152921504606846976 →
      Add gstrType h d k v = some (none, h', d') →
      ({ Key := k, Val := some v } : Entry) ∈ entriesOf d'.hts1 ∨
      (d'.isRehashing = false ∧ ({ Key := k, Val := some v } : Entry) ∈ entriesOf d'.hts0 ∧
        ∃ t0 t1 t', d.hts0 = some t0 ∧ t0.used = 0 ∧ d.hts1 = some t1 ∧ d'.hts0 = some t' ∧
          t'.size = t1.size)) := by
  have inv := hw.invariant.1
  refine ⟨?_, inv.nodup, ?_, ?_⟩
  · intro e he
    rcases (inv.entry_ok he).1 with ⟨s, hs⟩
    rw [hs]; rfl
  · intro e0 he0 e1 he1 heq
    have hnd := inv.nodup
    unfold allEntries at hnd
    rw [List.map_append, List.nodup_append] at hnd
    exact hnd.2.2 (List.mem_map.2 ⟨e0, he0, rfl⟩) (by rw [heq]; exact List.mem_map.2 ⟨e1, he1, rfl⟩)
  · intro k v h' d' hreh hk hn hadd
    rcases Option.isSome_iff_exists.1 hk with ⟨s, hs⟩
    have habs : ∀ e ∈ allEntries d, keyStr h e.Key ≠ some s := by
      rcases Add_spec h d inv hn k v s hs with ⟨_, d1, hadd1, _⟩ | ⟨habs, _⟩
      · rw [hadd1] at hadd
        simp at hadd
      · exact habs
    exact Add_while_rehashing h d inv hn k v s hs habs ((isRehashing_iff d).1 hreh) h' d' hadd

theorem C20_no_key_twice_witness :
    WellFormed rehashStart.1 rehashStart.2 ∧
    ((∀ e ∈ allEntries rehashStart.2, (keyStr rehashStart.1 e.Key).isSome = true) ∧
    ((allEntries rehashStart.2).map (fun e => keyStr rehashStart.1 e.Key)).Nodup ∧
    (∀ e0 ∈ entriesOf rehashStart.2.hts0, ∀ e1 ∈ entriesOf rehashStart.2.hts1,
      keyStr rehashStart.1 e0.Key ≠ keyStr rehashStart.1 e1.Key) ∧
    (∀ (k v : Ptr) (h' : Heap) (d' : Dict), rehashStart.2.isRehashing = true →
      (keyStr rehashStart.1 k).isSome = true →
      (allEntries rehashStart.2).length < 1152921504606846976 →
      Add gstrType rehashStart.1 rehashStart.2 k v = some (none, h', d') →
      ({ Key := k, Val := some v } : Entry) ∈ entriesOf d'.hts1 ∨
      (d'.isRehashing = false ∧ ({ Key := k, Val := some v } : Entry) ∈ entriesOf d'.hts0 ∧
        ∃ t0 t1 t', rehashStart.2.hts0 = some t0 ∧ t0.used = 0 ∧
          rehashStart.2.hts1 = some t1 ∧ d'.hts0 = some t' ∧ t'.size = t1.size))) :=
  ⟨rehashStart_reachable.wellFormed,
   C20_no_key_twice rehashStart.1 rehashStart.2 rehashStart_reachable.wellFormed⟩

set_option maxRecDepth 1000000 in
/-- C20, counterexample.  An `Add` performed while rehashing does not always place the new
entry in `ht[1]`.  In the state of the test `TestRehash` eight lookups after the rehash has
started, the dictionary is well-formed and still rehashing, with `ht[0]` empty.
`Add(k30, v30)` returns nil; its rehash step has promoted `ht[1]` first, so afterwards the
dictionary is not rehashing, `ht[1]` is nil and the new entry is in `ht[0]`, the table of
size 16 that was `ht[1]` when the call was made. -/
theorem C20_add_lands_in_promoted_table :
    WellFormed rehashStart.1 rehashEnd ∧ rehashEnd.isRehashing = true ∧
    (keyStr rehashStart.1 30).isSome = true ∧
    rehashEnd.hts1.map (fun t => t.size) = some 16 ∧
    (Add gstrType rehashStart.1 rehashEnd 30 130).map
      (fun a => (a.1, a.2.2.isRehashing, a.2.2.hts1, a.2.2.hts0.map (fun t => t.size))) =
      some (none, false, none, some 16) ∧
    (Add gstrType rehashStart.1 rehashEnd 30 130).map
      (fun a => (decide (({ Key := 30, Val := some 130 } : Entry) ∈ entriesOf a.2.2.hts0),
        decide (({ Key := 30, Val := some 130 } : Entry) ∈ entriesOf a.2.2.hts1))) =
      some (true, false) := by
  refine ⟨rehashEnd_wellFormed, by decide, by decide, by decide, by decide, by decide⟩

set_option maxRecDepth 1000000 in
/-- C21. `expireCommand` stores the deadline without looking the key up in `data`.  On the
server as `initServer` leaves it, the command `expire k3 100` is answered `+OK\r\n` and
leaves an entry for `k3` in the expire dictionary while the data dictionary holds no entry
at all; a following `get k3` is answered `$-1\r\n` and the entry of `k3` is still in
`expire`. -/
theorem C21_expire_without_data :
    (feedLines okEnv 1000 [expireLine 3 100] (emptyServer, clientWith 7 [])).map
      (fun sc => (replyTexts sc,
        (allEntries sc.1.db.expire).map (fun e => keyStr sc.1.heap e.Key),
        (allEntries sc.1.db.data).length)) =
      some ([bytes "+OK\r\n"], [some (bytes "k3")], 0) ∧
    (feedLines okEnv 1000 [expireLine 3 100, getLine 3] (emptyServer, clientWith 7 [])).map
      (fun sc => (replyTexts sc,
        (allEntries sc.1.db.expire).map (fun e => keyStr sc.1.heap e.Key),
        (allEntries sc.1.db.data).length)) =
      some ([bytes "+OK\r\n", bytes "$-1\r\n"], [some (bytes "k3")], 0) := by
  refine ⟨by decide, by decide⟩

/-- C22, as amended.  In every dictionary state reached from `DictCreate` by `Add`, `Set`,
`Find`, `Get` calls on string keys and `RandomGet` calls: while the dictionary is rehashing,
`ht[0]` and `ht[1]` are present, `0 <= rehashIdx <= ht[0].size`, and every slot of `ht[0]`
below `rehashIdx` is empty; `rehashIdx < ht[0].size` holds as long as `ht[0].used` is not 0,
and `rehashIdx` equals `ht[0].size` only once every entry has left `ht[0]`, until the next
step promotes `ht[1]`.  Whenever `rehashIdx == -1`, `ht[1]` is absent. -/
theorem C22_rehash_cursor_range (h : Heap) (d : Dict) (hw : WellFormed h d) :
    (d.isRehashing = true → ∃ t0 t1, d.hts0 = some t0 ∧ d.hts1 = some t1 ∧
      0 ≤ d.rehashIdx ∧ d.rehashIdx ≤ t0.size ∧
      (∀ i : Nat, (i : Int) < d.rehashIdx → t0.table[i]? = some []) ∧
      (t0.used ≠ 0 → d.rehashIdx < t0.size)) ∧
    (d.rehashIdx = -1 → d.hts1 = none) := by
  have inv := hw.invariant.1
  refine ⟨?_, inv.steady⟩
  intro hreh
  have hri : d.rehashIdx ≠ -1 := (isRehashing_iff d).1 hreh
  rcases inv.moving hri with ⟨t0, t1, h0, h1, hge, _, hempty⟩
  have ok0 := inv.ok0 t0 h0
  have hlen := ok0.len
  have hle : d.rehashIdx ≤ t0.size := by
    rcases hw.cursor with hc | ⟨t0', h0', _, hc⟩
    · exact absurd hc hri
    · rw [h0] at h0'
      simp only [Option.some.injEq] at h0'
      subst h0'
      rw [← hlen]; exact hc
  have hslots : ∀ i : Nat, (i : Int) < d.rehashIdx → t0.table[i]? = some [] := by
    intro i hi
    have hlt : i < t0.table.length := by omega
    have hget : t0.table[i]? = some t0.table[i] := List.getElem?_eq_getElem hlt
    rw [hget, hempty i _ hi hget]
  refine ⟨t0, t1, h0, h1, hge, hle, hslots, ?_⟩
  intro hu
  by_contra hcon
  have heq : d.rehashIdx = t0.size := by omega
  have hnil : t0.table.flatten = [] := by
    rw [List.flatten_eq_nil_iff]
    intro l hl
    rcases List.getElem_of_mem hl with ⟨i, hi, hli⟩
    have hs := hslots i (by omega)
    rw [List.getElem?_eq_getElem hi, hli] at hs
    simp only [Option.some.injEq] at hs
    exact hs
  have := ok0.used
  rw [hnil] at this
  exact hu (by simpa using this)

set_option maxRecDepth 1000000 in
theorem C22_rehash_cursor_range_witness :
    WellFormed rehashStart.1 rehashEnd ∧
    ((rehashEnd.isRehashing = true → ∃ t0 t1, rehashEnd.hts0 = some t0 ∧
      rehashEnd.hts1 = some t1 ∧ 0 ≤ rehashEnd.rehashIdx ∧ rehashEnd.rehashIdx ≤ t0.size ∧
      (∀ i : Nat, (i : Int) < rehashEnd.rehashIdx → t0.table[i]? = some []) ∧
      (t0.used ≠ 0 → rehashEnd.rehashIdx < t0.size)) ∧
    (rehashEnd.rehashIdx = -1 → rehashEnd.hts1 = none)) ∧
    rehashEnd.isRehashing = true :=
  ⟨rehashEnd_wellFormed, C22_rehash_cursor_range rehashStart.1 rehashEnd rehashEnd_wellFormed,
   by decide⟩

set_option maxRecDepth 1000000 in
/-- C22, counterexample.  The bound `rehashIdx < ht[0].size` fails in a state of the test
`TestRehash`: twenty-five insertions start the rehash of a table of size 8, and eight
lookups later every slot has moved.  The state is well-formed and still rehashing, `ht[1]`
is present, `ht[0]` has size 8 and no entry, and `rehashIdx` is 8, the size of `ht[0]`; the
promotion of `ht[1]` is left to the next step. -/
theorem C22_cursor_reaches_size :
    runProbes gstrType rehashStart.1 eightFinds rehashStart.2 = some rehashEnd ∧
    WellFormed rehashStart.1 rehashEnd ∧
    rehashEnd.isRehashing = true ∧ rehashEnd.rehashIdx = 8 ∧
    rehashEnd.hts0.map (fun t => (t.size, t.used)) = some (8, 0) ∧
    rehashEnd.hts1.isSome = true ∧
    ¬ (∃ t0, rehashEnd.hts0 = some t0 ∧ rehashEnd.rehashIdx < t0.size) := by
  refine ⟨by decide, rehashEnd_wellFormed, by decide, by decide, by decide, by decide, ?_⟩
  rintro ⟨t0, h0, hlt⟩
  have hs : rehashEnd.hts0.map (fun t => t.size) = some 8 := by decide
  have hi : rehashEnd.rehashIdx = 8 := by decide
  rw [h0] at hs
  simp only [Option.map_some', Option.some.injEq] at hs
  omega

set_option maxRecDepth 1000000 in
/-- C23. The payload of a bulk is checked for its CRLF but skipped with one byte too few.
After the read `*1\n$3\n` a bulk of length 3 is pending.  With the five bytes `get\r\n`
buffered, `handleBulkBuf` stores `get` but consumes four bytes, not five: the line feed
stays in the buffer.  With the four bytes `get\r` buffered, the line feed not yet read, the
call does not suspend: it compares the byte after the carriage return, a zero of the unused
part of the buffer, with the line feed and returns an error.  Through `ProcessQueryBuf`, the
frame of `get k0` with line-feed headers is refused at the header of its second bulk, where
the line feed left over is found instead of `$`; and after the one-bulk frame of `get` the
line feed left over is taken for an inline command of its own. -/
theorem C23_bulk_payload_off_by_one :
    (ProcessQueryBuf okEnv 0 emptyServer (clientWith 7 (bytes "*1\n$3\n"))).map
      (fun r => (r.1, r.2.2.cmdTy, r.2.2.bulkNum, r.2.2.bulkLen)) =
      some (false, pendingBulk.cmdTy, pendingBulk.bulkNum, pendingBulk.bulkLen) ∧
    (ProcessQueryBuf okEnv 0 emptyServer (clientWith 7 (bytes "*1\n$3\n"))).map
      (fun r => (r.2.2.args, r.2.2.queryLen)) = some (pendingBulk.args, 0) ∧
    (handleBulkBuf emptyServer
        { pendingBulk with queryBuf := bytes "get\r\n", queryLen := 5 }).map
      (fun r => (r.1, r.2.1, argTexts r.2.2)) = some (true, false, [some (bytes "get")]) ∧
    (handleBulkBuf emptyServer
        { pendingBulk with queryBuf := bytes "get\r\n", queryLen := 5 }).map
      (fun r => (r.2.2.2.queryBuf, r.2.2.2.queryLen)) = some (bytes "\n", 1) ∧
    (handleBulkBuf emptyServer
      { pendingBulk with queryBuf := bytes "get\r" ++ 0 :: List.replicate 16372 0, queryLen := 4 }).map
      (fun r => (r.1, r.2.1)) = some (false, true) ∧
    (ProcessQueryBuf okEnv 0 emptyServer
        (clientWith 7 (bytes "*2\n$3\nget\r\n$2\nk0\r\n"))).map
      (fun r => (r.1, argTexts r.2, r.2.2.queryBuf, replyTexts r.2)) =
      some (true, [some (bytes "get"), none], bytes "\n$2\nk0\r\n", []) ∧
    (ProcessQueryBuf okEnv 0 emptyServer (clientWith 7 (bytes "*1\n$3\nget\r\n"))).map
      (fun r => (r.1, replyTexts r.2)) =
      some (false, [bytes "-ERR: wrong number of args\r\n", bytes "-ERR: unknow command\r\n"]) := by
  refine ⟨by decide, by decide, by decide, by decide, bulk_cr_without_lf _ _, by decide,
    by decide⟩

set_option maxRecDepth 1000000 in
/-- C24. The frame `*0` is not an empty command on a client that has dispatched a command
before.  `resetClient` releases the arguments but leaves them in `client.args`, and
`handleBulkBuf` returns on a count of 0 without touching `client.args`.  On a new client
`*0\n` is processed without a reply and without an argument.  After `get k0`, answered
`$-1\r\n`, the client is reset and still holds the two released arguments; `handleBulkBuf`
then reports the frame `*0\n` complete with these two arguments in place, so
`ProcessQueryBuf` dispatches them: `ProcessCommand` reads the name from a released object
and the call faults. -/
theorem C24_zero_count_dispatches_stale_args :
    (feedLine okEnv 1000 (bytes "*0\n") (emptyServer, clientWith 7 [])).map
      (fun r => (r.1, replyTexts r.2, r.2.2.args, r.2.2.queryLen)) = some (false, [], [], 0) ∧
    (feedLines okEnv 1000 [getLine 0] (emptyServer, clientWith 7 [])).map
      (fun sc => (replyTexts sc, argTexts sc, sc.2.cmdTy, sc.2.bulkNum)) =
      some ([bytes "$-1\r\n"], [none, none], CommonUnkonw, 0) ∧
    ((feedLines okEnv 1000 [getLine 0] (emptyServer, clientWith 7 [])).bind
      (fun sc => handleBulkBuf sc.1
        { sc.2 with queryBuf := bytes "*0\n", queryLen := 3, cmdTy := CommonBulk })).map
      (fun r => (r.1, r.2.1, r.2.2.2.args.length)) = some (true, false, 2) ∧
    ((feedLines okEnv 1000 [getLine 0] (emptyServer, clientWith 7 [])).bind
      (feedLine okEnv 1000 (bytes "*0\n"))).isNone = true := by
  refine ⟨by decide, by decide, by decide, by decide⟩

set_option maxRecDepth 1000000 in
/-- C25. A rehash step indexes past the old table after deletions, because `Delete` never
lowers `used`.  `Add(k1, v1)` followed by `Delete(k1)`, twenty-four times over on a fresh
dictionary, leaves `ht[0]` of size 8 without an entry and with `used` at 24.  The next
`Add(k1, v1)` returns nil and, `used` exceeding twice the size, starts a rehash: `rehashIdx`
is 0, `ht[0]` is empty with `used` still 24 and the new entry is in `ht[1]`.  The following
`Find(k1)` faults: its rehash step does not promote `ht[1]`, since `used` is not 0, and its
scan for a non-empty slot reads `ht[0].table[8]`. -/
theorem C25_rehash_scan_leaves_table :
    (addDelete gstrType 1 101 24 exampleHeap DictCreate).map
      (fun s => (s.2.rehashIdx,
        s.2.hts0.map (fun t => (t.size, t.used, t.table.flatten.length)), s.2.hts1.isSome)) =
      some (-1, some (8, 24, 0), false) ∧
    ((addDelete gstrType 1 101 24 exampleHeap DictCreate).bind
      (fun s => Add gstrType s.1 s.2 1 101)).map
      (fun a => (a.1, a.2.2.rehashIdx,
        a.2.2.hts0.map (fun t => (t.size, t.used, t.table.flatten.length)))) =
      some (none, 0, some (8, 24, 0)) ∧
    ((addDelete gstrType 1 101 24 exampleHeap DictCreate).bind
      (fun s => Add gstrType s.1 s.2 1 101)).map
      (fun a => a.2.2.hts1.map (fun t => (t.size, t.used, t.table.flatten.length))) =
      some (some (16, 1, 1)) ∧
    ((addDelete gstrType 1 101 24 exampleHeap DictCreate).bind
      (fun s => Add gstrType s.1 s.2 1 101)).bind
      (fun a => Find gstrType a.2.1 a.2.2 1) = none := by
  refine ⟨by decide, by decide, by decide, by decide⟩

set_option maxRecDepth 1000000 in
/-- C26. A negative count or length header makes `handleBulkBuf` fault.  `Atoi` accepts
`-1` and `-5`.  On the buffer `*-1\n` the count passes the test `bnum == 0` and
`make([]*Gobj, bnum)` is called with the length -1: the call faults, whatever follows the
header in the buffer, and so does `ProcessQueryBuf`.  On the header `$-5\n` of a bulk the
length passes the tests `blen == 0` and `blen > GodisMaxBulk`, the test
`queryLen < bulkLen + 1` does not suspend, and `queryBuf[-5]` is read: the call faults, and
so does `ProcessQueryBuf` on `*1\n$-5\n`. -/
theorem C26_negative_header_faults :
    Atoi (bytes "-1") = (-1, false) ∧ Atoi (bytes "-5") = (-5, false) ∧
    (∀ rest : Bytes, handleBulkBuf emptyServer
      { clientWith 7 [] with cmdTy := CommonBulk, queryBuf := bytes "*-1\n" ++ rest, queryLen := 4 }
        = none) ∧
    (ProcessQueryBuf okEnv 0 emptyServer (clientWith 7 (bytes "*-1\n"))).isNone = true ∧
    (handleBulkBuf emptyServer
      { clientWith 7 (bytes "$-5\n") with cmdTy := CommonBulk, bulkNum := 1, args := [none] }).isNone
        = true ∧
    (ProcessQueryBuf okEnv 0 emptyServer (clientWith 7 (bytes "*1\n$-5\n"))).isNone = true := by
  refine ⟨by decide, by decide, ?_, by decide, by decide, by decide⟩
  intro rest
  exact negative_count_faults _ _ rest rfl rfl rfl

end Godis
